import Mathlib

/-!
# xv6 file-system checker (`xv6_fsck.c`): a shallow embedding

The image that `main` maps into memory is a byte-addressed memory `Mem`; every
pointer of the C program is a byte offset from `mem_start`.  Multi-byte fields are
read in little-endian order (the host order of the program's platform).

Conventions of the embedding:

* `uint` arithmetic that can wrap is taken modulo `2 ^ 32` (`b_addr * BSIZE`);
* `int` arithmetic is evaluated over unbounded integers (signed overflow has no
  defined meaning in C), and `malloc`/`calloc` are taken to succeed;
* the heap tables `used_datablocks`, `in_use_inums` and `circle` are lists whose
  length is the allocated number of cells; an access past the end is reported as a
  distinguished result instead of being given a meaning;
* a C function that returns `0` or `-1` returns the same `Int` here.
-/

namespace Fsck

/-! ## Constants of `fs.h` -/

/-- Root i-number. -/
def ROOTINO : Nat := 1

/-- Block size in bytes. -/
def BSIZE : Nat := 512

/-- Number of direct addresses of an inode. -/
def NDIRECT : Nat := 12

/-- Number of addresses in an indirect block: `BSIZE / sizeof(uint)`. -/
def NINDIRECT : Nat := BSIZE / 4

/-- Size in bytes of `struct dinode`: four shorts, one uint, thirteen uints. -/
def DINODE_SIZE : Nat := 4 * 2 + 4 + (NDIRECT + 1) * 4

/-- Size in bytes of `struct dirent`: a ushort and `DIRSIZ = 14` chars. -/
def DIRENT_SIZE : Nat := 2 + 14

/-- Directory type. -/
def T_DIR : Int := 1

/-- File type. -/
def T_FILE : Int := 2

/-- Device type. -/
def T_DEV : Int := 3

/-- Inodes per block: `BSIZE / sizeof(struct dinode)`. -/
def IPB : Nat := BSIZE / DINODE_SIZE

/-- Bitmap bits per block: `BSIZE*8`. -/
def BPB : Nat := BSIZE * 8

/-- Dirents per block: `BSIZE/sizeof(struct dirent)`. -/
def DPB : Nat := BSIZE / DIRENT_SIZE

/-- The macro `BBLOCK(b, ninodes)`: `b/BPB + (ninodes)/IPB + 3`. -/
def BBLOCK (b ninodes : Nat) : Nat := b / BPB + ninodes / IPB + 3

/-! ## Memory and field access -/

/-- The mapped image: the byte found at each offset from `mem_start`. -/
abbrev Mem := Nat → Nat

/-- One byte of memory. -/
def rd8 (m : Mem) (p : Nat) : Nat := m p % 256

/-- A `ushort` stored at `p`. -/
def rd16 (m : Mem) (p : Nat) : Nat := rd8 m p + 256 * rd8 m (p + 1)

/-- A `uint` stored at `p`. -/
def rd32 (m : Mem) (p : Nat) : Nat := rd16 m p + 65536 * rd16 m (p + 2)

/-- The value of a 16-bit pattern read as a C `short`. -/
def toInt16 (v : Nat) : Int := if v < 32768 then (v : Int) else (v : Int) - 65536

/-- The value of a 32-bit pattern read as a C `int`. -/
def toInt32 (v : Nat) : Int := if v < 2147483648 then (v : Int) else (v : Int) - 4294967296

/-- Store one byte. -/
def poke8 (m : Mem) (p v : Nat) : Mem := fun q => if q = p then v % 256 else m q

/-- Store a `ushort`. -/
def poke16 (m : Mem) (p v : Nat) : Mem := poke8 (poke8 m p (v % 256)) (p + 1) (v / 256)

/-- Store a `uint`. -/
def poke32 (m : Mem) (p v : Nat) : Mem := poke16 (poke16 m p (v % 65536)) (p + 2) (v / 65536)

/-- Field `sb->size`; the superblock is at `mem_start + BSIZE`. -/
def sb_size (m : Mem) : Nat := rd32 m BSIZE

/-- Field `sb->nblocks`. -/
def sb_nblocks (m : Mem) : Nat := rd32 m (BSIZE + 4)

/-- Field `sb->ninodes`. -/
def sb_ninodes (m : Mem) : Nat := rd32 m (BSIZE + 8)

/-- Offset of inode `i`: `mem_start + 2*BSIZE` advanced by `i` records. -/
def dinode (i : Nat) : Nat := 2 * BSIZE + i * DINODE_SIZE

/-- Field `node->type` (a `short`). -/
def dtype (m : Mem) (node : Nat) : Int := toInt16 (rd16 m node)

/-- Field `node->nlink` (a `short`). -/
def nlink (m : Mem) (node : Nat) : Int := toInt16 (rd16 m (node + 6))

/-- Field `node->addrs[j]`. -/
def addrs (m : Mem) (node j : Nat) : Nat := rd32 m (node + 12 + 4 * j)

/-- Offset of block `b_addr`: the `uint` product `b_addr*BSIZE`. -/
def blk (b_addr : Nat) : Nat := (b_addr * BSIZE) % 4294967296

/-- Entry `j` of the block `b_addr` read as an array of `uint`. -/
def ind (m : Mem) (b_addr j : Nat) : Nat := rd32 m (blk b_addr + 4 * j)

/-- Offset of dirent `k` of the block `b_addr` read as an array of `struct dirent`. -/
def dent (b_addr k : Nat) : Nat := blk b_addr + DIRENT_SIZE * k

/-- Field `d_entry->inum` (a `ushort`). -/
def d_inum (m : Mem) (d : Nat) : Nat := rd16 m d

/-- Byte `t` of `d_entry->name`. -/
def d_name (m : Mem) (d t : Nat) : Nat := rd8 m (d + 2 + t)

/-- The test `strcmp(d_entry->name, ".") == 0`. -/
def isDot (m : Mem) (d : Nat) : Bool := d_name m d 0 == 46 && d_name m d 1 == 0

/-- The test `strcmp(d_entry->name, "..") == 0`. -/
def isDotDot (m : Mem) (d : Nat) : Bool :=
  d_name m d 0 == 46 && d_name m d 1 == 46 && d_name m d 2 == 0

/-- Integer promotion of a `char` byte, as a 32-bit two's complement pattern. -/
def promote_char (byte : Nat) : Nat := if byte < 128 then byte else byte + (4294967296 - 256)

/-- The macro `CHECKBIT(bm, b_addr)`:
`((*(bm + b_addr / 8)) & (1 << (b_addr % 8))) > 0` with `bm` a `char *`. -/
def CHECKBIT (m : Mem) (bm b_addr : Nat) : Bool :=
  decide (0 < toInt32 (promote_char (rd8 m (bm + b_addr / 8)) &&& (1 <<< (b_addr % 8))))

/-! ## Loops with early return -/

/-- What one pass through a loop body yields: go on with a new state, or leave the
function with a value. -/
inductive Step (σ ρ : Type) where
  | next (s : σ)
  | ret (r : ρ)
  deriving DecidableEq

/-- A `for` loop over `xs` whose body may `return`. -/
def loop {α σ ρ : Type} (body : σ → α → Step σ ρ) : List α → σ → Step σ ρ
  | [], s => .next s
  | x :: xs, s =>
    match body s x with
    | .next s' => loop body xs s'
    | .ret r => .ret r

/-! ## Checks 1 to 5 -/

/-- Check 1. -/
def check_valid_inodes (type : Int) : Int :=
  if type = T_DIR then 0
  else if type = T_FILE then 0
  else if type = T_DEV then 0
  else -1

/-- Check 2A. -/
def check_valid_direct (m : Mem) (node size : Nat) : Int :=
  match loop (fun (_ : Unit) i =>
      let b_addr := addrs m node i
      if b_addr = 0 then Step.next ()
      else if b_addr ≥ size then Step.ret (-1 : Int)
      else Step.next ()) (List.range NDIRECT) () with
  | .ret r => r
  | .next _ => 0

/-- Check 2B. -/
def check_valid_indirect (m : Mem) (node size : Nat) : Int :=
  let b_addr := addrs m node NDIRECT
  if b_addr = 0 then 0
  else if b_addr ≥ size then -1
  else
    match loop (fun (_ : Unit) i =>
        let a := ind m b_addr i
        if a = 0 then Step.next ()
        else if a ≥ size then Step.ret (-1 : Int)
        else Step.next ()) (List.range NINDIRECT) () with
    | .ret r => r
    | .next _ => 0

/-- Body of the inner loop of `check_valid_dir` at the dirent `d`, with the flags
`(cd, pd)` as state. -/
def dir_body (m : Mem) (inum : Nat) (st : Bool × Bool) (d : Nat) : Step (Bool × Bool) Int :=
  let cd := if isDot m d then true else st.1
  if isDot m d && d_inum m d != inum then .ret (-1)
  else
    let pd := if isDotDot m d then true else st.2
    if isDotDot m d &&
        (if inum != 1 then !cd && d_inum m d != inum else d_inum m d != inum) then .ret (-1)
    else if cd && pd then .ret 0
    else .next (cd, pd)

/-- Checks 3 and 4. -/
def check_valid_dir (m : Mem) (node inum : Nat) : Int :=
  match loop (fun st i =>
      let b_addr := addrs m node i
      if b_addr = 0 then Step.next st
      else loop (fun st j => dir_body m inum st (dent b_addr j)) (List.range DPB) st)
      (List.range NDIRECT) (false, false) with
  | .ret r => r
  | .next _ => -1

/-- Check 5.  The bitmap starts at block `BBLOCK(0, ninodes)`. -/
def check_valid_bitmap (m : Mem) (node ninodes : Nat) (_inum : Nat) : Int :=
  let bm := BBLOCK 0 ninodes * BSIZE
  match loop (fun (_ : Unit) i =>
      let b_addr := addrs m node i
      if b_addr = 0 then Step.next ()
      else if i = NDIRECT then
        loop (fun (_ : Unit) j =>
          let a := ind m b_addr j
          if a = 0 then Step.next ()
          else if !CHECKBIT m bm a then Step.ret (-1 : Int)
          else Step.next ()) (List.range NINDIRECT) ()
      else if !CHECKBIT m bm b_addr then Step.ret (-1 : Int)
      else Step.next ()) (List.range (NDIRECT + 1)) () with
  | .ret r => r
  | .next _ => 0

/-! ## Heap tables -/

/-- The assignment `t[i] = v` on a table of `t.length` cells; `none` when `i` lies past
the end. -/
def store (t : List Nat) (i v : Nat) : Option (List Nat) :=
  if i < t.length then some (t.set i v) else none

/-- The statement `t[i]++`; `none` when `i` lies past the end. -/
def bump (t : List Nat) (i : Nat) : Option (List Nat) :=
  match t[i]? with
  | some v => some (t.set i (v + 1))
  | none => none

/-- A table of `n` cells as `calloc` returns it. -/
def calloc (n : Nat) : List Nat := List.replicate n 0

/-! ## Check 6 -/

/-- Helper of check 6: mark in `used_datablocks` every block the inode refers to. -/
def find_used_datablocks (m : Mem) (dip : Nat) (used : List Nat) : Option (List Nat) :=
  match loop (fun used i =>
      let b_addr := addrs m dip i
      if b_addr = 0 then Step.next used
      else
        match store used b_addr 1 with
        | none => Step.ret ()
        | some used1 =>
          if i = NDIRECT then
            loop (fun used j =>
              let a := ind m b_addr j
              if a = 0 then Step.next used
              else
                match store used a 1 with
                | none => Step.ret ()
                | some used2 => Step.next used2) (List.range NINDIRECT) used1
          else Step.next used1) (List.range (NDIRECT + 1)) used with
  | .ret _ => none
  | .next used' => some used'

/-- Check 6, run on the table `used` that `used_datablocks` points to.  The result is
`none` when a table access lies outside the table. -/
def check_valid_blocks_in_bitmap (m : Mem) (db1 : Nat) (used : List Nat) : Option Int :=
  let bm := BBLOCK 0 (sb_ninodes m) * BSIZE
  match loop (fun used i =>
      let dip := dinode i
      if dtype m dip = 0 then Step.next used
      else
        match find_used_datablocks m dip used with
        | none => Step.ret ()
        | some used' => Step.next used') (List.range (sb_ninodes m)) used with
  | .ret _ => none
  | .next used' =>
    match loop (fun (_ : Unit) i =>
        match used'[i]? with
        | none => Step.ret (none : Option Int)
        | some u =>
          if u = 0 && CHECKBIT m bm i then Step.ret (some (-1))
          else Step.next ()) (List.range' db1 (sb_nblocks m - db1)) () with
    | .ret r => r
    | .next _ => some 0

/-! ## Checks 7 and 8 -/

/-- Check 7.  The state is the filled part `used_addrs[0 .. total)`. -/
def check_direct_addr_use (m : Mem) (ninodes : Nat) : Int :=
  match loop (fun used i =>
      let dip := dinode i
      if dtype m dip = 0 then Step.next used
      else
        loop (fun (used : List Nat) j =>
          let addr := addrs m dip j
          if addr = 0 then Step.next used
          else if used.contains addr then Step.ret (-1 : Int)
          else Step.next (used ++ [addr])) (List.range NDIRECT) used)
      (List.range ninodes) [] with
  | .ret r => r
  | .next _ => 0

/-- Check 8.  The state is the filled part `used_addrs[0 .. total)`. -/
def check_indirect_addr_use (m : Mem) (ninodes : Nat) : Int :=
  match loop (fun used i =>
      let dip := dinode i
      if dtype m dip = 0 then Step.next used
      else
        let slot := addrs m dip NDIRECT
        if slot = 0 then Step.next used
        else
          loop (fun (used : List Nat) j =>
            let addr := ind m slot j
            if addr = 0 then Step.next used
            else if used.contains addr then Step.ret (-1 : Int)
            else Step.next (used ++ [addr])) (List.range NINDIRECT) used)
      (List.range ninodes) [] with
  | .ret r => r
  | .next _ => 0

/-! ## The reference pass -/

/-- The dirent loop of `get_inode_info` over the block `b_addr`: every dirent not named
`.` or `..` increments the cell of its inum. -/
def count_block (m : Mem) (b_addr : Nat) (tbl : List Nat) : Step (List Nat) Unit :=
  loop (fun tbl k =>
    let d := dent b_addr k
    if isDot m d || isDotDot m d then Step.next tbl
    else
      match bump tbl (d_inum m d) with
      | none => Step.ret ()
      | some tbl' => Step.next tbl') (List.range DPB) tbl

/-- Helper of checks 9 to 12, run on the table `tbl` that `in_use_inums` points to. -/
def get_inode_info (m : Mem) (ninodes : Nat) (tbl : List Nat) : Option (List Nat) :=
  match loop (fun tbl i =>
      let dip := dinode i
      if dtype m dip = T_DIR then
        match loop (fun tbl j =>
            let b_addr := addrs m dip j
            if b_addr = 0 then Step.next tbl
            else count_block m b_addr tbl) (List.range NDIRECT) tbl with
        | .ret r => Step.ret r
        | .next tbl1 =>
          let b_addr := addrs m dip NDIRECT
          if b_addr = 0 then Step.next tbl1
          else
            loop (fun tbl j =>
              let a := ind m b_addr j
              if a = 0 then Step.next tbl
              else count_block m a tbl) (List.range NINDIRECT) tbl1
      else Step.next tbl) (List.range ninodes) tbl with
  | .ret _ => none
  | .next tbl' => some tbl'

/-! ## Extra check 1 -/

/-- The search `while (n < ninodes)` of `check_parent_dir` for the inum of a `..`
entry. -/
def parent_found (tbl : List Nat) (ninodes inum : Nat) : Bool :=
  match loop (fun (_ : Unit) n =>
      if tbl.getD n 0 = 0 then Step.next ()
      else if inum = n then Step.ret true
      else Step.next ()) (List.range ninodes) () with
  | .ret r => r
  | .next _ => false

/-- Extra check 1.  The result is `none` when a table access lies outside the table. -/
def check_parent_dir (m : Mem) (ninodes : Nat) : Option Int :=
  match loop (fun tbl i =>
      let node := dinode i
      if dtype m node ≠ T_DIR then Step.next tbl
      else
        loop (fun tbl j =>
          let b_addr := addrs m node j
          if b_addr = 0 then Step.next tbl
          else
            loop (fun tbl k =>
              let d := dent b_addr k
              if isDot m d then
                match store tbl (d_inum m d) (d_inum m d) with
                | none => Step.ret ()
                | some tbl' => Step.next tbl'
              else Step.next tbl) (List.range DPB) tbl) (List.range (NDIRECT + 1)) tbl)
      (List.range ninodes) (calloc ninodes) with
  | .ret _ => none
  | .next tbl =>
    match loop (fun (_ : Unit) i =>
        let node := dinode i
        if dtype m node ≠ T_DIR then Step.next ()
        else
          loop (fun (_ : Unit) j =>
            let b_addr := addrs m node j
            if b_addr = 0 then Step.next ()
            else
              loop (fun (_ : Unit) k =>
                let d := dent b_addr k
                if isDotDot m d then
                  if !parent_found tbl ninodes (d_inum m d) then Step.ret (-1 : Int)
                  else Step.next ()
                else Step.next ()) (List.range DPB) ()) (List.range (NDIRECT + 1)) ())
        (List.range ninodes) () with
    | .ret r => some r
    | .next _ => some 0

/-! ## Extra check 2 -/

/-- Outcome of the scan `while (circle[k] != 0)` of `recurse_dir` followed by
`circle[k] = inum`. -/
inductive Scan where
  | overrun
  | seen
  | added (circ : List Nat)

/-- The scan of `circle` for `inum`: stop with `seen` at a cell equal to `inum`, write
`inum` into the first zero cell, and run over the end when no cell is zero. -/
def circle_scan (inum : Nat) : List Nat → Scan
  | [] => .overrun
  | c :: cs =>
    if c = 0 then .added (inum :: cs)
    else if inum = c then .seen
    else
      match circle_scan inum cs with
      | .added cs' => .added (c :: cs')
      | .seen => .seen
      | .overrun => .overrun

/-- Result of a call of `recurse_dir`: the recursion budget ran out, a table access lay
outside the table, or the call returned `v` leaving `circle` behind. -/
inductive Walk where
  | timeout
  | fault
  | ret (v : Int) (circ : List Nat)

/-- Helper of extra check 2.  `fuel` bounds the depth of the recursion. -/
def recurse_dir (m : Mem) : Nat → Nat → List Nat → Walk
  | 0, _, _ => .timeout
  | fuel + 1, node, circ =>
    match loop (fun circ i =>
        let b_addr := addrs m node i
        if b_addr = 0 then Step.next circ
        else
          loop (fun circ j =>
            let d := dent b_addr j
            if d_inum m d = 0 then Step.next circ
            else if !isDotDot m d then Step.next circ
            else if d_inum m d = 1 then Step.next circ
            else
              match circle_scan (d_inum m d) circ with
              | .overrun => Step.ret Walk.fault
              | .seen => Step.ret (Walk.ret (-1) circ)
              | .added circ1 =>
                match recurse_dir m fuel (dinode (d_inum m d)) circ1 with
                | .ret v circ2 =>
                  if v = -1 then Step.ret (Walk.ret (-1) circ2) else Step.next circ2
                | w => Step.ret w) (List.range DPB) circ) (List.range NDIRECT) circ with
    | .ret w => w
    | .next circ' => .ret 0 circ'

/-- Result of `check_no_loops`: as for `recurse_dir`, without the table. -/
inductive Res where
  | timeout
  | fault
  | val (v : Int)

/-- Extra check 2.  Every inode gets a fresh `circle` of `ninodes` cells. -/
def check_no_loops (m : Mem) (fuel ninodes : Nat) : Res :=
  match loop (fun (_ : Unit) i =>
      let node := dinode i
      if dtype m node ≠ T_DIR then Step.next ()
      else
        match recurse_dir m fuel node (calloc ninodes) with
        | .ret v _ => if v = -1 then Step.ret (Res.val (-1)) else Step.next ()
        | .timeout => Step.ret Res.timeout
        | .fault => Step.ret Res.fault) (List.range ninodes) () with
  | .ret w => w
  | .next _ => .val 0

/-! ## The driver -/

/-- The structural errors `main` reports, under the names of the invariants. -/
inductive Err where
  | BadInode
  | BadDirect
  | BadIndirect
  | NoRoot
  | BadDir
  | AddrUsedNotMarked
  | MarkedNotUsed
  | DirectDup
  | IndirectDup
  | InodeUsedNotInDir
  | InodeInDirNotUsed
  | BadRefCount
  | DirMulti
  | ParentMismatch
  | DirLoop
  deriving DecidableEq

/-- The line `main` prints on standard error for each error. -/
def Err.message : Err → String
  | .BadInode => "ERROR: bad inode.\n"
  | .BadDirect => "ERROR: bad direct address in inode.\n"
  | .BadIndirect => "ERROR: bad indirect address in inode.\n"
  | .NoRoot => "ERROR: root directory does not exist.\n"
  | .BadDir => "ERROR: directory not properly formatted.\n"
  | .AddrUsedNotMarked => "ERROR: address used by inode but marked free in bitmap.\n"
  | .MarkedNotUsed => "ERROR: bitmap marks block in use but it is not in use.\n"
  | .DirectDup => "ERROR: direct address used more than once.\n"
  | .IndirectDup => "ERROR: indirect address used more than once.\n"
  | .InodeUsedNotInDir => "ERROR: inode marked use but not found in a directory.\n"
  | .InodeInDirNotUsed => "ERROR: inode referred to in directory but marked free.\n"
  | .BadRefCount => "ERROR: bad reference count for file.\n"
  | .DirMulti => "ERROR: directory appears more than once in file system.\n"
  | .ParentMismatch => "ERROR: parent directory mismatch.\n"
  | .DirLoop => "ERROR: inaccessible directory exists.\n"

/-- How a run of `main` in verify mode ends: `return 0`, an error line followed by
`exit(1)`, or a run that leaves the embedding (a table access outside the table, or the
recursion budget of `recurse_dir` used up). -/
inductive Outcome where
  | exit0
  | error (e : Err)
  | fault
  deriving DecidableEq

/-- The first data block, as `main` computes it. -/
def first_data_block (m : Mem) : Nat :=
  (((sb_ninodes m / IPB) + 1) + ((sb_size m / BPB) + 1) + 2) % 4294967296

/-- Body of the first loop of `main` (checks 1 to 5) for inode `i`. -/
def per_inode (m : Mem) (i : Nat) : Step Unit Outcome :=
  let dip := dinode i
  if dtype m dip = 0 then .next ()
  else if check_valid_inodes (dtype m dip) < 0 then .ret (.error .BadInode)
  else if check_valid_direct m dip (sb_size m) < 0 then .ret (.error .BadDirect)
  else if check_valid_indirect m dip (sb_size m) < 0 then .ret (.error .BadIndirect)
  else if i = 1 ∧ (dtype m dip ≠ T_DIR ∨ check_valid_dir m dip i < 0) then
    .ret (.error .NoRoot)
  else if dtype m dip = T_DIR ∧ check_valid_dir m dip i < 0 then .ret (.error .BadDir)
  else if check_valid_bitmap m dip (sb_ninodes m) i < 0 then .ret (.error .AddrUsedNotMarked)
  else .next ()

/-- Body of the loop of `main` that holds checks 9 to 12, for inode `i` and the table
`tbl` built by `get_inode_info`. -/
def ref_checks (m : Mem) (tbl : List Nat) (i : Nat) : Step Unit Outcome :=
  let dip := dinode i
  if i < 2 then .next ()
  else if dtype m dip ≠ 0 ∧ tbl.getD i 0 = 0 then .ret (.error .InodeUsedNotInDir)
  else if tbl.getD i 0 ≠ 0 ∧ dtype m dip = 0 then .ret (.error .InodeInDirNotUsed)
  else if dtype m dip = T_FILE ∧ nlink m dip ≠ (tbl.getD i 0 : Int) then
    .ret (.error .BadRefCount)
  else if dtype m dip = T_DIR ∧ tbl.getD i 0 > 1 then .ret (.error .DirMulti)
  else .next ()

/-- Verify mode of `main` on the mapped image `m`.  `recurse_dir` is given the depth
`ninodes + 1`, which a `circle` of `ninodes` cells cannot exceed
(`check_no_loops_no_timeout`). -/
def main (m : Mem) : Outcome :=
  let ninodes := sb_ninodes m
  let db1 := first_data_block m
  match loop (fun _ i => per_inode m i) (List.range ninodes) () with
  | .ret o => o
  | .next _ =>
    match check_valid_blocks_in_bitmap m db1 (calloc (sb_nblocks m)) with
    | none => .fault
    | some r6 =>
      if r6 < 0 then .error .MarkedNotUsed
      else if check_direct_addr_use m ninodes < 0 then .error .DirectDup
      else if check_indirect_addr_use m ninodes < 0 then .error .IndirectDup
      else
        match get_inode_info m ninodes (calloc ninodes) with
        | none => .fault
        | some tbl =>
          match loop (fun _ i => ref_checks m tbl i) (List.range ninodes) () with
          | .ret o => o
          | .next _ =>
            match check_parent_dir m ninodes with
            | none => .fault
            | some r13 =>
              if r13 < 0 then .error .ParentMismatch
              else
                match check_no_loops m (ninodes + 1) ninodes with
                | .val r14 => if r14 < 0 then .error .DirLoop else .exit0
                | _ => .fault

/-! ## The repair pass -/

/-- The inner loops of `repair` for the orphan `i`: scan the blocks that the twelve
direct slots of `lost_found` name, in order, and store `i` in the inum field of the
first dirent whose inum is 0; the image stays as it is when there is none.  A slot
holding 0 is not skipped: it names block 0. -/
def attach (m : Mem) (lost_found i : Nat) : Mem :=
  match loop (fun (_ : Unit) j =>
      let b_addr := addrs m lost_found j
      loop (fun (_ : Unit) k =>
        let d := dent b_addr k
        if d_inum m d = 0 then Step.ret (poke16 m d i)
        else Step.next ()) (List.range DPB) ()) (List.range NDIRECT) () with
  | .ret m' => m'
  | .next _ => m

/-- The function `repair`: the reference pass on a fresh table, then for every inode
`i ≥ 2` of non-zero type with `in_use_inums[i] == 0` the search of `attach` in the
inode 29.  The result is `none` when the reference pass accesses the table outside its
cells. -/
def repair (m : Mem) (ninodes : Nat) : Option Mem :=
  match get_inode_info m ninodes (calloc ninodes) with
  | none => none
  | some tbl =>
    let lost_found := dinode 29
    some ((List.range ninodes).foldl (fun mem i =>
      if i < 2 then mem
      else if dtype mem (dinode i) ≠ 0 ∧ tbl.getD i 0 = 0 then attach mem lost_found i
      else mem) m)

/-- Repair mode of `main` on the mapped image `m`. -/
def main_repair (m : Mem) : Option Mem := repair m (sb_ninodes m)

/-! ## Definitions used in the statements and in the proofs -/

/-- The non-zero direct addresses (slots 0..11) of the inodes of non-zero type, in inode
order. -/
def direct_seq (m : Mem) (ninodes : Nat) : List Nat :=
  (List.range ninodes).flatMap fun i =>
    if dtype m (dinode i) = 0 then []
    else ((List.range NDIRECT).map (addrs m (dinode i))).filter (· ≠ 0)

/-- The non-zero addresses stored inside the indirect blocks of the inodes of non-zero
type whose indirect slot is non-zero, in inode order. -/
def indirect_seq (m : Mem) (ninodes : Nat) : List Nat :=
  (List.range ninodes).flatMap fun i =>
    if dtype m (dinode i) = 0 then []
    else if addrs m (dinode i) NDIRECT = 0 then []
    else ((List.range NINDIRECT).map (ind m (addrs m (dinode i) NDIRECT))).filter (· ≠ 0)

/-- One step of the duplicate search shared by checks 7 and 8. -/
def dup_step (used : List Nat) (addr : Nat) : Step (List Nat) Int :=
  if addr = 0 then .next used
  else if used.contains addr then .ret (-1)
  else .next (used ++ [addr])

/-- Bit `b` of the bitmap of an image with `ninodes` inodes: bit `b % 8` of the byte
`b / 8` of the bitmap, which starts at block `BBLOCK(0, ninodes)`. -/
def bitmap_bit (m : Mem) (ninodes b : Nat) : Bool :=
  (rd8 m (BBLOCK 0 ninodes * BSIZE + b / 8)).testBit (b % 8)

/-- The non-zero addresses an inode refers to, in the order `find_used_datablocks` meets
them: the direct slots, the indirect slot, the entries of the indirect block. -/
def refs (m : Mem) (dip : Nat) : List Nat :=
  ((List.range NDIRECT).map (addrs m dip)).filter (· ≠ 0) ++
    (if addrs m dip NDIRECT = 0 then []
      else addrs m dip NDIRECT ::
        ((List.range NINDIRECT).map (ind m (addrs m dip NDIRECT))).filter (· ≠ 0))

/-- The addresses referred to by the inodes of non-zero type among the first `ninodes`
inodes. -/
def U_seq (m : Mem) (ninodes : Nat) : List Nat :=
  (List.range ninodes).flatMap fun i => if dtype m (dinode i) = 0 then [] else refs m (dinode i)

/-- Block `b` is in the set `U`: some inode of non-zero type refers to it. -/
def in_U (m : Mem) (ninodes b : Nat) : Prop :=
  ∃ i, i < ninodes ∧ dtype m (dinode i) ≠ 0 ∧ b ∈ refs m (dinode i)

/-- One marking `used_datablocks[a] = 1`. -/
def mark_step (used : List Nat) (a : Nat) : Step (List Nat) Unit :=
  match store used a 1 with
  | none => .ret ()
  | some used' => .next used'

/-- The non-zero addresses whose bitmap bit `check_valid_bitmap` tests: the direct slots
and the entries of the indirect block. -/
def tested_refs (m : Mem) (dip : Nat) : List Nat :=
  ((List.range NDIRECT).map (addrs m dip)).filter (· ≠ 0) ++
    (if addrs m dip NDIRECT = 0 then []
      else ((List.range NINDIRECT).map (ind m (addrs m dip NDIRECT))).filter (· ≠ 0))

/-- Memory holding zero everywhere. -/
def zero_mem : Mem := fun _ => 0

/-- Write the bytes of a name into the dirent at `d`, from byte `t` on. -/
def put_name (m : Mem) (d : Nat) : List Nat → Nat → Mem
  | [], _ => m
  | c :: cs, t => put_name (poke8 m (d + 2 + t) c) d cs (t + 1)

/-- Write a dirent: its inum and the bytes of its name (the rest of the field stays
zero). -/
def put_dirent (m : Mem) (d inum : Nat) (name : List Nat) : Mem :=
  put_name (poke16 m d inum) d name 0

/-- Write the superblock. -/
def put_sb (m : Mem) (size nblocks ninodes : Nat) : Mem :=
  poke32 (poke32 (poke32 m BSIZE size) (BSIZE + 4) nblocks) (BSIZE + 8) ninodes

/-- Write an inode with one direct block: type, nlink and `addrs[0]`. -/
def put_inode (m : Mem) (i type links addr0 : Nat) : Mem :=
  poke32 (poke16 (poke16 m (dinode i) type) (dinode i + 6) links) (dinode i + 12) addr0

/-- An image of 16 blocks and 8 inodes in which no inode is allocated and no bitmap bit
is set. -/
def img_no_root : Mem := put_sb zero_mem 16 16 8

/-- An image of 16 blocks and 8 inodes: inode 1 is the root directory with the data block
5 holding `.` and `..`, both naming inode 1; the bitmap (block 4) has bit 5 set only. -/
def img_clean : Mem :=
  let m := put_sb zero_mem 16 16 8
  let m := put_inode m 1 1 1 5
  let m := put_dirent m (dent 5 0) 1 [46]
  let m := put_dirent m (dent 5 1) 1 [46, 46]
  poke8 m (4 * BSIZE) 0x20

/-- The image `img_clean` with a file `a` (inode 2, one link) in the root directory whose
indirect slot names block 6, an all-zero block that the bitmap does not mark. -/
def img_unmarked_indirect : Mem :=
  let m := put_dirent img_clean (dent 5 2) 2 [97]
  let m := put_inode m 2 2 1 0
  poke32 m (dinode 2 + 12 + 4 * NDIRECT) 6

/-- An image with three directories: the root (inode 1, block 5) holds an entry for
inode 3; inode 3 (block 6) holds an entry for inode 2; inode 2 (block 7) has a `..` that
names the root. -/
def img_wrong_parent : Mem :=
  let m := put_sb zero_mem 16 16 8
  let m := put_inode m 1 1 1 5
  let m := put_dirent m (dent 5 0) 1 [46]
  let m := put_dirent m (dent 5 1) 1 [46, 46]
  let m := put_dirent m (dent 5 2) 3 [100, 51]
  let m := put_inode m 3 1 1 6
  let m := put_dirent m (dent 6 0) 3 [46]
  let m := put_dirent m (dent 6 1) 1 [46, 46]
  let m := put_dirent m (dent 6 2) 2 [100, 50]
  let m := put_inode m 2 1 1 7
  let m := put_dirent m (dent 7 0) 2 [46]
  let m := put_dirent m (dent 7 1) 1 [46, 46]
  poke8 m (4 * BSIZE) 0xe0

/-- The dirents `check_valid_dir` visits: every slot of every block named by a non-zero
direct address, in order. -/
def dir_slots (m : Mem) (node : Nat) : List Nat :=
  (List.range NDIRECT).flatMap fun i =>
    if addrs m node i = 0 then [] else (List.range DPB).map (dent (addrs m node i))

/-- The result of the scan of `check_valid_dir` over the dirents `l` from the flags
`st`. -/
def dir_scan (m : Mem) (inum : Nat) (l : List Nat) (st : Bool × Bool) : Int :=
  match loop (dir_body m inum) l st with
  | .ret r => r
  | .next _ => -1

/-- An image in which the directory inode 2 (block 6) holds `..` (naming inode 1) in its
first dirent and `.` (naming inode 2) in its second. -/
def img_dotdot_first : Mem :=
  let m := put_sb zero_mem 16 16 8
  let m := put_inode m 2 1 1 6
  let m := put_dirent m (dent 6 0) 1 [46, 46]
  put_dirent m (dent 6 1) 2 [46]

/-- The dirents `recurse_dir` follows: non-zero inum, named `..`, inum other than 1. -/
def is_up_link (m : Mem) (d : Nat) : Bool :=
  d_inum m d != 0 && isDotDot m d && d_inum m d != 1

/-- The inode numbers `recurse_dir` follows from `node`, in the order it meets them. -/
def up_links (m : Mem) (node : Nat) : List Nat :=
  ((dir_slots m node).filter (is_up_link m)).map (d_inum m)

/-- What `recurse_dir` does with one inum it follows: scan `circle`, append, recurse. -/
def walk_step (m : Mem) (fuel : Nat) (circ : List Nat) (t : Nat) : Step (List Nat) Walk :=
  match circle_scan t circ with
  | .overrun => Step.ret Walk.fault
  | .seen => Step.ret (Walk.ret (-1) circ)
  | .added circ1 =>
    match recurse_dir m fuel (dinode t) circ1 with
    | .ret v circ2 =>
      if v = -1 then Step.ret (Walk.ret (-1) circ2) else Step.next circ2
    | w => Step.ret w

/-- The table `circle` of `n` cells whose filled part is `vis`. -/
def pad (n : Nat) (vis : List Nat) : List Nat := vis ++ List.replicate (n - vis.length) 0

/-- A filled part of `circle` as the walk keeps it: without repetition, every entry an
inode number from 2 to `n - 1`. -/
def GoodVis (n : Nat) (vis : List Nat) : Prop := vis.Nodup ∧ ∀ x ∈ vis, 2 ≤ x ∧ x < n

/-- Every inode number of the list has all the inode numbers it leads to later in the
list. -/
def Closed (m : Mem) : List Nat → Prop
  | [] => True
  | u :: rest => (∀ t ∈ up_links m (dinode u), t ∈ rest) ∧ Closed m rest

/-- Every dirent in a direct block of one of the first `n` inodes has an inum below
`n`. -/
def inums_bounded (m : Mem) (n : Nat) : Prop :=
  ∀ i, i < n → ∀ d ∈ dir_slots m (dinode i), d_inum m d < n

/-- A direct block of inode `a` holds a dirent in use (non-zero inum) that is named `..`
and names inode `b`. -/
def dotdot_names (m : Mem) (a b : Nat) : Prop :=
  ∃ d ∈ dir_slots m (dinode a), d_inum m d ≠ 0 ∧ isDotDot m d = true ∧ d_inum m d = b

/-- What a call of `recurse_dir` on inode `i` with the filled part `vis` yields: it returns,
`circle` has grown by `added`, and a return value 0 means that everything `i` leads to
was added and walked to the end. -/
def WalkSpec (m : Mem) (n fuel i : Nat) (vis : List Nat) : Prop :=
  ∃ v added, recurse_dir m fuel (dinode i) (pad n vis) = Walk.ret v (pad n (vis ++ added)) ∧
    GoodVis n (vis ++ added) ∧
    (v = -1 ∨ (v = 0 ∧ (∀ t ∈ up_links m (dinode i), t ∈ added) ∧ Closed m added))

/-- The body of the loop of `check_no_loops`. -/
def loops_body (m : Mem) (fuel ninodes : Nat) (_ : Unit) (i : Nat) : Step Unit Res :=
  if dtype m (dinode i) ≠ T_DIR then Step.next ()
  else
    match recurse_dir m fuel (dinode i) (calloc ninodes) with
    | .ret v _ => if v = -1 then Step.ret (Res.val (-1)) else Step.next ()
    | .timeout => Step.ret Res.timeout
    | .fault => Step.ret Res.fault

instance (m : Mem) (n : Nat) : Decidable (inums_bounded m n) := by
  unfold inums_bounded
  infer_instance

instance (m : Mem) (a b : Nat) : Decidable (dotdot_names m a b) := by
  unfold dotdot_names
  infer_instance

/-- An image with the root directory (inode 1, block 5) and two directories that name
each other as parent: inode 2 (block 6) holds `.`, `..` naming 3 and an entry for 3;
inode 3 (block 7) holds `.`, `..` naming 2 and an entry for 2. -/
def img_cycle : Mem :=
  let m := put_sb zero_mem 16 16 8
  let m := put_inode m 1 1 1 5
  let m := put_dirent m (dent 5 0) 1 [46]
  let m := put_dirent m (dent 5 1) 1 [46, 46]
  let m := put_inode m 2 1 1 6
  let m := put_dirent m (dent 6 0) 2 [46]
  let m := put_dirent m (dent 6 1) 3 [46, 46]
  let m := put_dirent m (dent 6 2) 3 [98]
  let m := put_inode m 3 1 1 7
  let m := put_dirent m (dent 7 0) 3 [46]
  let m := put_dirent m (dent 7 1) 2 [46, 46]
  let m := put_dirent m (dent 7 2) 2 [97]
  poke8 m (4 * BSIZE) 0xe0

/-- The two directories of `img_cycle` in turn: 2, 3, 2, 3, ... -/
def cycle_2_3 (i : Nat) : Nat := if i % 2 = 0 then 2 else 3

/-- A call of `recurse_dir` that does not run out of recursion depth and leaves no more
zero cells in `circle` than it found. -/
def Returns (w : Walk) (circ : List Nat) : Prop :=
  w = Walk.fault ∨ ∃ v c', w = Walk.ret v c' ∧ c'.count 0 ≤ circ.count 0

/-- The image `img_clean` whose root directory has a second direct address, 3, a block
below the first data block; the bitmap marks the blocks 3 and 5. -/
def img_low_addr : Mem :=
  poke8 (poke32 img_clean (dinode 1 + 12 + 4 * 1) 3) (4 * BSIZE) 0x28

/-- The table the reference pass builds for `img_wrong_parent`. -/
def tbl_wrong_parent : List Nat := [88, 0, 1, 1, 0, 0, 0, 0]

/-- The image `img_clean` with two more inodes: the file inode 2 has `nlink = 2` but is
named once (entry `f` of the root directory); the file inode 3 has `nlink = 1` and is
named by no directory. -/
def img_order : Mem :=
  let m := put_dirent img_clean (dent 5 2) 2 [102]
  let m := put_inode m 2 2 2 0
  put_inode m 3 2 1 0

/-- The image `img_clean` with the file inode 2 (one link, entry `f` of the root
directory) and the file inode 3, in use and named by no directory. -/
def img_orphan : Mem :=
  let m := put_dirent img_clean (dent 5 2) 2 [102]
  let m := put_inode m 2 2 1 0
  put_inode m 3 2 1 0

/-- The table the reference pass builds for `img_orphan`. -/
def tbl_orphan : List Nat := [29, 0, 1, 0, 0, 0, 0, 0]

/-- The dirent slots of the blocks `bs`, block after block. -/
def slots_of_blocks (bs : List Nat) : List Nat :=
  bs.flatMap fun b => (List.range DPB).map (dent b)

/-- The blocks of a directory as `get_inode_info` walks them: the blocks at its non-zero
direct addresses and, when the indirect slot is non-zero, the blocks at the non-zero
addresses inside the indirect block. -/
def dir_blocks (m : Mem) (dip : Nat) : List Nat :=
  ((List.range NDIRECT).map (addrs m dip)).filter (· ≠ 0) ++
    (if addrs m dip NDIRECT = 0 then []
      else ((List.range NINDIRECT).map (ind m (addrs m dip NDIRECT))).filter (· ≠ 0))

/-- Every dirent slot `get_inode_info` visits: the slots of the blocks of the inodes of
type directory among the first `ninodes` inodes, in order. -/
def ref_slots (m : Mem) (ninodes : Nat) : List Nat :=
  (List.range ninodes).flatMap fun i =>
    if dtype m (dinode i) = T_DIR then slots_of_blocks (dir_blocks m (dinode i)) else []

/-- The dirent at `d` is named neither `.` nor `..`. -/
def counted (m : Mem) (d : Nat) : Bool := !(isDot m d || isDotDot m d)

/-- One increment `in_use_inums[x]++`. -/
def bump_step (tbl : List Nat) (x : Nat) : Step (List Nat) Unit :=
  match bump tbl x with
  | none => .ret ()
  | some tbl' => .next tbl'

/-- What `get_inode_info` does at the dirent `d`. -/
def ref_body (m : Mem) (tbl : List Nat) (d : Nat) : Step (List Nat) Unit :=
  if isDot m d || isDotDot m d then Step.next tbl
  else
    match bump tbl (d_inum m d) with
    | none => Step.ret ()
    | some tbl' => Step.next tbl'

/-- An image of 32 blocks and 32 inodes (bitmap in block 7, first data block 8): the root
directory (inode 1, block 8) holds `.`, `..`, `lost+found` naming inode 29 and `f` naming
the file inode 2; the file inode 3 is in use and named by no directory; inode 29 is a
directory (block 9) holding `.` and `..`. -/
def img_lost_found : Mem :=
  let m := put_sb zero_mem 32 32 32
  let m := put_inode m 1 1 1 8
  let m := put_dirent m (dent 8 0) 1 [46]
  let m := put_dirent m (dent 8 1) 1 [46, 46]
  let m := put_dirent m (dent 8 2) 29 [108, 111, 115, 116, 43, 102, 111, 117, 110, 100]
  let m := put_dirent m (dent 8 3) 2 [102]
  let m := put_inode m 2 2 1 0
  let m := put_inode m 3 2 1 0
  let m := put_inode m 29 1 1 9
  let m := put_dirent m (dent 9 0) 29 [46]
  let m := put_dirent m (dent 9 1) 1 [46, 46]
  poke8 m (7 * BSIZE + 1) 0x03

/-- One pass of the loop of `repair` over the inode `i`, with `tbl` the table of the
reference pass. -/
def repair_step (tbl : List Nat) (mem : Mem) (i : Nat) : Mem :=
  if i < 2 then mem
  else if dtype mem (dinode i) ≠ 0 ∧ tbl.getD i 0 = 0 then attach mem (dinode 29) i
  else mem

/-- The dirent slots `attach` scans, in order: the slots of the blocks that the twelve
direct slots of inode 29 name, a slot holding 0 included. -/
def scan_slots (m : Mem) : List Nat :=
  slots_of_blocks ((List.range NDIRECT).map (addrs m (dinode 29)))

/-- The blocks that the direct slots of inode 29 name up to its first slot holding 0. -/
def lf_blocks (m : Mem) : List Nat :=
  ((List.range NDIRECT).map (addrs m (dinode 29))).takeWhile (· ≠ 0)

/-- The dirent slots of the blocks `lf_blocks`. -/
def lf_slots (m : Mem) : List Nat := slots_of_blocks (lf_blocks m)

/-- The slots of `lf_slots m`, each once, that are vacant (inum 0) in `mem`. -/
def lf_vacant (m mem : Mem) : List Nat :=
  (lf_slots m).dedup.filter (fun d => d_inum mem d == 0)

/-- Inode `i` is an orphan: `i ≥ 2`, of non-zero type, with `tbl[i] = 0`. -/
def is_orphan (m : Mem) (tbl : List Nat) (i : Nat) : Bool :=
  decide (2 ≤ i) && decide (dtype m (dinode i) ≠ 0) && decide (tbl.getD i 0 = 0)

/-- The orphans among the first `n` inodes. -/
def orphans (m : Mem) (tbl : List Nat) (n : Nat) : List Nat :=
  (List.range n).filter (is_orphan m tbl)

/-- The byte `q` belongs to the inum field of a vacant dirent of `lf_slots m`. -/
def lf_bytes (m : Mem) (q : Nat) : Prop :=
  ∃ d ∈ lf_slots m, d_inum m d = 0 ∧ (q = d ∨ q = d + 1)

/-- The memory `mem` differs from `m` at most in the inum fields of the vacant dirents of
`lf_slots m`. -/
def Frame (m mem : Mem) : Prop := ∀ q, ¬ lf_bytes m q → mem q = m q

/-- The table the reference pass builds for `img_lost_found`. -/
def tbl_lost_found : List Nat :=
  [58, 0, 1, 0, 0, 0, 0, 0, 0, 0, 0, 0, 0, 0, 0, 0, 0, 0, 0, 0, 0, 0, 0, 0, 0, 0, 0, 0, 0, 1, 0, 0]

/-- The image `img_lost_found` in which the third dirent of the block of inode 29, vacant
(inum 0), bears the name `..`. -/
def img_lf_stale : Mem := put_dirent img_lost_found (dent 9 2) 0 [46, 46]

/-- The image `img_lost_found` in which the directory inode 29 has no block: all its
address slots hold 0. -/
def img_lf_empty : Mem := poke32 img_lost_found (dinode 29 + 12) 0

/-- The image `img_lost_found` in which inode 29 has the type of a regular file. -/
def img_lf_file : Mem := poke16 img_lost_found (dinode 29) 2

/-- The pass of `repair` over inode `j` leaves `mem` as it is: `j < 2`, or inode `j` is
not in use, or `tbl[j]` is not 0. -/
def skips (tbl : List Nat) (mem : Mem) (j : Nat) : Prop :=
  j < 2 ∨ ¬ (dtype mem (dinode j) ≠ 0 ∧ tbl.getD j 0 = 0)

instance (tbl : List Nat) (mem : Mem) (j : Nat) : Decidable (skips tbl mem j) := by
  unfold skips
  infer_instance

/-- A table of 32 cells: `c0` for inode 0, 1 for the inodes 2 and 29, 0 elsewhere. -/
def tbl_base (c0 : Nat) : List Nat := c0 :: 0 :: 1 :: (List.replicate 26 0 ++ [1, 0, 0])

/-- The image `img_orphan` in which the first direct address of inode 2 is `size` (16),
one past the last block. -/
def img_direct_overflow : Mem := poke32 img_orphan (dinode 2 + 12) 16

/-- An image of 16 blocks of which the last 11 (5 to 15) are the data blocks, so that the
superblock holds `size = 16` and `nblocks = 11`: the root directory (inode 1) lies in
block 12, which the bitmap marks. -/
def img_high_block : Mem :=
  let m := put_sb zero_mem 16 11 8
  let m := put_inode m 1 1 1 12
  let m := put_dirent m (dent 12 0) 1 [46]
  let m := put_dirent m (dent 12 1) 1 [46, 46]
  poke8 m (4 * BSIZE + 1) 0x10

/-! # Theorems -/

/-! ## Properties of loops -/

theorem loop_nil {α σ ρ : Type} (body : σ → α → Step σ ρ) (s : σ) :
    loop body [] s = Step.next s := rfl

theorem loop_cons {α σ ρ : Type} (body : σ → α → Step σ ρ) (x : α) (xs : List α) (s : σ) :
    loop body (x :: xs) s =
      match body s x with
      | .next s' => loop body xs s'
      | .ret r => .ret r := rfl

theorem loop_singleton {α σ ρ : Type} (body : σ → α → Step σ ρ) (x : α) (s : σ) :
    loop body [x] s = body s x := by
  rw [loop_cons]
  cases body s x <;> rfl

theorem loop_append {α σ ρ : Type} (body : σ → α → Step σ ρ) (xs ys : List α) (s : σ) :
    loop body (xs ++ ys) s =
      match loop body xs s with
      | .next s' => loop body ys s'
      | .ret r => .ret r := by
  induction xs generalizing s with
  | nil => rfl
  | cons x xs ih =>
    simp only [List.cons_append, loop]
    cases body s x with
    | next s' => simpa using ih s'
    | ret r => rfl

theorem loop_flatMap {α β σ ρ : Type} (f : α → List β) (body : σ → β → Step σ ρ)
    (xs : List α) (s : σ) :
    loop (fun s x => loop body (f x) s) xs s = loop body (xs.flatMap f) s := by
  induction xs generalizing s with
  | nil => rfl
  | cons x xs ih =>
    simp only [List.flatMap_cons, loop, loop_append]
    cases loop body (f x) s with
    | next s' => simpa using ih s'
    | ret r => rfl

theorem loop_map {α β σ ρ : Type} (f : α → β) (body : σ → β → Step σ ρ)
    (xs : List α) (s : σ) :
    loop (fun s x => body s (f x)) xs s = loop body (xs.map f) s := by
  induction xs generalizing s with
  | nil => rfl
  | cons x xs ih =>
    simp only [List.map_cons, loop]
    cases body s (f x) with
    | next s' => simpa using ih s'
    | ret r => rfl

theorem loop_congr {α σ ρ : Type} (b1 b2 : σ → α → Step σ ρ) (xs : List α) (s : σ)
    (h : ∀ s, ∀ x ∈ xs, b1 s x = b2 s x) : loop b1 xs s = loop b2 xs s := by
  induction xs generalizing s with
  | nil => rfl
  | cons x xs ih =>
    simp only [loop]
    rw [h s x (List.mem_cons_self _ _)]
    cases b2 s x with
    | next s' => exact ih s' (fun s y hy => h s y (List.mem_cons_of_mem _ hy))
    | ret r => rfl

/-- A loop without state whose body returns `r` exactly on the elements satisfying
`bad`. -/
theorem loop_unit {α ρ : Type} (bad : α → Bool) (r : ρ) (xs : List α) :
    loop (fun (_ : Unit) x => if bad x then Step.ret r else Step.next ()) xs () =
      if xs.any bad then Step.ret r else Step.next () := by
  induction xs with
  | nil => rfl
  | cons x xs ih =>
    by_cases hb : bad x = true
    · simp [loop, hb]
    · simp only [loop, List.any_cons, hb]
      simpa using ih

/-! ## Checks 7 and 8: duplicate addresses -/

theorem loop_dup_step (xs used : List Nat) (hu : used.Nodup) :
    loop dup_step xs used =
      if (used ++ xs.filter (· ≠ 0)).Nodup then Step.next (used ++ xs.filter (· ≠ 0))
      else Step.ret (-1) := by
  induction xs generalizing used with
  | nil => simp [loop, hu]
  | cons x xs ih =>
    by_cases hx : x = 0
    · subst hx
      simpa [loop, dup_step] using ih used hu
    · have hf : (x :: xs).filter (· ≠ 0) = x :: xs.filter (· ≠ 0) := by
        simp [List.filter_cons, hx]
      rw [hf]
      by_cases hmem : x ∈ used
      · have hnd : ¬ (used ++ x :: xs.filter (· ≠ 0)).Nodup := by
          intro h
          have := (List.nodup_append.mp h).2.2
          exact this hmem (List.mem_cons_self _ _)
        rw [if_neg hnd]
        simp [loop, dup_step, hx, hmem]
      · have hu' : (used ++ [x]).Nodup := by
          rw [List.nodup_append]
          refine ⟨hu, List.nodup_singleton x, ?_⟩
          intro a ha hb
          rw [List.mem_singleton] at hb
          exact hmem (hb ▸ ha)
        have h := ih (used ++ [x]) hu'
        simp only [List.append_assoc, List.singleton_append] at h
        rw [← h]
        simp [loop, dup_step, hx, hmem]

theorem filter_flatMap {α β : Type} (p : β → Bool) (f : α → List β) (xs : List α) :
    (xs.flatMap f).filter p = xs.flatMap (fun x => (f x).filter p) := by
  induction xs with
  | nil => rfl
  | cons x xs ih => simp [List.flatMap_cons, List.filter_append, ih]

theorem check_direct_addr_use_eq (m : Mem) (ninodes : Nat) :
    check_direct_addr_use m ninodes = if (direct_seq m ninodes).Nodup then 0 else -1 := by
  have h1 : ∀ used i,
      (if dtype m (dinode i) = 0 then Step.next used
        else loop (fun (used : List Nat) j =>
          if addrs m (dinode i) j = 0 then Step.next used
          else if used.contains (addrs m (dinode i) j) then Step.ret (-1 : Int)
          else Step.next (used ++ [addrs m (dinode i) j])) (List.range NDIRECT) used) =
      loop dup_step (if dtype m (dinode i) = 0 then []
        else (List.range NDIRECT).map (addrs m (dinode i))) used := by
    intro used i
    by_cases ht : dtype m (dinode i) = 0
    · simp [ht, loop]
    · simp only [ht, if_false]
      exact loop_map (addrs m (dinode i)) dup_step (List.range NDIRECT) used
  unfold check_direct_addr_use
  simp only [h1]
  rw [loop_flatMap, loop_dup_step _ _ List.nodup_nil, filter_flatMap]
  have h2 : (List.range ninodes).flatMap (fun x =>
      (if dtype m (dinode x) = 0 then []
        else (List.range NDIRECT).map (addrs m (dinode x))).filter (· ≠ 0)) =
      direct_seq m ninodes := by
    unfold direct_seq
    congr 1
    funext x
    by_cases ht : dtype m (dinode x) = 0 <;> simp [ht]
  rw [List.nil_append, h2]
  by_cases hn : (direct_seq m ninodes).Nodup <;> simp [hn]

theorem check_indirect_addr_use_eq (m : Mem) (ninodes : Nat) :
    check_indirect_addr_use m ninodes = if (indirect_seq m ninodes).Nodup then 0 else -1 := by
  have h1 : ∀ used i,
      (if dtype m (dinode i) = 0 then Step.next used
        else if addrs m (dinode i) NDIRECT = 0 then Step.next used
        else loop (fun (used : List Nat) j =>
          if ind m (addrs m (dinode i) NDIRECT) j = 0 then Step.next used
          else if used.contains (ind m (addrs m (dinode i) NDIRECT) j) then Step.ret (-1 : Int)
          else Step.next (used ++ [ind m (addrs m (dinode i) NDIRECT) j]))
            (List.range NINDIRECT) used) =
      loop dup_step (if dtype m (dinode i) = 0 then []
        else if addrs m (dinode i) NDIRECT = 0 then []
        else (List.range NINDIRECT).map (ind m (addrs m (dinode i) NDIRECT))) used := by
    intro used i
    by_cases ht : dtype m (dinode i) = 0
    · simp [ht, loop]
    · by_cases hs : addrs m (dinode i) NDIRECT = 0
      · simp [ht, hs, loop]
      · simp only [ht, hs, if_false]
        exact loop_map (ind m (addrs m (dinode i) NDIRECT)) dup_step (List.range NINDIRECT) used
  unfold check_indirect_addr_use
  simp only [h1]
  rw [loop_flatMap, loop_dup_step _ _ List.nodup_nil, filter_flatMap]
  have h2 : (List.range ninodes).flatMap (fun x =>
      (if dtype m (dinode x) = 0 then []
        else if addrs m (dinode x) NDIRECT = 0 then []
        else (List.range NINDIRECT).map (ind m (addrs m (dinode x) NDIRECT))).filter (· ≠ 0)) =
      indirect_seq m ninodes := by
    unfold indirect_seq
    congr 1
    funext x
    by_cases ht : dtype m (dinode x) = 0
    · simp [ht]
    · by_cases hs : addrs m (dinode x) NDIRECT = 0 <;> simp [ht, hs]
  rw [List.nil_append, h2]
  by_cases hn : (indirect_seq m ninodes).Nodup <;> simp [hn]

/-- C9: `check_direct_addr_use` returns `-1` exactly when the sequence of non-zero direct
addresses of the inodes of non-zero type holds some value twice, and `0` otherwise. -/
theorem C9_check_direct_addr_use (m : Mem) (ninodes : Nat) :
    (check_direct_addr_use m ninodes = -1 ↔ ¬ (direct_seq m ninodes).Nodup) ∧
    (check_direct_addr_use m ninodes = 0 ↔ (direct_seq m ninodes).Nodup) := by
  rw [check_direct_addr_use_eq]
  by_cases hn : (direct_seq m ninodes).Nodup <;> simp [hn]

/-- C10: `check_indirect_addr_use` returns `-1` exactly when the sequence of non-zero
addresses stored inside the indirect blocks of the inodes of non-zero type holds some
value twice, and `0` otherwise. -/
theorem C10_check_indirect_addr_use (m : Mem) (ninodes : Nat) :
    (check_indirect_addr_use m ninodes = -1 ↔ ¬ (indirect_seq m ninodes).Nodup) ∧
    (check_indirect_addr_use m ninodes = 0 ↔ (indirect_seq m ninodes).Nodup) := by
  rw [check_indirect_addr_use_eq]
  by_cases hn : (indirect_seq m ninodes).Nodup <;> simp [hn]

/-! ## The bitmap -/

theorem rd8_lt (m : Mem) (p : Nat) : rd8 m p < 256 := Nat.mod_lt _ (by decide)

set_option maxRecDepth 100000 in
theorem checkbit_byte : ∀ byte < 256, ∀ k < 8,
    decide (0 < toInt32 (promote_char byte &&& (1 <<< k))) = byte.testBit k := by
  decide

theorem CHECKBIT_eq (m : Mem) (bm b : Nat) :
    CHECKBIT m bm b = (rd8 m (bm + b / 8)).testBit (b % 8) :=
  checkbit_byte _ (rd8_lt m _) _ (Nat.mod_lt _ (by decide))

theorem CHECKBIT_bitmap (m : Mem) (ninodes b : Nat) :
    CHECKBIT m (BBLOCK 0 ninodes * BSIZE) b = bitmap_bit m ninodes b :=
  CHECKBIT_eq m _ b

/-! ## Check 6: the blocks in use -/

theorem mem_U_seq (m : Mem) (ninodes b : Nat) : b ∈ U_seq m ninodes ↔ in_U m ninodes b := by
  unfold U_seq in_U
  rw [List.mem_flatMap]
  constructor
  · rintro ⟨i, hi, hb⟩
    by_cases ht : dtype m (dinode i) = 0
    · simp [ht] at hb
    · rw [if_neg ht] at hb
      exact ⟨i, List.mem_range.mp hi, ht, hb⟩
  · rintro ⟨i, hi, ht, hb⟩
    exact ⟨i, List.mem_range.mpr hi, by rw [if_neg ht]; exact hb⟩

theorem loop_filter {α σ ρ : Type} (p : α → Bool) (body : σ → α → Step σ ρ)
    (xs : List α) (s : σ) :
    loop (fun s x => if p x then body s x else Step.next s) xs s = loop body (xs.filter p) s := by
  induction xs generalizing s with
  | nil => rfl
  | cons x xs ih =>
    by_cases hp : p x = true
    · simp only [loop, List.filter_cons, hp, if_true]
      cases body s x with
      | next s' => simpa using ih s'
      | ret r => rfl
    · simp only [loop, List.filter_cons, hp, if_false]
      simpa using ih s

theorem loop_mark_ok (xs used : List Nat) (h : ∀ x ∈ xs, x < used.length) :
    ∃ used', loop mark_step xs used = Step.next used' ∧ used'.length = used.length ∧
      ∀ b, used'.getD b 0 = if b ∈ xs then 1 else used.getD b 0 := by
  induction xs generalizing used with
  | nil => exact ⟨used, rfl, rfl, fun b => by simp⟩
  | cons x xs ih =>
    have hx : x < used.length := h x (List.mem_cons_self _ _)
    have hlen : (used.set x 1).length = used.length := List.length_set _ _ _
    obtain ⟨u, hu, hl, hv⟩ := ih (used.set x 1)
      (fun y hy => by rw [hlen]; exact h y (List.mem_cons_of_mem _ hy))
    refine ⟨u, ?_, by rw [hl, hlen], ?_⟩
    · simp only [loop, mark_step, store, hx, if_true]
      exact hu
    · intro b
      rw [hv b]
      by_cases hb : b ∈ xs
      · simp [hb]
      · by_cases hbx : b = x
        · subst hbx
          simp [hb, List.getD_eq_getElem?_getD, List.getElem?_set, hx]
        · have hbx' : ¬ x = b := fun e => hbx e.symm
          simp [hb, hbx, List.getD_eq_getElem?_getD, List.getElem?_set, hbx']

theorem loop_mark_bad (xs used : List Nat) (h : ¬ ∀ x ∈ xs, x < used.length) :
    loop mark_step xs used = Step.ret () := by
  induction xs generalizing used with
  | nil => exact absurd (fun x hx => nomatch hx) h
  | cons x xs ih =>
    by_cases hx : x < used.length
    · simp only [loop, mark_step, store, hx, if_true]
      apply ih
      intro hall
      apply h
      intro y hy
      rcases List.mem_cons.mp hy with rfl | hy
      · exact hx
      · have := hall y hy
        rwa [List.length_set] at this
    · simp [loop, mark_step, store, hx]

theorem find_used_datablocks_eq (m : Mem) (dip : Nat) (used : List Nat) :
    (match find_used_datablocks m dip used with
      | none => Step.ret ()
      | some used' => Step.next used') = loop mark_step (refs m dip) used := by
  have hrange : List.range (NDIRECT + 1) = List.range NDIRECT ++ [NDIRECT] := List.range_succ _
  have hinner : ∀ (b_addr : Nat) (u : List Nat),
      loop (fun used j =>
          if ind m b_addr j = 0 then Step.next used
          else match store used (ind m b_addr j) 1 with
            | none => Step.ret ()
            | some used2 => Step.next used2) (List.range NINDIRECT) u =
        loop mark_step (((List.range NINDIRECT).map (ind m b_addr)).filter (· ≠ 0)) u := by
    intro b_addr u
    rw [← loop_filter, ← loop_map]
    apply loop_congr
    intro s x _
    by_cases hz : ind m b_addr x = 0 <;> simp [hz, mark_step]
  have hdirect : ∀ u : List Nat,
      loop (fun used i =>
          if addrs m dip i = 0 then Step.next used
          else match store used (addrs m dip i) 1 with
            | none => Step.ret ()
            | some used1 =>
              if i = NDIRECT then
                loop (fun used j =>
                  if ind m (addrs m dip i) j = 0 then Step.next used
                  else match store used (ind m (addrs m dip i) j) 1 with
                    | none => Step.ret ()
                    | some used2 => Step.next used2) (List.range NINDIRECT) used1
              else Step.next used1) (List.range NDIRECT) u =
        loop mark_step (((List.range NDIRECT).map (addrs m dip)).filter (· ≠ 0)) u := by
    intro u
    rw [← loop_filter, ← loop_map]
    apply loop_congr
    intro s x hx
    have hne : x ≠ NDIRECT := Nat.ne_of_lt (List.mem_range.mp hx)
    by_cases hz : addrs m dip x = 0
    · simp [hz]
    · simp only [hz, if_false, hne, mark_step, ne_eq, not_false_eq_true, decide_True, if_true]
  unfold find_used_datablocks refs
  simp only [hrange, loop_append, hdirect, loop_singleton]
  cases hfirst : loop mark_step (((List.range NDIRECT).map (addrs m dip)).filter (· ≠ 0)) used with
  | ret r => rfl
  | next u =>
    by_cases hz : addrs m dip NDIRECT = 0
    · simp only [hz, if_true, loop_nil]
    · simp only [hz, if_false, if_true, loop_cons, mark_step, hinner]
      cases hst : store u (addrs m dip NDIRECT) 1 with
      | none => rfl
      | some u1 =>
        simp only []
        cases loop mark_step
          (((List.range NINDIRECT).map (ind m (addrs m dip NDIRECT))).filter (· ≠ 0)) u1 <;> rfl

theorem check6_marks (m : Mem) (n : Nat) (used : List Nat) :
    loop (fun used i =>
        if dtype m (dinode i) = 0 then Step.next used
        else
          match find_used_datablocks m (dinode i) used with
          | none => Step.ret ()
          | some used' => Step.next used') (List.range n) used =
      loop mark_step (U_seq m n) used := by
  unfold U_seq
  rw [← loop_flatMap]
  apply loop_congr
  intro s i _
  by_cases ht : dtype m (dinode i) = 0
  · simp only [ht, if_true, loop_nil]
  · simp only [ht, if_false]
    exact find_used_datablocks_eq m (dinode i) s

theorem calloc_length (n : Nat) : (calloc n).length = n := List.length_replicate _ _

theorem calloc_getD (n b : Nat) : (calloc n).getD b 0 = 0 := by
  unfold calloc
  rw [List.getD_eq_getElem?_getD, List.getElem?_replicate]
  by_cases h : b < n <;> simp [h]

theorem check6_scan (m : Mem) (bm db1 k : Nat) (used : List Nat)
    (hlen : ∀ i, db1 ≤ i → i < db1 + k → i < used.length) :
    loop (fun (_ : Unit) i =>
        match used[i]? with
        | none => Step.ret (none : Option Int)
        | some u =>
          if u = 0 && CHECKBIT m bm i then Step.ret (some (-1))
          else Step.next ()) (List.range' db1 k) () =
      if (List.range' db1 k).any (fun i => decide (used.getD i 0 = 0) && CHECKBIT m bm i)
      then Step.ret (some (-1)) else Step.next () := by
  rw [← loop_unit]
  apply loop_congr
  intro s i hi
  have hi' : i < used.length :=
    hlen i (List.mem_range'_1.mp hi).1 (List.mem_range'_1.mp hi).2
  rw [List.getD_eq_getElem?_getD, List.getElem?_eq_getElem hi']
  simp

theorem check6_ok (m : Mem) (db1 : Nat)
    (h : ∀ a ∈ U_seq m (sb_ninodes m), a < sb_nblocks m) :
    ∃ r, check_valid_blocks_in_bitmap m db1 (calloc (sb_nblocks m)) = some r ∧
      (r = -1 ∨ r = 0) ∧
      (r = -1 ↔ ∃ b, db1 ≤ b ∧ b < sb_nblocks m ∧ bitmap_bit m (sb_ninodes m) b = true ∧
        b ∉ U_seq m (sb_ninodes m)) := by
  obtain ⟨u, hu, hl, hv⟩ := loop_mark_ok (U_seq m (sb_ninodes m)) (calloc (sb_nblocks m))
    (by rw [calloc_length]; exact h)
  rw [calloc_length] at hl
  have hex : ((List.range' db1 (sb_nblocks m - db1)).any
        (fun i => decide (u.getD i 0 = 0) && CHECKBIT m (BBLOCK 0 (sb_ninodes m) * BSIZE) i)
        = true) ↔
      ∃ b, db1 ≤ b ∧ b < sb_nblocks m ∧ bitmap_bit m (sb_ninodes m) b = true ∧
        b ∉ U_seq m (sb_ninodes m) := by
    rw [List.any_eq_true]
    constructor
    · rintro ⟨b, hb, hc⟩
      have hb' := List.mem_range'_1.mp hb
      rw [Bool.and_eq_true, decide_eq_true_eq, CHECKBIT_bitmap, hv b, calloc_getD] at hc
      refine ⟨b, hb'.1, by omega, hc.2, ?_⟩
      intro hmem
      simp [hmem] at hc
    · rintro ⟨b, h1, h2, h3, h4⟩
      refine ⟨b, List.mem_range'_1.mpr ⟨h1, by omega⟩, ?_⟩
      rw [Bool.and_eq_true, decide_eq_true_eq, CHECKBIT_bitmap, hv b, calloc_getD]
      simp [h4, h3]
  unfold check_valid_blocks_in_bitmap
  simp only [check6_marks, hu]
  rw [check6_scan m _ db1 _ u (by intro i h1 h2; rw [hl]; omega)]
  by_cases hany : (List.range' db1 (sb_nblocks m - db1)).any
      (fun i => decide (u.getD i 0 = 0) && CHECKBIT m (BBLOCK 0 (sb_ninodes m) * BSIZE) i) = true
  · rw [if_pos hany]
    exact ⟨-1, rfl, Or.inl rfl, fun _ => hex.mp hany, fun _ => rfl⟩
  · rw [if_neg hany]
    refine ⟨0, rfl, Or.inr rfl, fun h0 => absurd h0 (by decide), fun hb => absurd (hex.mpr hb) hany⟩

theorem check6_fault (m : Mem) (db1 : Nat)
    (h : ¬ ∀ a ∈ U_seq m (sb_ninodes m), a < sb_nblocks m) :
    check_valid_blocks_in_bitmap m db1 (calloc (sb_nblocks m)) = none := by
  unfold check_valid_blocks_in_bitmap
  simp only [check6_marks]
  rw [loop_mark_bad _ _ (by rw [calloc_length]; exact h)]

/-- C5: when every address referred to by an inode of non-zero type is below `nblocks`,
`check_valid_blocks_in_bitmap` (run on the zeroed table of `nblocks` cells) returns `-1`
exactly when some block `b` with `db1 ≤ b < nblocks` has its bitmap bit set and is not in
`U`, and returns `0` otherwise. -/
theorem C5_check_valid_blocks_in_bitmap (m : Mem) (db1 : Nat)
    (h : ∀ i, i < sb_ninodes m → dtype m (dinode i) ≠ 0 →
      ∀ a ∈ refs m (dinode i), a < sb_nblocks m) :
    (check_valid_blocks_in_bitmap m db1 (calloc (sb_nblocks m)) = some (-1) ↔
      ∃ b, db1 ≤ b ∧ b < sb_nblocks m ∧ bitmap_bit m (sb_ninodes m) b = true ∧
        ¬ in_U m (sb_ninodes m) b) ∧
    (check_valid_blocks_in_bitmap m db1 (calloc (sb_nblocks m)) = some 0 ↔
      ¬ ∃ b, db1 ≤ b ∧ b < sb_nblocks m ∧ bitmap_bit m (sb_ninodes m) b = true ∧
        ¬ in_U m (sb_ninodes m) b) := by
  have hU : ∀ a ∈ U_seq m (sb_ninodes m), a < sb_nblocks m := by
    intro a ha
    obtain ⟨i, hi, ht, hmem⟩ := (mem_U_seq m _ a).mp ha
    exact h i hi ht a hmem
  obtain ⟨r, hr, hcases, hiff⟩ := check6_ok m db1 hU
  simp only [← mem_U_seq]
  rw [hr]
  rcases hcases with h1 | h0
  · subst h1
    exact ⟨⟨fun _ => hiff.mp rfl, fun _ => rfl⟩,
      ⟨fun hc => absurd hc (by decide), fun hn => absurd (hiff.mp rfl) hn⟩⟩
  · subst h0
    have hne : ¬ ((0 : Int) = -1) := by decide
    exact ⟨⟨fun hc => absurd hc (by decide), fun hb => absurd (hiff.mpr hb) hne⟩,
      ⟨fun _ hb => hne (hiff.mpr hb), fun _ => rfl⟩⟩

/-! ## Check 5: addresses in use are marked -/

theorem check_valid_bitmap_eq (m : Mem) (dip ninodes inum : Nat) :
    check_valid_bitmap m dip ninodes inum =
      if (tested_refs m dip).any (fun a => !bitmap_bit m ninodes a) then -1 else 0 := by
  have hrange : List.range (NDIRECT + 1) = List.range NDIRECT ++ [NDIRECT] := List.range_succ _
  have hbody : ∀ (f : Nat → Nat) (xs : List Nat),
      loop (fun (_ : Unit) j =>
          if f j = 0 then Step.next ()
          else if !CHECKBIT m (BBLOCK 0 ninodes * BSIZE) (f j) then Step.ret (-1 : Int)
          else Step.next ()) xs () =
        if ((xs.map f).filter (· ≠ 0)).any (fun a => !bitmap_bit m ninodes a)
        then Step.ret (-1) else Step.next () := by
    intro f xs
    rw [← loop_unit, ← loop_filter, ← loop_map]
    apply loop_congr
    intro s x _
    by_cases hz : f x = 0 <;> simp [hz, CHECKBIT_bitmap]
  have hdirect :
      loop (fun (_ : Unit) i =>
          if addrs m dip i = 0 then Step.next ()
          else if i = NDIRECT then
            loop (fun (_ : Unit) j =>
              if ind m (addrs m dip i) j = 0 then Step.next ()
              else if !CHECKBIT m (BBLOCK 0 ninodes * BSIZE) (ind m (addrs m dip i) j) then
                Step.ret (-1 : Int)
              else Step.next ()) (List.range NINDIRECT) ()
          else if !CHECKBIT m (BBLOCK 0 ninodes * BSIZE) (addrs m dip i) then Step.ret (-1 : Int)
          else Step.next ()) (List.range NDIRECT) () =
        if (((List.range NDIRECT).map (addrs m dip)).filter (· ≠ 0)).any
            (fun a => !bitmap_bit m ninodes a)
        then Step.ret (-1) else Step.next () := by
    rw [← hbody]
    apply loop_congr
    intro s x hx
    have hne : x ≠ NDIRECT := Nat.ne_of_lt (List.mem_range.mp hx)
    simp only [hne, if_false]
  unfold check_valid_bitmap tested_refs
  simp only [hrange, loop_append, hdirect, loop_singleton, List.any_append]
  by_cases h1 : (((List.range NDIRECT).map (addrs m dip)).filter (· ≠ 0)).any
      (fun a => !bitmap_bit m ninodes a) = true
  · simp only [h1, if_true, Bool.true_or]
  · rw [Bool.not_eq_true] at h1
    simp only [h1, Bool.false_eq_true, if_false, Bool.false_or]
    by_cases hz : addrs m dip NDIRECT = 0
    · simp only [hz, if_true, List.any_nil, Bool.false_eq_true, if_false]
    · simp only [hz, if_false, if_true, hbody]
      by_cases h2 : (((List.range NINDIRECT).map (ind m (addrs m dip NDIRECT))).filter
          (· ≠ 0)).any (fun a => !bitmap_bit m ninodes a) = true
      · simp only [h2, if_true]
      · rw [Bool.not_eq_true] at h2
        simp only [h2, Bool.false_eq_true, if_false]

/-! ## The driver -/

theorem loop_unit_next {α ρ : Type} (body : Unit → α → Step Unit ρ) (xs : List α) :
    loop body xs () = Step.next () ↔ ∀ x ∈ xs, body () x = Step.next () := by
  induction xs with
  | nil => simp [loop_nil]
  | cons x xs ih =>
    rw [loop_cons]
    cases hb : body () x with
    | next s =>
      cases s
      simp only [ih, List.mem_cons, forall_eq_or_imp, hb, true_and]
    | ret r =>
      simp only [List.mem_cons, forall_eq_or_imp, hb]
      constructor
      · intro h
        cases h
      · intro h
        cases h.1

theorem loop_unit_ret {α ρ : Type} (body : Unit → α → Step Unit ρ) (xs : List α) (r : ρ)
    (h : loop body xs () = Step.ret r) : ∃ x ∈ xs, body () x = Step.ret r := by
  induction xs with
  | nil => cases h
  | cons x xs ih =>
    rw [loop_cons] at h
    cases hb : body () x with
    | next s =>
      cases s
      rw [hb] at h
      obtain ⟨y, hy, hr⟩ := ih h
      exact ⟨y, List.mem_cons_of_mem _ hy, hr⟩
    | ret r' =>
      rw [hb] at h
      cases h
      exact ⟨x, List.mem_cons_self _ _, hb⟩

theorem per_inode_ne_exit0 (m : Mem) (i : Nat) : per_inode m i ≠ Step.ret Outcome.exit0 := by
  unfold per_inode
  intro h
  simp only at h
  repeat' split at h
  all_goals cases h

theorem ref_checks_ne_exit0 (m : Mem) (tbl : List Nat) (i : Nat) :
    ref_checks m tbl i ≠ Step.ret Outcome.exit0 := by
  unfold ref_checks
  intro h
  simp only at h
  repeat' split at h
  all_goals cases h

/-- What a run of `main` that ends with `return 0` went through. -/
theorem main_exit0 (m : Mem) (h : main m = .exit0) :
    (∀ i, i < sb_ninodes m → per_inode m i = Step.next ()) ∧
    check_valid_blocks_in_bitmap m (first_data_block m) (calloc (sb_nblocks m)) = some 0 ∧
    check_direct_addr_use m (sb_ninodes m) = 0 ∧
    check_indirect_addr_use m (sb_ninodes m) = 0 ∧
    (∃ tbl, get_inode_info m (sb_ninodes m) (calloc (sb_ninodes m)) = some tbl ∧
      ∀ i, i < sb_ninodes m → ref_checks m tbl i = Step.next ()) ∧
    (∃ r, check_parent_dir m (sb_ninodes m) = some r ∧ ¬ r < 0) ∧
    (∃ r, check_no_loops m (sb_ninodes m + 1) (sb_ninodes m) = .val r ∧ ¬ r < 0) := by
  unfold main at h
  simp only at h
  split at h
  · rename_i o ho
    subst h
    obtain ⟨x, _, hx⟩ := loop_unit_ret _ _ _ ho
    exact absurd hx (per_inode_ne_exit0 m x)
  · rename_i u hper
    cases u
    have h1 := (loop_unit_next _ _).mp hper
    split at h
    · cases h
    · rename_i r6 h6
      split at h
      · cases h
      · rename_i hr6
        split at h
        · cases h
        · rename_i h7
          split at h
          · cases h
          · rename_i h8
            split at h
            · cases h
            · rename_i tbl htbl
              split at h
              · rename_i o ho
                subst h
                obtain ⟨x, _, hx⟩ := loop_unit_ret _ _ _ ho
                exact absurd hx (ref_checks_ne_exit0 m tbl x)
              · rename_i u hrc
                cases u
                have h9 := (loop_unit_next _ _).mp hrc
                split at h
                · cases h
                · rename_i r13 h13
                  split at h
                  · cases h
                  · rename_i hr13
                    split at h
                    · rename_i r14 h14
                      split at h
                      · cases h
                      · rename_i hr14
                        refine ⟨fun i hi => h1 i (List.mem_range.mpr hi), ?_, ?_, ?_,
                          ⟨tbl, htbl, fun i hi => h9 i (List.mem_range.mpr hi)⟩,
                          ⟨r13, h13, hr13⟩, ⟨r14, h14, hr14⟩⟩
                        · by_cases hU : ∀ a ∈ U_seq m (sb_ninodes m), a < sb_nblocks m
                          · obtain ⟨r, hr, hc, _⟩ := check6_ok m (first_data_block m) hU
                            rw [h6] at hr
                            cases hr
                            rcases hc with hc | hc
                            · subst hc
                              exact absurd (by decide) hr6
                            · rw [h6, hc]
                          · rw [check6_fault m _ hU] at h6
                            cases h6
                        · rw [check_direct_addr_use_eq] at h7 ⊢
                          split at h7
                          · rename_i hn
                            rw [if_pos hn]
                          · exact absurd (by decide) h7
                        · rw [check_indirect_addr_use_eq] at h8 ⊢
                          split at h8
                          · rename_i hn
                            rw [if_pos hn]
                          · exact absurd (by decide) h8
                    · cases h

/-! ## Claims about the driver and the bitmap -/

/-- C1: `main` returns 0 on the image `img_no_root`, although inode 1 of that image is
unallocated (type 0) and hence no directory: the first loop of `main` skips an inode of
type 0 before it reaches the root test. -/
theorem C1_main_accepts_missing_root :
    main img_no_root = .exit0 ∧ 1 < sb_ninodes img_no_root ∧
      dtype img_no_root (dinode 1) = 0 ∧ dtype img_no_root (dinode 1) ≠ T_DIR := by
  decide

set_option maxRecDepth 1000000 in
/-- C2: on the image `img_unmarked_indirect` the in-use inode 2 has the indirect slot 6
and bit 6 of the bitmap is clear, yet `check_valid_bitmap` returns 0 for it (and `main`
returns 0): the bit of the indirect block itself is never tested. -/
theorem C2_indirect_slot_not_tested :
    dtype img_unmarked_indirect (dinode 2) = T_FILE ∧
      addrs img_unmarked_indirect (dinode 2) NDIRECT = 6 ∧
      bitmap_bit img_unmarked_indirect (sb_ninodes img_unmarked_indirect) 6 = false ∧
      check_valid_bitmap img_unmarked_indirect (dinode 2)
        (sb_ninodes img_unmarked_indirect) 2 = 0 ∧
      main img_unmarked_indirect = .exit0 := by
  decide

set_option maxRecDepth 1000000 in
/-- C3: on the image `img_wrong_parent` the directory inode 2 has a `..` entry naming
inode 1, no dirent in any block of inode 1 names inode 2, and yet `check_parent_dir`
returns 0 (and `main` returns 0). -/
theorem C3_parent_without_child :
    dtype img_wrong_parent (dinode 2) = T_DIR ∧
      isDotDot img_wrong_parent (dent (addrs img_wrong_parent (dinode 2) 0) 1) = true ∧
      d_inum img_wrong_parent (dent (addrs img_wrong_parent (dinode 2) 0) 1) = 1 ∧
      (∀ j, j < NDIRECT + 1 → ∀ k, k < DPB →
        addrs img_wrong_parent (dinode 1) j ≠ 0 →
        d_inum img_wrong_parent (dent (addrs img_wrong_parent (dinode 1) j) k) ≠ 2) ∧
      check_parent_dir img_wrong_parent (sb_ninodes img_wrong_parent) = some 0 ∧
      main img_wrong_parent = .exit0 := by
  decide

/-- C4, as stated, fails: `main` returns 0 on `img_clean`, block 0 lies below the first
data block, and the bitmap does not mark block 0. -/
theorem C4_counterexample :
    main img_clean = .exit0 ∧ 0 < sb_size img_clean ∧
      ¬ (bitmap_bit img_clean (sb_ninodes img_clean) 0 = true ↔
        (0 < first_data_block img_clean ∨ in_U img_clean (sb_ninodes img_clean) 0)) := by
  refine ⟨by decide, by decide, ?_⟩
  intro h
  have h0 : bitmap_bit img_clean (sb_ninodes img_clean) 0 = false := by decide
  have h1 : 0 < first_data_block img_clean := by decide
  rw [h.mpr (Or.inl h1)] at h0
  cases h0

/-- C4, amended: on every image for which `main` returns 0, a block `b` with
`db1 ≤ b < nblocks` that the bitmap marks is referred to by some inode of non-zero type
(as a direct address, as the indirect slot, or inside the indirect block), and every
non-zero address held in a direct slot or inside the indirect block of an inode of
non-zero type is marked in the bitmap. -/
theorem C4_bitmap_of_accepted (m : Mem) (h : main m = .exit0) :
    (∀ b, first_data_block m ≤ b → b < sb_nblocks m →
      bitmap_bit m (sb_ninodes m) b = true → in_U m (sb_ninodes m) b) ∧
    (∀ i, i < sb_ninodes m → dtype m (dinode i) ≠ 0 →
      ∀ a ∈ tested_refs m (dinode i), bitmap_bit m (sb_ninodes m) a = true) := by
  obtain ⟨hper, h6, _⟩ := main_exit0 m h
  constructor
  · intro b hb1 hb2 hbit
    by_cases hU : ∀ a ∈ U_seq m (sb_ninodes m), a < sb_nblocks m
    · obtain ⟨r, hr, _, hiff⟩ := check6_ok m (first_data_block m) hU
      rw [h6] at hr
      cases hr
      by_contra hnot
      have := hiff.mpr ⟨b, hb1, hb2, hbit, fun hmem => hnot ((mem_U_seq m _ b).mp hmem)⟩
      exact absurd this (by decide)
    · rw [check6_fault m _ hU] at h6
      cases h6
  · intro i hi ht a ha
    have hp := hper i hi
    unfold per_inode at hp
    simp only [ht, if_false] at hp
    repeat' split at hp
    all_goals cases hp
    rename_i hbm
    rw [check_valid_bitmap_eq] at hbm
    by_cases hany : (tested_refs m (dinode i)).any (fun a => !bitmap_bit m (sb_ninodes m) a) = true
    · rw [if_pos hany] at hbm
      exact absurd (by decide) hbm
    · rw [Bool.not_eq_true, List.any_eq_false] at hany
      have := hany a ha
      simpa using this

/-- C4, amended: the hypothesis holds for `img_clean`. -/
theorem C4_bitmap_of_accepted_witness :
    main img_clean = .exit0 ∧
    ((∀ b, first_data_block img_clean ≤ b → b < sb_nblocks img_clean →
      bitmap_bit img_clean (sb_ninodes img_clean) b = true →
        in_U img_clean (sb_ninodes img_clean) b) ∧
    (∀ i, i < sb_ninodes img_clean → dtype img_clean (dinode i) ≠ 0 →
      ∀ a ∈ tested_refs img_clean (dinode i),
        bitmap_bit img_clean (sb_ninodes img_clean) a = true)) :=
  ⟨by decide, C4_bitmap_of_accepted img_clean (by decide)⟩

/-- C5: the hypothesis holds for `img_clean`. -/
theorem C5_check_valid_blocks_in_bitmap_witness :
    (∀ i, i < sb_ninodes img_clean → dtype img_clean (dinode i) ≠ 0 →
      ∀ a ∈ refs img_clean (dinode i), a < sb_nblocks img_clean) ∧
    ((check_valid_blocks_in_bitmap img_clean 5 (calloc (sb_nblocks img_clean)) = some (-1) ↔
      ∃ b, 5 ≤ b ∧ b < sb_nblocks img_clean ∧
        bitmap_bit img_clean (sb_ninodes img_clean) b = true ∧
        ¬ in_U img_clean (sb_ninodes img_clean) b) ∧
    (check_valid_blocks_in_bitmap img_clean 5 (calloc (sb_nblocks img_clean)) = some 0 ↔
      ¬ ∃ b, 5 ≤ b ∧ b < sb_nblocks img_clean ∧
        bitmap_bit img_clean (sb_ninodes img_clean) b = true ∧
        ¬ in_U img_clean (sb_ninodes img_clean) b)) :=
  ⟨by decide, C5_check_valid_blocks_in_bitmap img_clean 5 (by decide)⟩

/-! ## Checks 3 and 4: the entries `.` and `..` -/

theorem check_valid_dir_eq (m : Mem) (node inum : Nat) :
    check_valid_dir m node inum = dir_scan m inum (dir_slots m node) (false, false) := by
  unfold check_valid_dir dir_scan dir_slots
  rw [← loop_flatMap]
  congr 1
  apply loop_congr
  intro s i _
  by_cases hz : addrs m node i = 0
  · simp only [hz, if_true, loop_nil]
  · simp only [hz, if_false]
    exact loop_map (dent (addrs m node i)) (dir_body m inum) (List.range DPB) s

theorem dot_not_dotdot (m : Mem) (d : Nat) (h : isDot m d = true) : isDotDot m d = false := by
  unfold isDot at h
  unfold isDotDot
  simp only [Bool.and_eq_true, beq_iff_eq] at h
  simp [h.2]

theorem dir_scan_nil (m : Mem) (inum : Nat) (st : Bool × Bool) : dir_scan m inum [] st = -1 := rfl

theorem dir_scan_dot (m : Mem) (inum x : Nat) (l : List Nat) (st : Bool × Bool)
    (hx : isDot m x = true) :
    dir_scan m inum (x :: l) st =
      if d_inum m x ≠ inum then -1 else if st.2 then 0 else dir_scan m inum l (true, false) := by
  have hdd := dot_not_dotdot m x hx
  unfold dir_scan
  rw [loop_cons]
  unfold dir_body
  by_cases hi : d_inum m x = inum <;> cases h2 : st.2 <;> simp [hx, hdd, hi, h2]

theorem dir_scan_dotdot (m : Mem) (inum x : Nat) (l : List Nat) (st : Bool × Bool)
    (hx : isDotDot m x = true) (hroot : inum ≠ 1) :
    dir_scan m inum (x :: l) st =
      if st.1 then 0 else if d_inum m x ≠ inum then -1 else dir_scan m inum l (false, true) := by
  have hd : isDot m x = false := by
    cases h : isDot m x
    · rfl
    · rw [dot_not_dotdot m x h] at hx
      cases hx
  unfold dir_scan
  rw [loop_cons]
  unfold dir_body
  by_cases hi : d_inum m x = inum <;> cases h1 : st.1 <;> simp [hx, hd, hi, h1, hroot]

theorem dir_scan_other (m : Mem) (inum x : Nat) (l : List Nat) (st : Bool × Bool)
    (hd : isDot m x = false) (hdd : isDotDot m x = false) (hst : (st.1 && st.2) = false) :
    dir_scan m inum (x :: l) st = dir_scan m inum l st := by
  unfold dir_scan
  rw [loop_cons]
  unfold dir_body
  simp [hd, hdd, hst]

theorem filter_le_one_head {α : Type} (p : α → Bool) (x : α) (l : List α)
    (hx : p x = true) (h : ((x :: l).filter p).length ≤ 1) : ∀ d ∈ l, p d = false := by
  intro d hd
  cases hp : p d
  · rfl
  · have hmem : d ∈ l.filter p := List.mem_filter.mpr ⟨hd, hp⟩
    have hpos : 0 < (l.filter p).length := List.length_pos_of_mem hmem
    rw [List.filter_cons_of_pos hx, List.length_cons] at h
    omega

theorem filter_le_one_tail {α : Type} (p : α → Bool) (x : α) (l : List α)
    (h : ((x :: l).filter p).length ≤ 1) : (l.filter p).length ≤ 1 := by
  by_cases hx : p x = true
  · rw [List.filter_cons_of_pos hx, List.length_cons] at h
    omega
  · rw [List.filter_cons_of_neg hx] at h
    exact h

theorem dir_scan_seen_dot (m : Mem) (inum : Nat) (hroot : inum ≠ 1) (l : List Nat)
    (hnd : ∀ d ∈ l, isDot m d = false) :
    dir_scan m inum l (true, false) = 0 ↔ ∃ e ∈ l, isDotDot m e = true := by
  induction l with
  | nil => simp [dir_scan_nil]
  | cons x l ih =>
    have hd : isDot m x = false := hnd x (List.mem_cons_self _ _)
    have ih' := ih (fun d hd => hnd d (List.mem_cons_of_mem _ hd))
    cases hdd : isDotDot m x
    · rw [dir_scan_other m inum x l (true, false) hd hdd rfl, ih']
      simp [hdd]
    · rw [dir_scan_dotdot m inum x l _ hdd hroot]
      simp [hdd]

theorem dir_scan_seen_dotdot (m : Mem) (inum : Nat) (l : List Nat)
    (hndd : ∀ e ∈ l, isDotDot m e = false) (h1 : (l.filter (isDot m)).length ≤ 1) :
    dir_scan m inum l (false, true) = 0 ↔ ∃ d ∈ l, isDot m d = true ∧ d_inum m d = inum := by
  induction l with
  | nil => simp [dir_scan_nil]
  | cons x l ih =>
    have hdd : isDotDot m x = false := hndd x (List.mem_cons_self _ _)
    have ih' := ih (fun d hd => hndd d (List.mem_cons_of_mem _ hd))
      (filter_le_one_tail _ x l h1)
    cases hd : isDot m x
    · rw [dir_scan_other m inum x l (false, true) hd hdd rfl, ih']
      simp [hd]
    · rw [dir_scan_dot m inum x l _ hd]
      have hrest := filter_le_one_head (isDot m) x l hd h1
      by_cases hi : d_inum m x = inum
      · simp [hi, hd]
      · simp only [ne_eq, hi, not_false_eq_true, if_true]
        constructor
        · intro h
          cases h
        · rintro ⟨d, hmem, hdot, hnum⟩
          rcases List.mem_cons.mp hmem with rfl | hmem
          · exact absurd hnum hi
          · rw [hrest d hmem] at hdot
            cases hdot

theorem dir_scan_fresh (m : Mem) (inum : Nat) (hroot : inum ≠ 1) (l : List Nat)
    (h1 : (l.filter (isDot m)).length ≤ 1) (h2 : (l.filter (isDotDot m)).length ≤ 1) :
    dir_scan m inum l (false, false) = 0 ↔
      (∃ d ∈ l, isDot m d = true ∧ d_inum m d = inum) ∧
      (∃ e ∈ l, isDotDot m e = true ∧
        (d_inum m e = inum ∨ ∃ d, isDot m d = true ∧ [d, e].Sublist l)) := by
  induction l with
  | nil => simp [dir_scan_nil]
  | cons x l ih =>
    have ih' := ih (filter_le_one_tail _ x l h1) (filter_le_one_tail _ x l h2)
    cases hd : isDot m x
    · cases hdd : isDotDot m x
      · rw [dir_scan_other m inum x l (false, false) hd hdd rfl, ih']
        constructor
        · rintro ⟨⟨d, hdm, hdp⟩, ⟨e, hem, hep, hor⟩⟩
          refine ⟨⟨d, List.mem_cons_of_mem _ hdm, hdp⟩, ⟨e, List.mem_cons_of_mem _ hem, hep, ?_⟩⟩
          rcases hor with hor | ⟨d', hd', hs⟩
          · exact Or.inl hor
          · exact Or.inr ⟨d', hd', List.Sublist.cons _ hs⟩
        · rintro ⟨⟨d, hdm, hdp⟩, ⟨e, hem, hep, hor⟩⟩
          have hdm' : d ∈ l := by
            rcases List.mem_cons.mp hdm with rfl | h
            · rw [hd] at hdp
              cases hdp.1
            · exact h
          have hem' : e ∈ l := by
            rcases List.mem_cons.mp hem with rfl | h
            · rw [hdd] at hep
              cases hep
            · exact h
          refine ⟨⟨d, hdm', hdp⟩, ⟨e, hem', hep, ?_⟩⟩
          rcases hor with hor | ⟨d', hd', hs⟩
          · exact Or.inl hor
          · right
            refine ⟨d', hd', ?_⟩
            cases hs with
            | cons _ hs' => exact hs'
            | cons₂ _ hs' =>
              rw [hd] at hd'
              cases hd'
      · have hrest := filter_le_one_head (isDotDot m) x l hdd h2
        rw [dir_scan_dotdot m inum x l _ hdd hroot]
        simp only [Bool.false_eq_true, if_false]
        by_cases hi : d_inum m x = inum
        · simp only [ne_eq, hi, not_true_eq_false, if_false]
          rw [dir_scan_seen_dotdot m inum l hrest (filter_le_one_tail _ x l h1)]
          constructor
          · rintro ⟨d, hdm, hdp⟩
            exact ⟨⟨d, List.mem_cons_of_mem _ hdm, hdp⟩,
              ⟨x, List.mem_cons_self _ _, hdd, Or.inl hi⟩⟩
          · rintro ⟨⟨d, hdm, hdp⟩, _⟩
            rcases List.mem_cons.mp hdm with rfl | h
            · rw [hd] at hdp
              cases hdp.1
            · exact ⟨d, h, hdp⟩
        · simp only [ne_eq, hi, not_false_eq_true, if_true]
          constructor
          · intro h
            cases h
          · rintro ⟨_, ⟨e, hem, hep, hor⟩⟩
            exfalso
            rcases List.mem_cons.mp hem with rfl | h
            · rcases hor with hor | ⟨d', hd', hs⟩
              · exact hi hor
              · cases hs with
                | cons _ hs' =>
                  have : e ∈ l := hs'.subset (by simp)
                  rw [hrest e this] at hep
                  cases hep
                | cons₂ _ hs' =>
                  rw [hd] at hd'
                  cases hd'
            · rw [hrest e h] at hep
              cases hep
    · have hdd := dot_not_dotdot m x hd
      have hrest := filter_le_one_head (isDot m) x l hd h1
      rw [dir_scan_dot m inum x l _ hd]
      simp only [Bool.false_eq_true, if_false]
      by_cases hi : d_inum m x = inum
      · simp only [ne_eq, hi, not_true_eq_false, if_false]
        rw [dir_scan_seen_dot m inum hroot l hrest]
        constructor
        · rintro ⟨e, hem, hep⟩
          refine ⟨⟨x, List.mem_cons_self _ _, hd, hi⟩,
            ⟨e, List.mem_cons_of_mem _ hem, hep, Or.inr ⟨x, hd, ?_⟩⟩⟩
          exact List.Sublist.cons₂ _ (List.singleton_sublist.mpr hem)
        · rintro ⟨_, ⟨e, hem, hep, _⟩⟩
          rcases List.mem_cons.mp hem with rfl | h
          · rw [hdd] at hep
            cases hep
          · exact ⟨e, h, hep⟩
      · simp only [ne_eq, hi, not_false_eq_true, if_true]
        constructor
        · intro h
          cases h
        · rintro ⟨⟨d, hdm, hdp⟩, _⟩
          exfalso
          rcases List.mem_cons.mp hdm with rfl | h
          · exact hi hdp.2
          · rw [hrest d h] at hdp
            cases hdp.1

theorem dir_scan_values (m : Mem) (inum : Nat) (l : List Nat) (st : Bool × Bool) :
    dir_scan m inum l st = 0 ∨ dir_scan m inum l st = -1 := by
  induction l generalizing st with
  | nil => exact Or.inr rfl
  | cons x l ih =>
    unfold dir_scan
    rw [loop_cons]
    cases hb : dir_body m inum st x with
    | next s' => exact ih s'
    | ret r =>
      unfold dir_body at hb
      simp only at hb
      repeat' split at hb
      all_goals cases hb
      all_goals simp

set_option maxRecDepth 1000000 in
/-- C8, as stated, fails: in `img_dotdot_first` the non-root directory inode 2 has exactly
one `.` (naming inode 2) and one `..`, and `check_valid_dir` does not return 0. -/
theorem C8_counterexample :
    dtype img_dotdot_first (dinode 2) = T_DIR ∧
    ((dir_slots img_dotdot_first (dinode 2)).filter (isDot img_dotdot_first)).length ≤ 1 ∧
    ((dir_slots img_dotdot_first (dinode 2)).filter (isDotDot img_dotdot_first)).length ≤ 1 ∧
    ¬ (check_valid_dir img_dotdot_first (dinode 2) 2 = 0 ↔
      ((∃ d ∈ dir_slots img_dotdot_first (dinode 2),
          isDot img_dotdot_first d = true ∧ d_inum img_dotdot_first d = 2) ∧
        (∃ e ∈ dir_slots img_dotdot_first (dinode 2), isDotDot img_dotdot_first e = true))) := by
  decide

/-- C8, amended: for an inode number other than 1 and direct blocks that hold at most one
dirent named `.` and at most one named `..`, `check_valid_dir` returns 0 exactly when the
`.` dirent exists with inum equal to the inode's own number and the `..` dirent exists and
either names the inode itself or comes after the `.` dirent; otherwise it returns -1. -/
theorem C8_check_valid_dir (m : Mem) (node inum : Nat) (hroot : inum ≠ 1)
    (h1 : ((dir_slots m node).filter (isDot m)).length ≤ 1)
    (h2 : ((dir_slots m node).filter (isDotDot m)).length ≤ 1) :
    (check_valid_dir m node inum = 0 ↔
      (∃ d ∈ dir_slots m node, isDot m d = true ∧ d_inum m d = inum) ∧
      (∃ e ∈ dir_slots m node, isDotDot m e = true ∧
        (d_inum m e = inum ∨ ∃ d, isDot m d = true ∧ [d, e].Sublist (dir_slots m node)))) ∧
    (check_valid_dir m node inum = 0 ∨ check_valid_dir m node inum = -1) := by
  rw [check_valid_dir_eq]
  exact ⟨dir_scan_fresh m inum hroot _ h1 h2, dir_scan_values m inum _ _⟩

set_option maxRecDepth 1000000 in
/-- C8, amended: the hypotheses hold for inode 2 of `img_wrong_parent`. -/
theorem C8_check_valid_dir_witness :
    (2 ≠ 1 ∧
      ((dir_slots img_wrong_parent (dinode 2)).filter (isDot img_wrong_parent)).length ≤ 1 ∧
      ((dir_slots img_wrong_parent (dinode 2)).filter (isDotDot img_wrong_parent)).length ≤ 1) ∧
    ((check_valid_dir img_wrong_parent (dinode 2) 2 = 0 ↔
      (∃ d ∈ dir_slots img_wrong_parent (dinode 2),
        isDot img_wrong_parent d = true ∧ d_inum img_wrong_parent d = 2) ∧
      (∃ e ∈ dir_slots img_wrong_parent (dinode 2), isDotDot img_wrong_parent e = true ∧
        (d_inum img_wrong_parent e = 2 ∨ ∃ d, isDot img_wrong_parent d = true ∧
          [d, e].Sublist (dir_slots img_wrong_parent (dinode 2))))) ∧
    (check_valid_dir img_wrong_parent (dinode 2) 2 = 0 ∨
      check_valid_dir img_wrong_parent (dinode 2) 2 = -1)) :=
  ⟨⟨by decide, by decide, by decide⟩,
    C8_check_valid_dir img_wrong_parent (dinode 2) 2 (by decide) (by decide) (by decide)⟩

/-! ## Extra check 2: the walk along `..` -/

theorem recurse_dir_succ (m : Mem) (fuel node : Nat) (circ : List Nat) :
    recurse_dir m (fuel + 1) node circ =
      match loop (walk_step m fuel) (up_links m node) circ with
      | .ret w => w
      | .next circ' => .ret 0 circ' := by
  have hbody : ∀ (s : List Nat) (d : Nat),
      (if d_inum m d = 0 then Step.next s
        else if !isDotDot m d then Step.next s
        else if d_inum m d = 1 then Step.next s
        else
          match circle_scan (d_inum m d) s with
          | .overrun => Step.ret Walk.fault
          | .seen => Step.ret (Walk.ret (-1) s)
          | .added circ1 =>
            match recurse_dir m fuel (dinode (d_inum m d)) circ1 with
            | .ret v circ2 =>
              if v = -1 then Step.ret (Walk.ret (-1) circ2) else Step.next circ2
            | w => Step.ret w) =
      if is_up_link m d then walk_step m fuel s (d_inum m d) else Step.next s := by
    intro s d
    unfold is_up_link
    by_cases h0 : d_inum m d = 0
    · simp [h0]
    · by_cases hdd : isDotDot m d = true
      · by_cases h1 : d_inum m d = 1
        · simp [h0, hdd, h1]
        · simp only [h0, hdd, h1, if_false, Bool.not_true, Bool.false_eq_true, bne_iff_ne, ne_eq,
            not_false_eq_true, decide_True, Bool.and_self, if_true, Bool.and_true]
          simp only [walk_step]
          simp [h0, h1]
      · simp [h0, hdd]
  rw [recurse_dir]
  simp only [hbody]
  unfold up_links dir_slots
  rw [← loop_map, ← loop_filter, ← loop_flatMap]
  congr 1
  apply loop_congr
  intro s i _
  by_cases hz : addrs m node i = 0
  · simp only [hz, if_true, loop_nil]
  · simp only [hz, if_false]
    exact loop_map (dent (addrs m node i))
      (fun s x => if is_up_link m x then walk_step m fuel s (d_inum m x) else Step.next s)
      (List.range DPB) s

theorem circle_scan_seen (t : Nat) (vis rest : List Nat) (hnz : ∀ x ∈ vis, x ≠ 0)
    (ht : t ∈ vis) : circle_scan t (vis ++ rest) = Scan.seen := by
  induction vis with
  | nil => cases ht
  | cons c vis ih =>
    have hc : c ≠ 0 := hnz c (List.mem_cons_self _ _)
    rw [List.cons_append, circle_scan]
    simp only [hc, if_false]
    by_cases htc : t = c
    · simp [htc]
    · simp only [htc, if_false]
      have ht' : t ∈ vis := by
        rcases List.mem_cons.mp ht with h | h
        · exact absurd h htc
        · exact h
      rw [ih (fun x hx => hnz x (List.mem_cons_of_mem _ hx)) ht']

theorem circle_scan_added (t : Nat) (vis rest : List Nat) (hnz : ∀ x ∈ vis, x ≠ 0)
    (ht : t ∉ vis) : circle_scan t (vis ++ 0 :: rest) = Scan.added (vis ++ t :: rest) := by
  induction vis with
  | nil => simp [circle_scan]
  | cons c vis ih =>
    have hc : c ≠ 0 := hnz c (List.mem_cons_self _ _)
    have htc : t ≠ c := fun h => ht (h ▸ List.mem_cons_self _ _)
    rw [List.cons_append, circle_scan]
    simp only [hc, htc, if_false]
    rw [ih (fun x hx => hnz x (List.mem_cons_of_mem _ hx))
      (fun h => ht (List.mem_cons_of_mem _ h))]
    rfl

theorem goodVis_nonzero {n : Nat} {vis : List Nat} (h : GoodVis n vis) : ∀ x ∈ vis, x ≠ 0 := by
  intro x hx
  have := (h.2 x hx).1
  omega

theorem goodVis_length {n : Nat} {vis : List Nat} (h : GoodVis n vis) :
    vis.length ≤ n - 2 := by
  have hsub : vis ⊆ List.range' 2 (n - 2) := by
    intro x hx
    have := h.2 x hx
    rw [List.mem_range'_1]
    omega
  have := (List.subperm_of_subset h.1 hsub).length_le
  rwa [List.length_range'] at this

theorem goodVis_snoc {n : Nat} {vis : List Nat} {t : Nat} (h : GoodVis n vis)
    (ht : t ∉ vis) (h2 : 2 ≤ t) (hn : t < n) : GoodVis n (vis ++ [t]) := by
  refine ⟨?_, ?_⟩
  · rw [List.nodup_append]
    refine ⟨h.1, List.nodup_singleton t, ?_⟩
    intro a ha hb
    rw [List.mem_singleton] at hb
    exact ht (hb ▸ ha)
  · intro x hx
    rcases List.mem_append.mp hx with hx | hx
    · exact h.2 x hx
    · rw [List.mem_singleton] at hx
      subst hx
      exact ⟨h2, hn⟩

theorem pad_open (n : Nat) (vis : List Nat) (h : vis.length < n) :
    pad n vis = vis ++ 0 :: List.replicate (n - vis.length - 1) 0 := by
  unfold pad
  have : n - vis.length = (n - vis.length - 1) + 1 := by omega
  rw [this, List.replicate_succ]
  simp

theorem pad_snoc (n : Nat) (vis : List Nat) (t : Nat) :
    pad n (vis ++ [t]) = vis ++ t :: List.replicate (n - vis.length - 1) 0 := by
  unfold pad
  simp [Nat.sub_sub]

theorem pad_length (n : Nat) (vis : List Nat) (h : vis.length ≤ n) :
    (pad n vis).length = n := by
  unfold pad
  simp
  omega

theorem closed_append (m : Mem) (a b : List Nat) (ha : Closed m a) (hb : Closed m b) :
    Closed m (a ++ b) := by
  induction a with
  | nil => exact hb
  | cons u rest ih =>
    exact ⟨fun t ht => List.mem_append_left _ (ha.1 t ht), ih ha.2⟩

theorem closed_no_cycle (m : Mem) (S : Nat → Prop)
    (hS : ∀ u, S u → ∃ t ∈ up_links m (dinode u), S t) (l : List Nat) (hl : Closed m l) :
    ∀ u ∈ l, ¬ S u := by
  induction l with
  | nil => intro u hu; cases hu
  | cons x rest ih =>
    have ih' := ih hl.2
    intro u hu hSu
    rcases List.mem_cons.mp hu with rfl | hu
    · obtain ⟨t, ht, hSt⟩ := hS u hSu
      exact ih' t (hl.1 t ht) hSt
    · exact ih' u hu hSu

theorem up_links_bounds (m : Mem) (n i : Nat) (hb : inums_bounded m n) (hi : i < n) :
    ∀ t ∈ up_links m (dinode i), 2 ≤ t ∧ t < n := by
  intro t ht
  unfold up_links at ht
  obtain ⟨d, hd, rfl⟩ := List.mem_map.mp ht
  obtain ⟨hmem, hp⟩ := List.mem_filter.mp hd
  unfold is_up_link at hp
  simp only [Bool.and_eq_true, bne_iff_ne, ne_eq] at hp
  have := hb i hi d hmem
  omega

theorem loop_walk (m : Mem) (n f : Nat)
    (ih : ∀ i vis, i < n → GoodVis n vis → n ≤ f + vis.length → WalkSpec m n f i vis)
    (ts : List Nat) (hts : ∀ t ∈ ts, 2 ≤ t ∧ t < n) (vis : List Nat) (hg : GoodVis n vis)
    (hf : n ≤ f + 1 + vis.length) :
    ∃ added, GoodVis n (vis ++ added) ∧
      (loop (walk_step m f) ts (pad n vis) =
          Step.ret (Walk.ret (-1) (pad n (vis ++ added))) ∨
        (loop (walk_step m f) ts (pad n vis) = Step.next (pad n (vis ++ added)) ∧
          (∀ t ∈ ts, t ∈ added) ∧ Closed m added)) := by
  induction ts generalizing vis with
  | nil =>
    refine ⟨[], by simpa using hg, Or.inr ⟨by simp [loop_nil], ?_, trivial⟩⟩
    intro t ht
    cases ht
  | cons t ts iht =>
    have hts' : ∀ t ∈ ts, 2 ≤ t ∧ t < n := fun x hx => hts x (List.mem_cons_of_mem _ hx)
    have htb := hts t (List.mem_cons_self _ _)
    rw [loop_cons]
    by_cases ht : t ∈ vis
    · refine ⟨[], by simpa using hg, Or.inl ?_⟩
      have hscan : circle_scan t (pad n vis) = Scan.seen :=
        circle_scan_seen t vis _ (goodVis_nonzero hg) ht
      simp only [walk_step, hscan, List.append_nil]
    · have hg1 : GoodVis n (vis ++ [t]) := goodVis_snoc hg ht htb.1 htb.2
      have hlen : vis.length < n := by
        have := goodVis_length hg1
        rw [List.length_append, List.length_singleton] at this
        omega
      have hscan : circle_scan t (pad n vis) = Scan.added (pad n (vis ++ [t])) := by
        rw [pad_open n vis hlen, pad_snoc n vis t]
        exact circle_scan_added t vis _ (goodVis_nonzero hg) ht
      obtain ⟨v, add1, hrec, hg2, hv⟩ := ih t (vis ++ [t]) htb.2 hg1
        (by rw [List.length_append, List.length_singleton]; omega)
      simp only [walk_step, hscan, hrec]
      rcases hv with hv | ⟨hv, hlinks, hclosed⟩
      · subst hv
        refine ⟨t :: add1, ?_, Or.inl ?_⟩
        · simpa using hg2
        · simp
      · subst hv
        obtain ⟨add2, hg3, hres⟩ := iht hts' (vis ++ [t] ++ add1) hg2
          (by simp only [List.length_append, List.length_singleton]; omega)
        have hassoc : vis ++ (t :: add1 ++ add2) = vis ++ [t] ++ add1 ++ add2 := by simp
        refine ⟨t :: add1 ++ add2, by rw [hassoc]; exact hg3, ?_⟩
        have hne : ¬ ((0 : Int) = -1) := by decide
        simp only [hne, if_false]
        rw [hassoc]
        rcases hres with hres | ⟨hres, hall, hcl⟩
        · exact Or.inl hres
        · refine Or.inr ⟨hres, ?_, ?_⟩
          · intro x hx
            rcases List.mem_cons.mp hx with rfl | hx
            · simp
            · exact List.mem_append_right _ (hall x hx)
          · exact ⟨fun x hx => List.mem_append_left _ (hlinks x hx),
              closed_append m add1 add2 hclosed hcl⟩

theorem walk_total (m : Mem) (n : Nat) (hb : inums_bounded m n) (f : Nat) :
    ∀ i vis, i < n → GoodVis n vis → n ≤ f + vis.length → WalkSpec m n f i vis := by
  induction f with
  | zero =>
    intro i vis hi hg hf
    have := goodVis_length hg
    omega
  | succ f ih =>
    intro i vis hi hg hf
    obtain ⟨added, hg', hres⟩ := loop_walk m n f ih (up_links m (dinode i))
      (up_links_bounds m n i hb hi) vis hg (by omega)
    unfold WalkSpec
    rw [recurse_dir_succ]
    rcases hres with hres | ⟨hres, hall, hcl⟩
    · exact ⟨-1, added, by rw [hres], hg', Or.inl rfl⟩
    · exact ⟨0, added, by rw [hres], hg', Or.inr ⟨rfl, hall, hcl⟩⟩

theorem goodVis_nil (n : Nat) : GoodVis n [] :=
  ⟨List.nodup_nil, fun _ hx => nomatch hx⟩

theorem pad_nil (n : Nat) : pad n [] = calloc n := by
  simp [pad, calloc]

/-- A start of the walk at inode `i` with an empty `circle`. -/
theorem walk_start (m : Mem) (n : Nat) (hb : inums_bounded m n) (f : Nat) (hf : n ≤ f)
    (i : Nat) (hi : i < n) :
    ∃ v added, recurse_dir m f (dinode i) (calloc n) = Walk.ret v (pad n added) ∧
      GoodVis n added ∧
      (v = -1 ∨ (v = 0 ∧ (∀ t ∈ up_links m (dinode i), t ∈ added) ∧ Closed m added)) := by
  obtain ⟨v, added, hrec, hg, hv⟩ := walk_total m n hb f i [] hi (goodVis_nil n) (by simpa using hf)
  rw [pad_nil, List.nil_append] at hrec
  rw [List.nil_append] at hg
  exact ⟨v, added, hrec, hg, hv⟩

theorem pad_filter (n : Nat) (vis : List Nat) (h : ∀ x ∈ vis, x ≠ 0) :
    (pad n vis).filter (· ≠ 0) = vis := by
  unfold pad
  rw [List.filter_append]
  have h1 : vis.filter (· ≠ 0) = vis := by
    rw [List.filter_eq_self]
    intro x hx
    simpa using h x hx
  have h2 : (List.replicate (n - vis.length) 0).filter (· ≠ 0) = [] := by
    rw [List.filter_eq_nil_iff]
    intro x hx
    have := (List.mem_replicate.mp hx).2
    simp [this]
  rw [h1, h2, List.append_nil]

theorem mem_pad (n : Nat) (vis : List Nat) (x : Nat) (hx : x ∈ pad n vis) : x ∈ vis ∨ x = 0 := by
  unfold pad at hx
  rcases List.mem_append.mp hx with h | h
  · exact Or.inl h
  · exact Or.inr (List.mem_replicate.mp h).2

theorem loop_unit_hit {α ρ : Type} (body : Unit → α → Step Unit ρ) (r : ρ) (xs : List α)
    (hall : ∀ x ∈ xs, body () x = Step.next () ∨ body () x = Step.ret r)
    (hex : ∃ x ∈ xs, body () x = Step.ret r) : loop body xs () = Step.ret r := by
  induction xs with
  | nil =>
    obtain ⟨x, hx, _⟩ := hex
    cases hx
  | cons y ys ih =>
    rw [loop_cons]
    rcases hall y (List.mem_cons_self _ _) with hy | hy
    · rw [hy]
      apply ih (fun x hx => hall x (List.mem_cons_of_mem _ hx))
      obtain ⟨x, hx, hr⟩ := hex
      rcases List.mem_cons.mp hx with rfl | hx
      · rw [hy] at hr
        cases hr
      · exact ⟨x, hx, hr⟩
    · rw [hy]

theorem loop_unit_cases {α ρ : Type} (body : Unit → α → Step Unit ρ) (r : ρ) (xs : List α)
    (hall : ∀ x ∈ xs, body () x = Step.next () ∨ body () x = Step.ret r) :
    loop body xs () = Step.next () ∨ loop body xs () = Step.ret r := by
  induction xs with
  | nil => exact Or.inl rfl
  | cons y ys ih =>
    rw [loop_cons]
    rcases hall y (List.mem_cons_self _ _) with hy | hy
    · rw [hy]
      exact ih (fun x hx => hall x (List.mem_cons_of_mem _ hx))
    · rw [hy]
      exact Or.inr rfl

theorem check_no_loops_eq (m : Mem) (fuel ninodes : Nat) :
    check_no_loops m fuel ninodes =
      match loop (loops_body m fuel ninodes) (List.range ninodes) () with
      | .ret w => w
      | .next _ => .val 0 := rfl

theorem loops_body_cases (m : Mem) (n : Nat) (hb : inums_bounded m n) (f : Nat) (hf : n ≤ f)
    (i : Nat) (hi : i < n) :
    loops_body m f n () i = Step.next () ∨ loops_body m f n () i = Step.ret (Res.val (-1)) := by
  unfold loops_body
  by_cases ht : dtype m (dinode i) ≠ T_DIR
  · exact Or.inl (if_pos ht)
  · rw [if_neg ht]
    obtain ⟨v, added, hrec, _, hv⟩ := walk_start m n hb f hf i hi
    rw [hrec]
    rcases hv with hv | ⟨hv, _⟩
    · subst hv
      exact Or.inr rfl
    · subst hv
      exact Or.inl rfl

/-- C7: when every dirent inum is below `ninodes`, `recurse_dir` started at any inode with
an empty `circle` and a recursion depth of `ninodes` returns (0 or -1); the `circle` it
leaves has `ninodes` cells whose non-zero entries are without repetition, at most
`ninodes - 2` in number, none equal to 1 and all below `ninodes`; and `check_no_loops`
returns. -/
theorem C7_recurse_dir_terminates (m : Mem) (ninodes : Nat) (hb : inums_bounded m ninodes) :
    (∀ i, i < ninodes → ∃ v circ,
      recurse_dir m ninodes (dinode i) (calloc ninodes) = Walk.ret v circ ∧
      (v = 0 ∨ v = -1) ∧ circ.length = ninodes ∧
      (circ.filter (· ≠ 0)).Nodup ∧ (circ.filter (· ≠ 0)).length ≤ ninodes - 2 ∧
      ∀ x ∈ circ, x ≠ 1 ∧ x < ninodes) ∧
    (∃ v, check_no_loops m ninodes ninodes = Res.val v) := by
  constructor
  · intro i hi
    obtain ⟨v, added, hrec, hg, hv⟩ := walk_start m ninodes hb ninodes (Nat.le_refl _) i hi
    have hlen := goodVis_length hg
    refine ⟨v, pad ninodes added, hrec, ?_, pad_length _ _ (by omega), ?_, ?_, ?_⟩
    · rcases hv with hv | ⟨hv, _⟩
      · exact Or.inr hv
      · exact Or.inl hv
    · rw [pad_filter _ _ (goodVis_nonzero hg)]
      exact hg.1
    · rw [pad_filter _ _ (goodVis_nonzero hg)]
      exact hlen
    · intro x hx
      rcases mem_pad _ _ _ hx with h | h
      · have := hg.2 x h
        omega
      · omega
  · rw [check_no_loops_eq]
    rcases loop_unit_cases (loops_body m ninodes ninodes) (Res.val (-1)) (List.range ninodes)
      (fun x hx => loops_body_cases m ninodes hb ninodes (Nat.le_refl _) x
        (List.mem_range.mp hx)) with h | h
    · exact ⟨0, by rw [h]⟩
    · exact ⟨-1, by rw [h]⟩

/-- C6: when every dirent inum is below `ninodes` and the directories `D 0, ..., D (k-1)`
(`k ≥ 1`, none of them inode 1) are such that a `..` entry in a direct block of `D i`
names `D ((i+1) mod k)`, `check_no_loops` returns -1 for every recursion depth from
`ninodes` on. -/
theorem C6_check_no_loops_cycle (m : Mem) (ninodes fuel : Nat)
    (hb : inums_bounded m ninodes) (hf : ninodes ≤ fuel)
    (k : Nat) (hk : 1 ≤ k) (D : Nat → Nat)
    (hD : ∀ i, i < k → D i < ninodes ∧ dtype m (dinode (D i)) = T_DIR ∧ D i ≠ 1 ∧
      dotdot_names m (D i) (D ((i + 1) % k))) :
    check_no_loops m fuel ninodes = Res.val (-1) := by
  have hS : ∀ u, (∃ i, i < k ∧ D i = u) →
      ∃ t ∈ up_links m (dinode u), ∃ i, i < k ∧ D i = t := by
    rintro u ⟨i, hi, rfl⟩
    have hnext : (i + 1) % k < k := Nat.mod_lt _ (by omega)
    obtain ⟨d, hd, hnz, hdd, hnum⟩ := (hD i hi).2.2.2
    refine ⟨D ((i + 1) % k), ?_, (i + 1) % k, hnext, rfl⟩
    unfold up_links
    refine List.mem_map.mpr ⟨d, List.mem_filter.mpr ⟨hd, ?_⟩, hnum⟩
    have hne1 : d_inum m d ≠ 1 := by
      rw [hnum]
      exact (hD _ hnext).2.2.1
    unfold is_up_link
    simp [hnz, hdd, hne1]
  have h0 : 0 < k := by omega
  have hstart : loops_body m fuel ninodes () (D 0) = Step.ret (Res.val (-1)) := by
    unfold loops_body
    rw [if_neg (not_not.mpr (hD 0 h0).2.1)]
    obtain ⟨v, added, hrec, _, hv⟩ := walk_start m ninodes hb fuel hf (D 0) (hD 0 h0).1
    rw [hrec]
    rcases hv with hv | ⟨_, hall, hcl⟩
    · subst hv
      rfl
    · exfalso
      obtain ⟨t, ht, hSt⟩ := hS (D 0) ⟨0, h0, rfl⟩
      exact closed_no_cycle m (fun u => ∃ i, i < k ∧ D i = u) hS added hcl t (hall t ht) hSt
  rw [check_no_loops_eq,
    loop_unit_hit (loops_body m fuel ninodes) (Res.val (-1)) (List.range ninodes)
      (fun x hx => loops_body_cases m ninodes hb fuel hf x (List.mem_range.mp hx))
      ⟨D 0, List.mem_range.mpr (hD 0 h0).1, hstart⟩]

set_option maxRecDepth 1000000 in
/-- C6: the hypotheses hold for the two directories of `img_cycle`. -/
theorem C6_check_no_loops_cycle_witness :
    (inums_bounded img_cycle 8 ∧ 8 ≤ 8 ∧ 1 ≤ 2 ∧
      ∀ i, i < 2 → cycle_2_3 i < 8 ∧ dtype img_cycle (dinode (cycle_2_3 i)) = T_DIR ∧
        cycle_2_3 i ≠ 1 ∧ dotdot_names img_cycle (cycle_2_3 i) (cycle_2_3 ((i + 1) % 2))) ∧
    check_no_loops img_cycle 8 8 = Res.val (-1) :=
  ⟨⟨by decide, by decide, by decide, by decide⟩,
    C6_check_no_loops_cycle img_cycle 8 8 (by decide) (by decide) 2 (by decide) cycle_2_3
      (by decide)⟩

set_option maxRecDepth 1000000 in
/-- C7: the hypothesis holds for `img_wrong_parent`. -/
theorem C7_recurse_dir_terminates_witness :
    inums_bounded img_wrong_parent 8 ∧
    ((∀ i, i < 8 → ∃ v circ,
      recurse_dir img_wrong_parent 8 (dinode i) (calloc 8) = Walk.ret v circ ∧
      (v = 0 ∨ v = -1) ∧ circ.length = 8 ∧
      (circ.filter (· ≠ 0)).Nodup ∧ (circ.filter (· ≠ 0)).length ≤ 8 - 2 ∧
      ∀ x ∈ circ, x ≠ 1 ∧ x < 8) ∧
    (∃ v, check_no_loops img_wrong_parent 8 8 = Res.val v)) :=
  ⟨by decide, C7_recurse_dir_terminates img_wrong_parent 8 (by decide)⟩



/-! ## The recursion depth `main` allows is never used up -/

theorem circle_scan_count (t : Nat) (ht : t ≠ 0) (circ c' : List Nat)
    (h : circle_scan t circ = Scan.added c') : c'.count 0 + 1 = circ.count 0 := by
  induction circ generalizing c' with
  | nil => cases h
  | cons c cs ih =>
    rw [circle_scan] at h
    by_cases hc : c = 0
    · subst hc
      simp only [if_true] at h
      cases h
      rw [List.count_cons_self, List.count_cons_of_ne (Ne.symm ht)]
    · simp only [hc, if_false] at h
      by_cases htc : t = c
      · simp [htc] at h
      · simp only [htc, if_false] at h
        cases hs : circle_scan t cs with
        | overrun => rw [hs] at h; cases h
        | seen => rw [hs] at h; cases h
        | added cs' =>
          rw [hs] at h
          cases h
          have := ih cs' hs
          rw [List.count_cons_of_ne (Ne.symm hc), List.count_cons_of_ne (Ne.symm hc)]
          exact this

theorem up_links_nonzero (m : Mem) (node : Nat) : ∀ t ∈ up_links m node, t ≠ 0 := by
  intro t ht
  unfold up_links at ht
  obtain ⟨d, hd, rfl⟩ := List.mem_map.mp ht
  have hp := (List.mem_filter.mp hd).2
  unfold is_up_link at hp
  simp only [Bool.and_eq_true, bne_iff_ne, ne_eq] at hp
  exact hp.1.1

theorem loop_walk_returns (m : Mem) (f : Nat)
    (ih : ∀ node c, c.count 0 < f → Returns (recurse_dir m f node c) c)
    (ts : List Nat) (hts : ∀ t ∈ ts, t ≠ 0) (circ : List Nat) (hc : circ.count 0 ≤ f) :
    (∃ w, loop (walk_step m f) ts circ = Step.ret w ∧ Returns w circ) ∨
    (∃ c', loop (walk_step m f) ts circ = Step.next c' ∧ c'.count 0 ≤ circ.count 0) := by
  induction ts generalizing circ with
  | nil => exact Or.inr ⟨circ, rfl, Nat.le_refl _⟩
  | cons t ts iht =>
    have htz := hts t (List.mem_cons_self _ _)
    have hts' : ∀ t ∈ ts, t ≠ 0 := fun x hx => hts x (List.mem_cons_of_mem _ hx)
    rw [loop_cons]
    unfold walk_step
    cases hs : circle_scan t circ with
    | overrun => exact Or.inl ⟨Walk.fault, rfl, Or.inl rfl⟩
    | seen => exact Or.inl ⟨Walk.ret (-1) circ, rfl, Or.inr ⟨-1, circ, rfl, Nat.le_refl _⟩⟩
    | added c1 =>
      have hcount := circle_scan_count t htz circ c1 hs
      rcases ih (dinode t) c1 (by omega) with hfault | ⟨v, c2, hret, hle⟩
      · simp only [hfault]
        exact Or.inl ⟨Walk.fault, rfl, Or.inl rfl⟩
      · simp only [hret]
        by_cases hv : v = -1
        · simp only [hv, if_true]
          exact Or.inl ⟨Walk.ret (-1) c2, rfl, Or.inr ⟨-1, c2, rfl, by omega⟩⟩
        · simp only [hv, if_false]
          rcases iht hts' c2 (by omega) with ⟨w, hw, hr⟩ | ⟨c', hc', hle'⟩
          · refine Or.inl ⟨w, hw, ?_⟩
            rcases hr with hr | ⟨v', c'', hr, hle'⟩
            · exact Or.inl hr
            · exact Or.inr ⟨v', c'', hr, by omega⟩
          · exact Or.inr ⟨c', hc', by omega⟩

theorem recurse_dir_returns (m : Mem) (f : Nat) :
    ∀ node circ, circ.count 0 < f → Returns (recurse_dir m f node circ) circ := by
  induction f with
  | zero =>
    intro node circ h
    omega
  | succ f ih =>
    intro node circ h
    rw [recurse_dir_succ]
    rcases loop_walk_returns m f ih (up_links m node) (up_links_nonzero m node) circ
      (by omega) with ⟨w, hw, hr⟩ | ⟨c', hc', hle⟩
    · rw [hw]
      exact hr
    · rw [hc']
      exact Or.inr ⟨0, c', rfl, hle⟩

/-- With the recursion depth that `main` passes, `check_no_loops` never stops for lack of
depth. -/
theorem check_no_loops_no_timeout (m : Mem) (ninodes : Nat) :
    check_no_loops m (ninodes + 1) ninodes ≠ Res.timeout := by
  rw [check_no_loops_eq]
  intro h
  cases hl : loop (loops_body m (ninodes + 1) ninodes) (List.range ninodes) () with
  | next u =>
    rw [hl] at h
    cases h
  | ret w =>
    rw [hl] at h
    simp only at h
    subst h
    obtain ⟨i, _, hi⟩ := loop_unit_ret _ _ _ hl
    unfold loops_body at hi
    split at hi
    · cases hi
    · have hcount : (calloc ninodes).count 0 < ninodes + 1 := by
        unfold calloc
        rw [List.count_replicate_self]
        omega
      rcases recurse_dir_returns m (ninodes + 1) (dinode i) (calloc ninodes) hcount with
        hf | ⟨v, c', hr, _⟩
      · rw [hf] at hi
        cases hi
      · rw [hr] at hi
        simp only at hi
        split at hi <;> cases hi


/-! ## Checks 2A and 2B: addresses inside the image -/

theorem loop_range_check (f : Nat → Nat) (size : Nat) (xs : List Nat) :
    loop (fun (_ : Unit) i =>
        if f i = 0 then Step.next ()
        else if f i ≥ size then Step.ret (-1 : Int)
        else Step.next ()) xs () =
      if xs.any (fun j => decide (f j ≠ 0) && decide (f j ≥ size))
      then Step.ret (-1) else Step.next () := by
  rw [← loop_unit]
  apply loop_congr
  intro s i _
  by_cases hz : f i = 0
  · simp [hz]
  · by_cases hs : f i ≥ size <;> simp [hz, hs]

theorem match_if_step (c : Prop) [Decidable c] :
    (match (if c then Step.ret (-1 : Int) else (Step.next () : Step Unit Int)) with
      | .ret r => r
      | .next _ => 0) = if c then -1 else 0 := by
  by_cases h : c
  · rw [if_pos h, if_pos h]
  · rw [if_neg h, if_neg h]

theorem check_valid_direct_eq (m : Mem) (node size : Nat) :
    check_valid_direct m node size =
      if (List.range NDIRECT).any
        (fun j => decide (addrs m node j ≠ 0) && decide (addrs m node j ≥ size))
      then -1 else 0 := by
  unfold check_valid_direct
  rw [loop_range_check (addrs m node)]
  exact match_if_step _

theorem check_valid_indirect_eq (m : Mem) (node size : Nat) :
    check_valid_indirect m node size =
      if addrs m node NDIRECT = 0 then 0
      else if addrs m node NDIRECT ≥ size then -1
      else if (List.range NINDIRECT).any
          (fun j => decide (ind m (addrs m node NDIRECT) j ≠ 0) &&
            decide (ind m (addrs m node NDIRECT) j ≥ size))
        then -1 else 0 := by
  unfold check_valid_indirect
  simp only []
  rw [loop_range_check (ind m (addrs m node NDIRECT))]
  by_cases h0 : addrs m node NDIRECT = 0
  · simp only [h0, if_true]
  · simp only [h0, if_false]
    by_cases h1 : addrs m node NDIRECT ≥ size
    · simp only [h1, if_true]
    · simp only [h1, if_false]
      exact match_if_step _

theorem rd16_lt (m : Mem) (p : Nat) : rd16 m p < 65536 := by
  unfold rd16
  have h1 := rd8_lt m p
  have h2 := rd8_lt m (p + 1)
  omega

theorem rd32_lt (m : Mem) (p : Nat) : rd32 m p < 4294967296 := by
  unfold rd32
  have h1 := rd16_lt m p
  have h2 := rd16_lt m (p + 2)
  omega

/-- C12: `check_valid_direct` returns -1 exactly when some direct address (slots 0..11),
a 32-bit unsigned value, is non-zero and at least `size`, and returns 0 otherwise; an
address of 0 never causes the error. -/
theorem C12_check_valid_direct (m : Mem) (node size : Nat) :
    (check_valid_direct m node size = -1 ↔
      ∃ j, j < NDIRECT ∧ addrs m node j ≠ 0 ∧ addrs m node j ≥ size) ∧
    (check_valid_direct m node size = 0 ↔
      ∀ j, j < NDIRECT → addrs m node j = 0 ∨ addrs m node j < size) ∧
    (∀ j, addrs m node j < 4294967296) := by
  have hany : ((List.range NDIRECT).any
      (fun j => decide (addrs m node j ≠ 0) && decide (addrs m node j ≥ size)) = true) ↔
      ∃ j, j < NDIRECT ∧ addrs m node j ≠ 0 ∧ addrs m node j ≥ size := by
    rw [List.any_eq_true]
    constructor
    · rintro ⟨j, hj, hc⟩
      rw [Bool.and_eq_true, decide_eq_true_eq, decide_eq_true_eq] at hc
      exact ⟨j, List.mem_range.mp hj, hc⟩
    · rintro ⟨j, hj, hc⟩
      refine ⟨j, List.mem_range.mpr hj, ?_⟩
      rw [Bool.and_eq_true, decide_eq_true_eq, decide_eq_true_eq]
      exact hc
  rw [check_valid_direct_eq]
  refine ⟨?_, ?_, fun j => rd32_lt m _⟩
  · split
    · rename_i h
      exact ⟨fun _ => hany.mp h, fun _ => rfl⟩
    · rename_i h
      exact ⟨fun hc => absurd hc (by decide), fun hex => absurd (hany.mpr hex) h⟩
  · split
    · rename_i h
      refine ⟨fun hc => absurd hc (by decide), fun hall => ?_⟩
      obtain ⟨j, hj, hnz, hge⟩ := hany.mp h
      rcases hall j hj with h0 | hlt
      · exact absurd h0 hnz
      · omega
    · rename_i h
      refine ⟨fun _ j hj => ?_, fun _ => rfl⟩
      by_cases h0 : addrs m node j = 0
      · exact Or.inl h0
      · right
        by_contra hge
        exact h (hany.mpr ⟨j, hj, h0, by omega⟩)

/-- C13: `check_valid_indirect` returns -1 exactly when the indirect slot is non-zero and
either is at least `size` or names a block one of whose 128 entries is non-zero and at
least `size`; it returns 0 otherwise, in particular whenever the indirect slot is 0. -/
theorem C13_check_valid_indirect (m : Mem) (node size : Nat) :
    (check_valid_indirect m node size = -1 ↔
      addrs m node NDIRECT ≠ 0 ∧
        (addrs m node NDIRECT ≥ size ∨
          ∃ j, j < NINDIRECT ∧ ind m (addrs m node NDIRECT) j ≠ 0 ∧
            ind m (addrs m node NDIRECT) j ≥ size)) ∧
    (check_valid_indirect m node size = 0 ↔
      ¬ (addrs m node NDIRECT ≠ 0 ∧
        (addrs m node NDIRECT ≥ size ∨
          ∃ j, j < NINDIRECT ∧ ind m (addrs m node NDIRECT) j ≠ 0 ∧
            ind m (addrs m node NDIRECT) j ≥ size))) := by
  have hany : ((List.range NINDIRECT).any
      (fun j => decide (ind m (addrs m node NDIRECT) j ≠ 0) &&
        decide (ind m (addrs m node NDIRECT) j ≥ size)) = true) ↔
      ∃ j, j < NINDIRECT ∧ ind m (addrs m node NDIRECT) j ≠ 0 ∧
        ind m (addrs m node NDIRECT) j ≥ size := by
    rw [List.any_eq_true]
    constructor
    · rintro ⟨j, hj, hc⟩
      rw [Bool.and_eq_true, decide_eq_true_eq, decide_eq_true_eq] at hc
      exact ⟨j, List.mem_range.mp hj, hc⟩
    · rintro ⟨j, hj, hc⟩
      refine ⟨j, List.mem_range.mpr hj, ?_⟩
      rw [Bool.and_eq_true, decide_eq_true_eq, decide_eq_true_eq]
      exact hc
  rw [check_valid_indirect_eq]
  by_cases h0 : addrs m node NDIRECT = 0
  · simp [h0]
  · by_cases h1 : addrs m node NDIRECT ≥ size
    · simp [h0, h1]
    · simp only [h0, h1, if_false, ne_eq, not_false_eq_true, true_and, false_or]
      by_cases h2 : (List.range NINDIRECT).any
          (fun j => decide (ind m (addrs m node NDIRECT) j ≠ 0) &&
            decide (ind m (addrs m node NDIRECT) j ≥ size)) = true
      · rw [if_pos h2]
        have := hany.mp h2
        exact ⟨⟨fun _ => this, fun _ => rfl⟩, ⟨fun hc => absurd hc (by decide), fun hn => absurd this hn⟩⟩
      · rw [if_neg h2]
        have hn : ¬ ∃ j, j < NINDIRECT ∧ ind m (addrs m node NDIRECT) j ≠ 0 ∧
            ind m (addrs m node NDIRECT) j ≥ size := fun hex => h2 (hany.mpr hex)
        exact ⟨⟨fun hc => absurd hc (by decide), fun hex => absurd hex hn⟩, ⟨fun _ => hn, fun _ => rfl⟩⟩


theorem check_valid_direct_ok (m : Mem) (node size : Nat)
    (h : ¬ check_valid_direct m node size < 0) :
    ∀ j, j < NDIRECT → addrs m node j = 0 ∨ addrs m node j < size := by
  rw [check_valid_direct_eq] at h
  intro j hj
  by_cases hany : (List.range NDIRECT).any
      (fun j => decide (addrs m node j ≠ 0) && decide (addrs m node j ≥ size)) = true
  · rw [if_pos hany] at h
    exact absurd (by decide) h
  · rw [Bool.not_eq_true, List.any_eq_false] at hany
    have := hany j (List.mem_range.mpr hj)
    rw [Bool.and_eq_true, decide_eq_true_eq, decide_eq_true_eq] at this
    by_cases h0 : addrs m node j = 0
    · exact Or.inl h0
    · right
      by_contra hge
      exact this ⟨h0, by omega⟩

theorem check_valid_indirect_ok (m : Mem) (node size : Nat)
    (h : ¬ check_valid_indirect m node size < 0) :
    addrs m node NDIRECT = 0 ∨
      (addrs m node NDIRECT < size ∧
        ∀ j, j < NINDIRECT → ind m (addrs m node NDIRECT) j = 0 ∨
          ind m (addrs m node NDIRECT) j < size) := by
  rw [check_valid_indirect_eq] at h
  by_cases h0 : addrs m node NDIRECT = 0
  · exact Or.inl h0
  · right
    rw [if_neg h0] at h
    by_cases h1 : addrs m node NDIRECT ≥ size
    · rw [if_pos h1] at h
      exact absurd (by decide) h
    · rw [if_neg h1] at h
      refine ⟨by omega, fun j hj => ?_⟩
      by_cases hany : (List.range NINDIRECT).any
          (fun j => decide (ind m (addrs m node NDIRECT) j ≠ 0) &&
            decide (ind m (addrs m node NDIRECT) j ≥ size)) = true
      · rw [if_pos hany] at h
        exact absurd (by decide) h
      · rw [Bool.not_eq_true, List.any_eq_false] at hany
        have := hany j (List.mem_range.mpr hj)
        rw [Bool.and_eq_true, decide_eq_true_eq, decide_eq_true_eq] at this
        by_cases hz : ind m (addrs m node NDIRECT) j = 0
        · exact Or.inl hz
        · right
          by_contra hge
          exact this ⟨hz, by omega⟩

set_option maxRecDepth 1000000 in
/-- C11, as stated, fails: `main` returns 0 on `img_low_addr`, whose in-use inode 1 holds
the direct address 3, which is neither 0 nor at least the first data block (5). -/
theorem C11_counterexample :
    main img_low_addr = .exit0 ∧ dtype img_low_addr (dinode 1) ≠ 0 ∧
      addrs img_low_addr (dinode 1) 1 = 3 ∧
      ¬ (addrs img_low_addr (dinode 1) 1 = 0 ∨
        (first_data_block img_low_addr ≤ addrs img_low_addr (dinode 1) 1 ∧
          addrs img_low_addr (dinode 1) 1 < sb_size img_low_addr)) := by
  decide

/-- C11, amended: on every image for which `main` returns 0, every address stored in a
direct slot, in the indirect slot, or (when the indirect slot is non-zero) inside the
indirect block of an inode of non-zero type is 0 or below `size`. -/
theorem C11_addresses_of_accepted (m : Mem) (h : main m = .exit0) :
    ∀ i, i < sb_ninodes m → dtype m (dinode i) ≠ 0 →
      (∀ j, j < NDIRECT + 1 →
        addrs m (dinode i) j = 0 ∨ addrs m (dinode i) j < sb_size m) ∧
      (addrs m (dinode i) NDIRECT ≠ 0 → ∀ j, j < NINDIRECT →
        ind m (addrs m (dinode i) NDIRECT) j = 0 ∨
          ind m (addrs m (dinode i) NDIRECT) j < sb_size m) := by
  obtain ⟨hper, _⟩ := main_exit0 m h
  intro i hi ht
  have hp := hper i hi
  unfold per_inode at hp
  simp only [ht, if_false] at hp
  split at hp
  · cases hp
  · split at hp
    · cases hp
    · rename_i hdirect
      split at hp
      · cases hp
      · rename_i hindirect
        have hd := check_valid_direct_ok m _ _ hdirect
        have hi' := check_valid_indirect_ok m _ _ hindirect
        constructor
        · intro j hj
          by_cases hj' : j < NDIRECT
          · exact hd j hj'
          · have : j = NDIRECT := by omega
            subst this
            rcases hi' with h0 | ⟨hlt, _⟩
            · exact Or.inl h0
            · exact Or.inr hlt
        · intro hnz j hj
          rcases hi' with h0 | ⟨_, hall⟩
          · exact absurd h0 hnz
          · exact hall j hj

set_option maxRecDepth 1000000 in
/-- C11, amended: the hypothesis holds for `img_low_addr`. -/
theorem C11_addresses_of_accepted_witness :
    main img_low_addr = .exit0 ∧
    ∀ i, i < sb_ninodes img_low_addr → dtype img_low_addr (dinode i) ≠ 0 →
      (∀ j, j < NDIRECT + 1 →
        addrs img_low_addr (dinode i) j = 0 ∨
          addrs img_low_addr (dinode i) j < sb_size img_low_addr) ∧
      (addrs img_low_addr (dinode i) NDIRECT ≠ 0 → ∀ j, j < NINDIRECT →
        ind img_low_addr (addrs img_low_addr (dinode i) NDIRECT) j = 0 ∨
          ind img_low_addr (addrs img_low_addr (dinode i) NDIRECT) j <
            sb_size img_low_addr) :=
  ⟨by decide, C11_addresses_of_accepted img_low_addr (by decide)⟩


/-! ## The first data block -/

/-- C14, as stated, fails: for the superblock of `img_clean` (`size = 16`,
`ninodes = 8`) `main` computes the first data block 5, while
`ceil(ninodes/IPB) + ceil(size/BPB) + 2` is 4. -/
theorem C14_counterexample :
    IPB = 8 ∧ BPB = 4096 ∧ sb_size img_clean = 16 ∧ sb_ninodes img_clean = 8 ∧
      first_data_block img_clean = 5 ∧
      (sb_ninodes img_clean + IPB - 1) / IPB + (sb_size img_clean + BPB - 1) / BPB + 2 = 4 := by
  decide

/-- C14, amended: for every superblock the first data block that `main` computes is
`(ninodes / IPB + 1) + (size / BPB + 1) + 2` with the quotients rounded down, `IPB = 8`
and `BPB = 4096`; it equals `ceil(ninodes/IPB) + ceil(size/BPB) + 2` exactly when `ninodes`
is no multiple of `IPB` and `size` is no multiple of `BPB`. -/
theorem C14_first_data_block (m : Mem) :
    IPB = 8 ∧ BPB = 4096 ∧
    first_data_block m = (sb_ninodes m / IPB + 1) + (sb_size m / BPB + 1) + 2 ∧
    (first_data_block m =
        (sb_ninodes m + IPB - 1) / IPB + (sb_size m + BPB - 1) / BPB + 2 ↔
      sb_ninodes m % IPB ≠ 0 ∧ sb_size m % BPB ≠ 0) := by
  have hI : IPB = 8 := by decide
  have hB : BPB = 4096 := by decide
  have hn : sb_ninodes m < 4294967296 := rd32_lt m _
  have hs : sb_size m < 4294967296 := rd32_lt m _
  have hval : first_data_block m = (sb_ninodes m / IPB + 1) + (sb_size m / BPB + 1) + 2 := by
    unfold first_data_block
    rw [hI, hB]
    omega
  refine ⟨hI, hB, hval, ?_⟩
  rw [hval, hI, hB]
  omega


/-! ## Checks 9 to 12 -/

theorem ref_checks_next_iff (m : Mem) (tbl : List Nat) (i : Nat) :
    ref_checks m tbl i = Step.next () ↔
      (2 ≤ i →
        (dtype m (dinode i) ≠ 0 → tbl.getD i 0 ≥ 1) ∧
        (tbl.getD i 0 > 0 → dtype m (dinode i) ≠ 0) ∧
        (dtype m (dinode i) = T_FILE → nlink m (dinode i) = (tbl.getD i 0 : Int)) ∧
        (dtype m (dinode i) = T_DIR → tbl.getD i 0 ≤ 1)) := by
  unfold ref_checks
  simp only
  by_cases hi : i < 2
  · simp only [hi, if_true, true_iff]
    intro h2
    omega
  · simp only [hi, if_false]
    have h2 : 2 ≤ i := by omega
    by_cases h9 : dtype m (dinode i) ≠ 0 ∧ tbl.getD i 0 = 0
    · rw [if_pos h9]
      constructor
      · intro h
        cases h
      · intro h
        have := (h h2).1 h9.1
        omega
    · rw [if_neg h9]
      by_cases h10 : tbl.getD i 0 ≠ 0 ∧ dtype m (dinode i) = 0
      · rw [if_pos h10]
        constructor
        · intro h
          cases h
        · intro h
          exact absurd h10.2 ((h h2).2.1 (by omega))
      · rw [if_neg h10]
        by_cases h11 : dtype m (dinode i) = T_FILE ∧ nlink m (dinode i) ≠ (tbl.getD i 0 : Int)
        · rw [if_pos h11]
          constructor
          · intro h
            cases h
          · intro h
            exact absurd ((h h2).2.2.1 h11.1) h11.2
        · rw [if_neg h11]
          by_cases h12 : dtype m (dinode i) = T_DIR ∧ tbl.getD i 0 > 1
          · rw [if_pos h12]
            constructor
            · intro h
              cases h
            · intro h
              have := (h h2).2.2.2 h12.1
              omega
          · rw [if_neg h12]
            simp only [true_iff]
            intro _
            refine ⟨fun ht => ?_, fun hc => ?_, fun hf => ?_, fun hd => ?_⟩
            · by_contra hlt
              exact h9 ⟨ht, by omega⟩
            · intro h0
              exact h10 ⟨by omega, h0⟩
            · by_contra hne
              exact h11 ⟨hf, hne⟩
            · by_contra hgt
              exact h12 ⟨hd, by omega⟩

/-- C15: with `ref_count` the table built by the reference pass, the loop of `main` that
holds checks 9 to 12 reports no error exactly when every `i` with `2 ≤ i < ninodes`
satisfies: in use implies `ref_count[i] ≥ 1`; `ref_count[i] > 0` implies in use; a regular
file has `nlink = ref_count[i]`; a directory has `ref_count[i] ≤ 1`. -/
theorem C15_reference_checks (m : Mem) (ref_count : List Nat)
    (hpass : get_inode_info m (sb_ninodes m) (calloc (sb_ninodes m)) = some ref_count) :
    loop (fun _ i => ref_checks m ref_count i) (List.range (sb_ninodes m)) () = Step.next () ↔
      ∀ i, 2 ≤ i → i < sb_ninodes m →
        (dtype m (dinode i) ≠ 0 → ref_count.getD i 0 ≥ 1) ∧
        (ref_count.getD i 0 > 0 → dtype m (dinode i) ≠ 0) ∧
        (dtype m (dinode i) = T_FILE → nlink m (dinode i) = (ref_count.getD i 0 : Int)) ∧
        (dtype m (dinode i) = T_DIR → ref_count.getD i 0 ≤ 1) := by
  have _ := hpass
  rw [loop_unit_next]
  constructor
  · intro h i h2 hi
    exact (ref_checks_next_iff m ref_count i).mp (h i (List.mem_range.mpr hi)) h2
  · intro h i hi
    exact (ref_checks_next_iff m ref_count i).mpr (fun h2 => h i h2 (List.mem_range.mp hi))


set_option maxRecDepth 1000000 in
/-- C15: the hypothesis holds for `img_wrong_parent`. -/
theorem C15_reference_checks_witness :
    get_inode_info img_wrong_parent (sb_ninodes img_wrong_parent)
      (calloc (sb_ninodes img_wrong_parent)) = some tbl_wrong_parent ∧
    (loop (fun _ i => ref_checks img_wrong_parent tbl_wrong_parent i)
        (List.range (sb_ninodes img_wrong_parent)) () = Step.next () ↔
      ∀ i, 2 ≤ i → i < sb_ninodes img_wrong_parent →
        (dtype img_wrong_parent (dinode i) ≠ 0 → tbl_wrong_parent.getD i 0 ≥ 1) ∧
        (tbl_wrong_parent.getD i 0 > 0 → dtype img_wrong_parent (dinode i) ≠ 0) ∧
        (dtype img_wrong_parent (dinode i) = T_FILE →
          nlink img_wrong_parent (dinode i) = (tbl_wrong_parent.getD i 0 : Int)) ∧
        (dtype img_wrong_parent (dinode i) = T_DIR →
          tbl_wrong_parent.getD i 0 ≤ 1)) :=
  ⟨by decide, C15_reference_checks img_wrong_parent _ (by decide)⟩

theorem loop_unit_first {ρ : Type} (body : Unit → Nat → Step Unit ρ) (r : ρ) (n i : Nat)
    (hi : i < n) (hbefore : ∀ j, j < i → body () j = Step.next () ∨ body () j = Step.ret r)
    (hat : body () i = Step.ret r) : loop body (List.range n) () = Step.ret r := by
  have hsplit : List.range n = List.range i ++ List.range' i (n - i) := by
    have h := List.range_add i (n - i)
    rw [Nat.add_sub_cancel' (Nat.le_of_lt hi)] at h
    rw [h, List.range'_eq_map_range]
  have htail : List.range' i (n - i) = i :: List.range' (i + 1) (n - i - 1) := by
    have : n - i = (n - i - 1) + 1 := by omega
    rw [this, List.range'_succ]
    simp
  rw [hsplit, loop_append]
  rcases loop_unit_cases body r (List.range i)
    (fun x hx => hbefore x (List.mem_range.mp hx)) with h | h
  · rw [h]
    simp only
    rw [htail, loop_cons, hat]
  · rw [h]

set_option maxRecDepth 1000000 in
/-- C20, as stated, fails: on `img_order` checks 1 to 8 succeed and the in-use inode 3 has
`ref_count[3] = 0`, yet `main` reports `BadRefCount`, the error of inode 2. -/
theorem C20_counterexample :
    (∀ k, k < sb_ninodes img_order → per_inode img_order k = Step.next ()) ∧
    check_valid_blocks_in_bitmap img_order (first_data_block img_order)
      (calloc (sb_nblocks img_order)) = some 0 ∧
    check_direct_addr_use img_order (sb_ninodes img_order) = 0 ∧
    check_indirect_addr_use img_order (sb_ninodes img_order) = 0 ∧
    get_inode_info img_order (sb_ninodes img_order) (calloc (sb_ninodes img_order)) =
      some [29, 0, 1, 0, 0, 0, 0, 0] ∧
    dtype img_order (dinode 3) ≠ 0 ∧
    main img_order = .error .BadRefCount := by
  decide

/-- C20, amended: when checks 1 to 8 succeed, the reference pass builds `ref_count`, some
in-use inode `i ≥ 2` has `ref_count[i] = 0` and no inode `j` with `2 ≤ j < i` violates
check 10, 11 or 12, `main` reports `InodeUsedNotInDir`. -/
theorem C20_first_orphan (m : Mem) (ref_count : List Nat) (i : Nat)
    (h15 : ∀ k, k < sb_ninodes m → per_inode m k = Step.next ())
    (h6 : check_valid_blocks_in_bitmap m (first_data_block m) (calloc (sb_nblocks m)) = some 0)
    (h7 : check_direct_addr_use m (sb_ninodes m) = 0)
    (h8 : check_indirect_addr_use m (sb_ninodes m) = 0)
    (hpass : get_inode_info m (sb_ninodes m) (calloc (sb_ninodes m)) = some ref_count)
    (hi2 : 2 ≤ i) (hin : i < sb_ninodes m)
    (huse : dtype m (dinode i) ≠ 0) (hzero : ref_count.getD i 0 = 0)
    (hbefore : ∀ j, 2 ≤ j → j < i →
      (ref_count.getD j 0 > 0 → dtype m (dinode j) ≠ 0) ∧
      (dtype m (dinode j) = T_FILE → nlink m (dinode j) = (ref_count.getD j 0 : Int)) ∧
      (dtype m (dinode j) = T_DIR → ref_count.getD j 0 ≤ 1)) :
    main m = .error .InodeUsedNotInDir := by
  have hper : loop (fun _ k => per_inode m k) (List.range (sb_ninodes m)) () = Step.next () :=
    (loop_unit_next _ _).mpr (fun k hk => h15 k (List.mem_range.mp hk))
  have hat : ref_checks m ref_count i = Step.ret (.error .InodeUsedNotInDir) := by
    unfold ref_checks
    simp only
    rw [if_neg (by omega), if_pos ⟨huse, hzero⟩]
  have hb : ∀ j, j < i → ref_checks m ref_count j = Step.next () ∨
      ref_checks m ref_count j = Step.ret (.error .InodeUsedNotInDir) := by
    intro j hj
    by_cases hj2 : j < 2
    · left
      unfold ref_checks
      simp only
      rw [if_pos hj2]
    · by_cases h9 : dtype m (dinode j) ≠ 0 ∧ ref_count.getD j 0 = 0
      · right
        unfold ref_checks
        simp only
        rw [if_neg hj2, if_pos h9]
      · left
        rw [ref_checks_next_iff]
        intro h2
        obtain ⟨ha, hb', hc⟩ := hbefore j h2 hj
        refine ⟨fun ht => ?_, ha, hb', hc⟩
        by_contra hlt
        exact h9 ⟨ht, by omega⟩
  have hloop := loop_unit_first (fun _ k => ref_checks m ref_count k)
    (Outcome.error Err.InodeUsedNotInDir) (sb_ninodes m) i hin hb hat
  unfold main
  simp only [hper, h6, h7, h8, hpass, hloop]
  decide


set_option maxRecDepth 1000000 in
/-- C20, amended: the hypotheses hold for inode 3 of `img_orphan`. -/
theorem C20_first_orphan_witness :
    ((∀ k, k < sb_ninodes img_orphan → per_inode img_orphan k = Step.next ()) ∧
      check_valid_blocks_in_bitmap img_orphan (first_data_block img_orphan)
        (calloc (sb_nblocks img_orphan)) = some 0 ∧
      check_direct_addr_use img_orphan (sb_ninodes img_orphan) = 0 ∧
      check_indirect_addr_use img_orphan (sb_ninodes img_orphan) = 0 ∧
      get_inode_info img_orphan (sb_ninodes img_orphan) (calloc (sb_ninodes img_orphan)) =
        some tbl_orphan ∧
      2 ≤ 3 ∧ 3 < sb_ninodes img_orphan ∧ dtype img_orphan (dinode 3) ≠ 0 ∧
      tbl_orphan.getD 3 0 = 0 ∧
      ∀ j, 2 ≤ j → j < 3 →
        (tbl_orphan.getD j 0 > 0 → dtype img_orphan (dinode j) ≠ 0) ∧
        (dtype img_orphan (dinode j) = T_FILE →
          nlink img_orphan (dinode j) = (tbl_orphan.getD j 0 : Int)) ∧
        (dtype img_orphan (dinode j) = T_DIR → tbl_orphan.getD j 0 ≤ 1)) ∧
    main img_orphan = .error .InodeUsedNotInDir :=
  ⟨by decide,
    C20_first_orphan img_orphan tbl_orphan 3 (by decide) (by decide) (by decide) (by decide)
      (by decide) (by decide) (by decide) (by decide) (by decide) (by decide)⟩

/-! ## The reference pass -/

theorem count_block_eq (m : Mem) (b : Nat) (tbl : List Nat) :
    count_block m b tbl = loop (ref_body m) ((List.range DPB).map (dent b)) tbl := by
  unfold count_block
  exact loop_map (dent b) (ref_body m) (List.range DPB) tbl

theorem loop_count_blocks (m : Mem) (f : Nat → Nat) (xs : List Nat) (tbl : List Nat) :
    loop (fun tbl j => if f j = 0 then Step.next tbl else count_block m (f j) tbl) xs tbl =
      loop (ref_body m) (slots_of_blocks ((xs.map f).filter (· ≠ 0))) tbl := by
  unfold slots_of_blocks
  rw [← loop_flatMap, ← loop_filter, ← loop_map]
  apply loop_congr
  intro s x _
  by_cases hz : f x = 0
  · simp [hz]
  · simp only [hz, if_false, ne_eq, not_false_eq_true, decide_True, if_true]
    exact count_block_eq m (f x) s

theorem slots_of_blocks_append (a b : List Nat) :
    slots_of_blocks (a ++ b) = slots_of_blocks a ++ slots_of_blocks b := by
  unfold slots_of_blocks
  exact List.flatMap_append _ _ _

theorem get_inode_info_eq (m : Mem) (ninodes : Nat) (tbl : List Nat) :
    (match get_inode_info m ninodes tbl with
      | none => Step.ret ()
      | some tbl' => Step.next tbl') = loop (ref_body m) (ref_slots m ninodes) tbl := by
  have hbody : ∀ (s : List Nat) (i : Nat),
      (if dtype m (dinode i) = T_DIR then
        match loop (fun tbl j =>
            if addrs m (dinode i) j = 0 then Step.next tbl
            else count_block m (addrs m (dinode i) j) tbl) (List.range NDIRECT) s with
        | .ret r => Step.ret r
        | .next tbl1 =>
          if addrs m (dinode i) NDIRECT = 0 then Step.next tbl1
          else
            loop (fun tbl j =>
              if ind m (addrs m (dinode i) NDIRECT) j = 0 then Step.next tbl
              else count_block m (ind m (addrs m (dinode i) NDIRECT) j) tbl)
              (List.range NINDIRECT) tbl1
      else Step.next s) =
      loop (ref_body m)
        (if dtype m (dinode i) = T_DIR then slots_of_blocks (dir_blocks m (dinode i)) else [])
        s := by
    intro s i
    by_cases ht : dtype m (dinode i) = T_DIR
    · simp only [ht, if_true]
      unfold dir_blocks
      rw [slots_of_blocks_append, loop_append, loop_count_blocks m (addrs m (dinode i))]
      cases loop (ref_body m)
        (slots_of_blocks (((List.range NDIRECT).map (addrs m (dinode i))).filter (· ≠ 0))) s with
      | ret r => rfl
      | next tbl1 =>
        simp only
        by_cases hz : addrs m (dinode i) NDIRECT = 0
        · simp only [hz, if_true]
          rfl
        · simp only [hz, if_false]
          exact loop_count_blocks m (ind m (addrs m (dinode i) NDIRECT)) _ tbl1
    · simp only [ht, if_false, loop_nil]
  unfold get_inode_info ref_slots
  simp only [hbody]
  rw [loop_flatMap]
  cases loop (ref_body m) ((List.range ninodes).flatMap fun i =>
      if dtype m (dinode i) = T_DIR then slots_of_blocks (dir_blocks m (dinode i)) else [])
    tbl <;> rfl


theorem ref_body_eq (m : Mem) (tbl : List Nat) (d : Nat) :
    ref_body m tbl d =
      if counted m d then bump_step tbl (d_inum m d) else Step.next tbl := by
  unfold ref_body counted bump_step
  cases h : (isDot m d || isDotDot m d) <;> simp

theorem loop_ref_body (m : Mem) (ds tbl : List Nat) :
    loop (ref_body m) ds tbl =
      loop bump_step ((ds.filter (counted m)).map (d_inum m)) tbl := by
  rw [← loop_map, ← loop_filter]
  apply loop_congr
  intro s x _
  exact ref_body_eq m s x

theorem loop_bump_ok (xs tbl : List Nat) (h : ∀ x ∈ xs, x < tbl.length) :
    ∃ tbl', loop bump_step xs tbl = Step.next tbl' ∧ tbl'.length = tbl.length ∧
      ∀ i, tbl'.getD i 0 = tbl.getD i 0 + xs.count i := by
  induction xs generalizing tbl with
  | nil => exact ⟨tbl, rfl, rfl, fun i => by simp⟩
  | cons x xs ih =>
    have hx : x < tbl.length := h x (List.mem_cons_self _ _)
    have hget : tbl[x]? = some (tbl.getD x 0) := by
      rw [List.getD_eq_getElem?_getD, List.getElem?_eq_getElem hx]
      rfl
    have hlen : (tbl.set x (tbl.getD x 0 + 1)).length = tbl.length := List.length_set _ _ _
    obtain ⟨u, hu, hl, hv⟩ := ih (tbl.set x (tbl.getD x 0 + 1))
      (fun y hy => by rw [hlen]; exact h y (List.mem_cons_of_mem _ hy))
    refine ⟨u, ?_, by rw [hl, hlen], ?_⟩
    · rw [loop_cons]
      simp only [bump_step, bump, hget]
      exact hu
    · intro i
      rw [hv i]
      by_cases hix : i = x
      · subst hix
        rw [List.count_cons_self]
        simp only [List.getD_eq_getElem?_getD, List.getElem?_set, hx, if_true]
        simp only [Option.getD_some]
        omega
      · have hxi : ¬ x = i := fun e => hix e.symm
        rw [List.count_cons_of_ne hix]
        simp only [List.getD_eq_getElem?_getD, List.getElem?_set, hxi, if_false]

theorem loop_bump_bad (xs tbl : List Nat) (h : ¬ ∀ x ∈ xs, x < tbl.length) :
    loop bump_step xs tbl = Step.ret () := by
  induction xs generalizing tbl with
  | nil => exact absurd (fun x hx => nomatch hx) h
  | cons x xs ih =>
    rw [loop_cons]
    by_cases hx : x < tbl.length
    · have hget : tbl[x]? = some (tbl.getD x 0) := by
        rw [List.getD_eq_getElem?_getD, List.getElem?_eq_getElem hx]
        rfl
      simp only [bump_step, bump, hget]
      apply ih
      intro hall
      apply h
      intro y hy
      rcases List.mem_cons.mp hy with rfl | hy
      · exact hx
      · have := hall y hy
        rwa [List.length_set] at this
    · have hget : tbl[x]? = none := List.getElem?_eq_none (by omega)
      simp only [bump_step, bump, hget]

/-- The inums `get_inode_info` counts, in the order it meets them. -/
theorem get_inode_info_some (m : Mem) (ninodes : Nat) (tbl : List Nat)
    (h : ∀ d ∈ ref_slots m ninodes, counted m d = true → d_inum m d < tbl.length) :
    ∃ tbl', get_inode_info m ninodes tbl = some tbl' ∧ tbl'.length = tbl.length ∧
      ∀ i, tbl'.getD i 0 = tbl.getD i 0 +
        (ref_slots m ninodes).countP (fun d => counted m d && d_inum m d == i) := by
  have hall : ∀ x ∈ ((ref_slots m ninodes).filter (counted m)).map (d_inum m),
      x < tbl.length := by
    intro x hx
    obtain ⟨d, hd, rfl⟩ := List.mem_map.mp hx
    obtain ⟨hmem, hc⟩ := List.mem_filter.mp hd
    exact h d hmem hc
  obtain ⟨u, hu, hl, hv⟩ := loop_bump_ok _ tbl hall
  have heq := get_inode_info_eq m ninodes tbl
  rw [loop_ref_body, hu] at heq
  cases hg : get_inode_info m ninodes tbl with
  | none =>
    rw [hg] at heq
    cases heq
  | some t =>
    rw [hg] at heq
    cases heq
    refine ⟨u, rfl, hl, fun i => ?_⟩
    rw [hv i]
    congr 1
    rw [List.count_eq_countP, List.countP_map, List.countP_filter]
    congr 1
    funext d
    simp [Bool.and_comm]

theorem get_inode_info_none (m : Mem) (ninodes : Nat) (tbl : List Nat)
    (h : ¬ ∀ d ∈ ref_slots m ninodes, counted m d = true → d_inum m d < tbl.length) :
    get_inode_info m ninodes tbl = none := by
  have hall : ¬ ∀ x ∈ ((ref_slots m ninodes).filter (counted m)).map (d_inum m),
      x < tbl.length := by
    intro hx
    apply h
    intro d hd hc
    exact hx _ (List.mem_map.mpr ⟨d, List.mem_filter.mpr ⟨hd, hc⟩, rfl⟩)
  have heq := get_inode_info_eq m ninodes tbl
  rw [loop_ref_body, loop_bump_bad _ _ hall] at heq
  cases hg : get_inode_info m ninodes tbl with
  | none => rfl
  | some t =>
    rw [hg] at heq
    cases heq

/-- C19: when every dirent that `get_inode_info` visits has an inum below `ninodes`, the
pass run on the zeroed table of `ninodes` cells returns a table `ref_count` of `ninodes`
cells in which, for every inode number `i`, `ref_count[i]` is the number of visited
dirent slots with inum `i` and a name other than `.` and `..`; the visited slots are all
the slots of the blocks at the non-zero direct addresses and at the non-zero addresses
inside the indirect block (when the indirect slot is non-zero) of every inode of type
directory. -/
theorem C19_get_inode_info (m : Mem) (ninodes : Nat)
    (h : ∀ d ∈ ref_slots m ninodes, d_inum m d < ninodes) :
    ∃ ref_count, get_inode_info m ninodes (calloc ninodes) = some ref_count ∧
      ref_count.length = ninodes ∧
      ∀ i, i < ninodes → ref_count.getD i 0 =
        (ref_slots m ninodes).countP
          (fun d => !(isDot m d || isDotDot m d) && d_inum m d == i) := by
  obtain ⟨t, ht, hl, hv⟩ := get_inode_info_some m ninodes (calloc ninodes)
    (fun d hd _ => by rw [calloc_length]; exact h d hd)
  refine ⟨t, ht, by rw [hl, calloc_length], fun i _ => ?_⟩
  rw [hv i, calloc_getD, Nat.zero_add]
  rfl


/-! ## Memory -/

theorem poke16_other (m : Mem) (d v q : Nat) (h1 : q ≠ d) (h2 : q ≠ d + 1) :
    poke16 m d v q = m q := by
  unfold poke16 poke8
  simp [h1, h2]

theorem rd16_poke16_same (m : Mem) (d v : Nat) : rd16 (poke16 m d v) d = v % 65536 := by
  unfold rd16 rd8 poke16 poke8
  simp
  omega

theorem rd8_congr (m1 m2 : Mem) (q : Nat) (h : m1 q = m2 q) : rd8 m1 q = rd8 m2 q := by
  unfold rd8
  rw [h]

theorem rd16_congr (m1 m2 : Mem) (q : Nat) (h0 : m1 q = m2 q) (h1 : m1 (q + 1) = m2 (q + 1)) :
    rd16 m1 q = rd16 m2 q := by
  unfold rd16
  rw [rd8_congr m1 m2 q h0, rd8_congr m1 m2 (q + 1) h1]

theorem rd32_congr (m1 m2 : Mem) (q : Nat) (h : ∀ t, t < 4 → m1 (q + t) = m2 (q + t)) :
    rd32 m1 q = rd32 m2 q := by
  unfold rd32
  rw [rd16_congr m1 m2 q (h 0 (by omega)) (h 1 (by omega)),
    rd16_congr m1 m2 (q + 2) (h 2 (by omega)) (h 3 (by omega))]

theorem blk_aligned (b : Nat) : blk b % 512 = 0 := by
  unfold blk BSIZE
  omega

theorem mem_slots_of_blocks (bs : List Nat) (d : Nat) :
    d ∈ slots_of_blocks bs ↔ ∃ b ∈ bs, ∃ k, k < 32 ∧ d = blk b + 16 * k := by
  unfold slots_of_blocks
  rw [List.mem_flatMap]
  constructor
  · rintro ⟨b, hb, hd⟩
    obtain ⟨k, hk, rfl⟩ := List.mem_map.mp hd
    exact ⟨b, hb, k, List.mem_range.mp hk, rfl⟩
  · rintro ⟨b, hb, k, hk, rfl⟩
    exact ⟨b, hb, List.mem_map.mpr ⟨k, List.mem_range.mpr hk, rfl⟩⟩

theorem slot_aligned (bs : List Nat) (d : Nat) (h : d ∈ slots_of_blocks bs) : d % 16 = 0 := by
  obtain ⟨b, _, k, _, rfl⟩ := (mem_slots_of_blocks bs d).mp h
  have := blk_aligned b
  omega


/-! ## What `repair` may change -/

theorem lf_bytes_block (m : Mem) (q : Nat) (h : lf_bytes m q) :
    ∃ b ∈ lf_blocks m, blk b ≤ q ∧ q < blk b + 512 ∧ q % 16 ≤ 1 := by
  obtain ⟨d, hd, _, hq⟩ := h
  obtain ⟨b, hb, k, hk, rfl⟩ := (mem_slots_of_blocks _ d).mp hd
  have := blk_aligned b
  refine ⟨b, hb, ?_, ?_, ?_⟩ <;> omega

theorem lf_bytes_name (m : Mem) (e t : Nat) (he : e % 16 = 0) (h2 : 2 ≤ t) (h16 : t < 16) :
    ¬ lf_bytes m (e + t) := by
  intro h
  obtain ⟨_, _, _, _, hmod⟩ := lf_bytes_block m _ h
  omega

theorem lf_bytes_slot (m : Mem) (e : Nat) (he : e % 16 = 0)
    (hv : ¬ (e ∈ lf_slots m ∧ d_inum m e = 0)) : ¬ lf_bytes m e ∧ ¬ lf_bytes m (e + 1) := by
  constructor
  · rintro ⟨d, hd, hz, hq⟩
    have := slot_aligned _ d hd
    have : e = d := by omega
    subst this
    exact hv ⟨hd, hz⟩
  · rintro ⟨d, hd, hz, hq⟩
    have := slot_aligned _ d hd
    have : e = d := by omega
    subst this
    exact hv ⟨hd, hz⟩

theorem lf_bytes_table (m : Mem) (n q : Nat) (hsep : ∀ b ∈ lf_blocks m, dinode n ≤ blk b)
    (hq : q < dinode n) : ¬ lf_bytes m q := by
  intro h
  obtain ⟨b, hb, hle, _, _⟩ := lf_bytes_block m q h
  have := hsep b hb
  omega

theorem lf_bytes_other_block (m : Mem) (s q : Nat)
    (hsep : ∀ b ∈ lf_blocks m, blk s ≠ blk b) (h1 : blk s ≤ q) (h2 : q < blk s + 512) :
    ¬ lf_bytes m q := by
  intro h
  obtain ⟨b, hb, hle, hlt, _⟩ := lf_bytes_block m q h
  have h3 := blk_aligned b
  have h4 := blk_aligned s
  exact hsep b hb (by omega)

theorem dinode_bounds (i n : Nat) (hi : i < n) (t : Nat) (ht : t < 64) :
    dinode i + t < dinode n := by
  unfold dinode DINODE_SIZE NDIRECT
  have : (i + 1) * 64 ≤ n * 64 := Nat.mul_le_mul_right 64 hi
  omega

theorem frame_dtype (m mem : Mem) (n i : Nat) (hf : Frame m mem)
    (hsep : ∀ b ∈ lf_blocks m, dinode n ≤ blk b) (hi : i < n) :
    dtype mem (dinode i) = dtype m (dinode i) := by
  unfold dtype
  have h0 := hf (dinode i) (lf_bytes_table m n _ hsep (dinode_bounds i n hi 0 (by omega)))
  have h1 := hf (dinode i + 1) (lf_bytes_table m n _ hsep (dinode_bounds i n hi 1 (by omega)))
  rw [rd16_congr mem m (dinode i) h0 h1]

theorem frame_addrs (m mem : Mem) (n i j : Nat) (hf : Frame m mem)
    (hsep : ∀ b ∈ lf_blocks m, dinode n ≤ blk b) (hi : i < n) (hj : j < NDIRECT + 1) :
    addrs mem (dinode i) j = addrs m (dinode i) j := by
  unfold addrs
  apply rd32_congr
  intro t ht
  apply hf
  apply lf_bytes_table m n _ hsep
  have hj' : j < 13 := hj
  have := dinode_bounds i n hi (12 + 4 * j + t) (by omega)
  omega

theorem frame_ind (m mem : Mem) (s j : Nat) (hf : Frame m mem)
    (hsep : ∀ b ∈ lf_blocks m, blk s ≠ blk b) (hj : j < NINDIRECT) :
    ind mem s j = ind m s j := by
  unfold ind
  apply rd32_congr
  intro t ht
  apply hf
  have hj' : j < 128 := hj
  exact lf_bytes_other_block m s _ hsep (by omega) (by omega)

theorem frame_isDot (m mem : Mem) (e : Nat) (hf : Frame m mem) (he : e % 16 = 0) :
    isDot mem e = isDot m e ∧ isDotDot mem e = isDotDot m e := by
  have h0 : d_name mem e 0 = d_name m e 0 :=
    rd8_congr _ _ _ (hf _ (lf_bytes_name m e 2 he (by omega) (by omega)))
  have h1 : d_name mem e 1 = d_name m e 1 :=
    rd8_congr _ _ _ (hf _ (lf_bytes_name m e 3 he (by omega) (by omega)))
  have h2 : d_name mem e 2 = d_name m e 2 :=
    rd8_congr _ _ _ (hf _ (lf_bytes_name m e 4 he (by omega) (by omega)))
  unfold isDot isDotDot
  rw [h0, h1, h2]
  exact ⟨rfl, rfl⟩

theorem frame_counted (m mem : Mem) (e : Nat) (hf : Frame m mem) (he : e % 16 = 0) :
    counted mem e = counted m e := by
  unfold counted
  rw [(frame_isDot m mem e hf he).1, (frame_isDot m mem e hf he).2]

theorem frame_inum (m mem : Mem) (e : Nat) (hf : Frame m mem) (he : e % 16 = 0)
    (hv : ¬ (e ∈ lf_slots m ∧ d_inum m e = 0)) : d_inum mem e = d_inum m e := by
  unfold d_inum
  exact rd16_congr _ _ _ (hf _ (lf_bytes_slot m e he hv).1) (hf _ (lf_bytes_slot m e he hv).2)

theorem frame_refl (m : Mem) : Frame m m := fun _ _ => rfl


/-! ## The search for a vacant dirent -/

theorem loop_first_hit {α ρ : Type} (p : α → Prop) [DecidablePred p] (g : α → ρ)
    (xs : List α) (h : ∃ x ∈ xs, p x) :
    ∃ x ∈ xs, p x ∧
      loop (fun (_ : Unit) x => if p x then Step.ret (g x) else Step.next ()) xs () =
        Step.ret (g x) := by
  induction xs with
  | nil =>
    obtain ⟨x, hx, _⟩ := h
    cases hx
  | cons y ys ih =>
    by_cases hy : p y
    · refine ⟨y, List.mem_cons_self _ _, hy, ?_⟩
      rw [loop_cons]
      simp only [hy, if_true]
    · have h' : ∃ x ∈ ys, p x := by
        obtain ⟨x, hx, hp⟩ := h
        rcases List.mem_cons.mp hx with rfl | hx
        · exact absurd hp hy
        · exact ⟨x, hx, hp⟩
      obtain ⟨x, hx, hp, hl⟩ := ih h'
      refine ⟨x, List.mem_cons_of_mem _ hx, hp, ?_⟩
      rw [loop_cons]
      simp only [hy, if_false]
      exact hl

theorem loop_no_hit {α ρ : Type} (p : α → Prop) [DecidablePred p] (g : α → ρ)
    (xs : List α) (h : ∀ x ∈ xs, ¬ p x) :
    loop (fun (_ : Unit) x => if p x then Step.ret (g x) else Step.next ()) xs () =
      Step.next () := by
  induction xs with
  | nil => rfl
  | cons y ys ih =>
    rw [loop_cons]
    simp only [h y (List.mem_cons_self _ _), if_false]
    exact ih (fun x hx => h x (List.mem_cons_of_mem _ hx))

theorem attach_eq (mem : Mem) (lf i : Nat) :
    attach mem lf i =
      match loop (fun (_ : Unit) d =>
          if d_inum mem d = 0 then Step.ret (poke16 mem d i) else Step.next ())
          (slots_of_blocks ((List.range NDIRECT).map (addrs mem lf))) () with
      | .ret m' => m'
      | .next _ => mem := by
  unfold attach slots_of_blocks
  rw [← loop_flatMap, ← loop_map]
  have hbody : ∀ (s : Unit) (j : Nat),
      loop (fun (_ : Unit) k =>
          if d_inum mem (dent (addrs mem lf j) k) = 0 then
            Step.ret (poke16 mem (dent (addrs mem lf j) k) i)
          else Step.next ()) (List.range DPB) s =
        loop (fun (_ : Unit) d =>
          if d_inum mem d = 0 then Step.ret (poke16 mem d i) else Step.next ())
          ((List.range DPB).map (dent (addrs mem lf j))) s := fun s j =>
    loop_map (dent (addrs mem lf j))
      (fun (_ : Unit) d => if d_inum mem d = 0 then Step.ret (poke16 mem d i) else Step.next ())
      (List.range DPB) s
  simp only [hbody]

theorem scan_slots_split (m : Mem) :
    scan_slots m = lf_slots m ++
      slots_of_blocks (((List.range NDIRECT).map (addrs m (dinode 29))).dropWhile (· ≠ 0)) := by
  unfold scan_slots lf_slots lf_blocks
  rw [← slots_of_blocks_append, List.takeWhile_append_dropWhile]

theorem attach_hit (m mem : Mem) (i : Nat)
    (haddr : ∀ j, j < NDIRECT → addrs mem (dinode 29) j = addrs m (dinode 29) j)
    (h : ∃ d ∈ lf_slots m, d_inum mem d = 0) :
    ∃ d, d ∈ lf_slots m ∧ d_inum mem d = 0 ∧ attach mem (dinode 29) i = poke16 mem d i := by
  have hmap : (List.range NDIRECT).map (addrs mem (dinode 29)) =
      (List.range NDIRECT).map (addrs m (dinode 29)) :=
    List.map_congr_left (fun j hj => haddr j (List.mem_range.mp hj))
  obtain ⟨d, hd, hz, hl⟩ := loop_first_hit (fun d => d_inum mem d = 0)
    (fun d => poke16 mem d i) (lf_slots m) h
  refine ⟨d, hd, hz, ?_⟩
  rw [attach_eq, hmap]
  have hs := scan_slots_split m
  unfold scan_slots at hs
  rw [hs, loop_append, hl]

theorem attach_none (mem : Mem) (lf i : Nat)
    (h : ∀ j, j < NDIRECT → ∀ k, k < DPB → d_inum mem (dent (addrs mem lf j) k) ≠ 0) :
    attach mem lf i = mem := by
  rw [attach_eq, loop_no_hit]
  intro d hd
  obtain ⟨b, hb, k, hk, rfl⟩ := (mem_slots_of_blocks _ d).mp hd
  obtain ⟨j, hj, rfl⟩ := List.mem_map.mp hb
  exact h j (List.mem_range.mp hj) k hk


/-! ## One pass of `repair` -/

theorem filter_cons_false (p : Nat → Bool) (x : Nat) (l : List Nat) (h : p x = false) :
    (x :: l).filter p = l.filter p :=
  List.filter_cons_of_neg (fun h' => by rw [h] at h'; cases h')

theorem filter_length_drop (l : List Nat) (hl : l.Nodup) (p p' : Nat → Bool) (d0 : Nat)
    (hd0 : d0 ∈ l) (hp : p d0 = true) (hp' : p' d0 = false)
    (hsame : ∀ e ∈ l, e ≠ d0 → p' e = p e) :
    (l.filter p').length + 1 = (l.filter p).length := by
  induction l with
  | nil => cases hd0
  | cons x l ih =>
    have hx : x ∉ l := (List.nodup_cons.mp hl).1
    have hl' : l.Nodup := (List.nodup_cons.mp hl).2
    by_cases hxd : x = d0
    · subst hxd
      have hcongr : l.filter p' = l.filter p := by
        apply List.filter_congr
        intro e he
        exact hsame e (List.mem_cons_of_mem _ he) (fun h => hx (h ▸ he))
      rw [List.filter_cons_of_pos hp, filter_cons_false p' x l hp', hcongr, List.length_cons]
    · have hd0' : d0 ∈ l := by
        rcases List.mem_cons.mp hd0 with h | h
        · exact absurd h.symm hxd
        · exact h
      have ih' := ih hl' hd0' (fun e he => hsame e (List.mem_cons_of_mem _ he))
      have hpx : p' x = p x := hsame x (List.mem_cons_self _ _) hxd
      cases hpv : p x
      · rw [filter_cons_false p x l hpv, filter_cons_false p' x l (by rw [hpx, hpv])]
        exact ih'
      · have hpx' : p' x = true := by rw [hpx, hpv]
        rw [List.filter_cons_of_pos hpv, List.filter_cons_of_pos hpx',
          List.length_cons, List.length_cons]
        omega

theorem poke_frame (m mem : Mem) (d0 i : Nat) (hf : Frame m mem) (hd0 : d0 ∈ lf_slots m)
    (hz : d_inum m d0 = 0) : Frame m (poke16 mem d0 i) := by
  intro q hq
  have h1 : q ≠ d0 := fun h => hq ⟨d0, hd0, hz, Or.inl h⟩
  have h2 : q ≠ d0 + 1 := fun h => hq ⟨d0, hd0, hz, Or.inr h⟩
  rw [poke16_other mem d0 i q h1 h2]
  exact hf q hq

theorem poke_inum_other (mem : Mem) (d0 i e : Nat) (he : e % 16 = 0) (hd : d0 % 16 = 0)
    (hne : e ≠ d0) : d_inum (poke16 mem d0 i) e = d_inum mem e := by
  unfold d_inum
  apply rd16_congr
  · exact poke16_other mem d0 i e (by omega) (by omega)
  · exact poke16_other mem d0 i (e + 1) (by omega) (by omega)

theorem poke_inum_same (mem : Mem) (d0 i : Nat) (hi : i < 65536) :
    d_inum (poke16 mem d0 i) d0 = i := by
  unfold d_inum
  rw [rd16_poke16_same, Nat.mod_eq_of_lt hi]

theorem poke_vacant (m mem : Mem) (d0 i : Nat) (hd0 : d0 ∈ lf_slots m)
    (hz : d_inum mem d0 = 0) (hi0 : i ≠ 0) (hi : i < 65536) :
    (lf_vacant m (poke16 mem d0 i)).length + 1 = (lf_vacant m mem).length := by
  unfold lf_vacant
  apply filter_length_drop _ (List.nodup_dedup _) _ _ d0 (List.mem_dedup.mpr hd0)
  · simp [hz]
  · rw [poke_inum_same mem d0 i hi]
    simp [hi0]
  · intro e he hne
    rw [poke_inum_other mem d0 i e (slot_aligned _ e (List.mem_dedup.mp he))
      (slot_aligned _ d0 hd0) hne]

theorem is_orphan_iff (m : Mem) (tbl : List Nat) (i : Nat) :
    is_orphan m tbl i = true ↔ 2 ≤ i ∧ dtype m (dinode i) ≠ 0 ∧ tbl.getD i 0 = 0 := by
  unfold is_orphan
  simp only [Bool.and_eq_true, decide_eq_true_eq, and_assoc]

theorem repair_step_skip (m mem : Mem) (n : Nat) (tbl : List Nat) (i : Nat)
    (hsep : ∀ b ∈ lf_blocks m, dinode n ≤ blk b) (hf : Frame m mem) (hi : i < n)
    (ho : is_orphan m tbl i = false) : repair_step tbl mem i = mem := by
  unfold repair_step
  by_cases h2 : i < 2
  · rw [if_pos h2]
  · rw [if_neg h2, frame_dtype m mem n i hf hsep hi]
    by_cases hc : dtype m (dinode i) ≠ 0 ∧ tbl.getD i 0 = 0
    · have : is_orphan m tbl i = true := (is_orphan_iff m tbl i).mpr ⟨by omega, hc.1, hc.2⟩
      rw [ho] at this
      cases this
    · rw [if_neg hc]

theorem repair_step_hit (m mem : Mem) (n : Nat) (tbl : List Nat) (i : Nat) (hn29 : 29 < n)
    (hsep : ∀ b ∈ lf_blocks m, dinode n ≤ blk b) (hf : Frame m mem) (hi : i < n)
    (ho : is_orphan m tbl i = true) (hvac : 0 < (lf_vacant m mem).length) :
    ∃ d0, d0 ∈ lf_slots m ∧ d_inum mem d0 = 0 ∧ d_inum m d0 = 0 ∧
      repair_step tbl mem i = poke16 mem d0 i := by
  obtain ⟨h2, ht, hz⟩ := (is_orphan_iff m tbl i).mp ho
  obtain ⟨e, he⟩ := List.exists_mem_of_length_pos hvac
  unfold lf_vacant at he
  obtain ⟨he1, he2⟩ := List.mem_filter.mp he
  have hex : ∃ d ∈ lf_slots m, d_inum mem d = 0 :=
    ⟨e, List.mem_dedup.mp he1, by simpa using he2⟩
  obtain ⟨d0, hd0, hz0, hat⟩ := attach_hit m mem i
    (fun j hj => frame_addrs m mem n 29 j hf hsep hn29 (by omega)) hex
  refine ⟨d0, hd0, hz0, ?_, ?_⟩
  · by_contra hne
    have := frame_inum m mem d0 hf (slot_aligned _ d0 hd0) (fun h => hne h.2)
    rw [hz0] at this
    exact hne this.symm
  · unfold repair_step
    rw [if_neg (by omega), frame_dtype m mem n i hf hsep hi, if_pos ⟨ht, hz⟩]
    exact hat


/-! ## All passes of `repair` -/

theorem repair_eq (m : Mem) (ninodes : Nat) :
    repair m ninodes =
      match get_inode_info m ninodes (calloc ninodes) with
      | none => none
      | some tbl => some ((List.range ninodes).foldl (repair_step tbl) m) := rfl

theorem repair_fold (m : Mem) (n : Nat) (tbl : List Nat) (hn29 : 29 < n) (hn : n ≤ 65536)
    (hsep : ∀ b ∈ lf_blocks m, dinode n ≤ blk b) :
    ∀ (is : List Nat) (mem : Mem), (∀ i ∈ is, i < n) → Frame m mem →
      (∀ d ∈ lf_slots m, d_inum m d = 0 → d_inum mem d < n) →
      (is.filter (is_orphan m tbl)).length ≤ (lf_vacant m mem).length →
      Frame m (is.foldl (repair_step tbl) mem) ∧
      (∀ d ∈ lf_slots m, d_inum m d = 0 → d_inum (is.foldl (repair_step tbl) mem) d < n) ∧
      (∀ d ∈ lf_slots m, d_inum mem d ≠ 0 →
        d_inum (is.foldl (repair_step tbl) mem) d = d_inum mem d) ∧
      (∀ i ∈ is, is_orphan m tbl i = true →
        ∃ d ∈ lf_slots m, d_inum m d = 0 ∧ d_inum (is.foldl (repair_step tbl) mem) d = i) := by
  intro is
  induction is with
  | nil =>
    intro mem _ hf h4 _
    exact ⟨hf, h4, fun _ _ _ => rfl, fun i hi => nomatch hi⟩
  | cons i is ih =>
    intro mem hlt hf h4 hroom
    have hi : i < n := hlt i (List.mem_cons_self _ _)
    have hlt' : ∀ j ∈ is, j < n := fun j hj => hlt j (List.mem_cons_of_mem _ hj)
    rw [List.foldl_cons]
    cases ho : is_orphan m tbl i
    · rw [repair_step_skip m mem n tbl i hsep hf hi ho]
      rw [filter_cons_false _ i is ho] at hroom
      obtain ⟨r1, r2, r3, r4⟩ := ih mem hlt' hf h4 hroom
      refine ⟨r1, r2, r3, ?_⟩
      intro j hj hoj
      rcases List.mem_cons.mp hj with rfl | hj
      · rw [ho] at hoj
        cases hoj
      · exact r4 j hj hoj
    · rw [List.filter_cons_of_pos ho, List.length_cons] at hroom
      obtain ⟨d0, hd0, hz0, hzm, hstep⟩ :=
        repair_step_hit m mem n tbl i hn29 hsep hf hi ho (by omega)
      obtain ⟨h2, _, _⟩ := (is_orphan_iff m tbl i).mp ho
      have hal0 := slot_aligned _ d0 hd0
      have hi16 : i < 65536 := by omega
      rw [hstep]
      have hf1 : Frame m (poke16 mem d0 i) := poke_frame m mem d0 i hf hd0 hzm
      have h41 : ∀ d ∈ lf_slots m, d_inum m d = 0 → d_inum (poke16 mem d0 i) d < n := by
        intro d hd hz
        by_cases hdd : d = d0
        · subst hdd
          rw [poke_inum_same mem d i hi16]
          exact hi
        · rw [poke_inum_other mem d0 i d (slot_aligned _ d hd) hal0 hdd]
          exact h4 d hd hz
      have hvac := poke_vacant m mem d0 i hd0 hz0 (by omega) hi16
      obtain ⟨r1, r2, r3, r4⟩ := ih (poke16 mem d0 i) hlt' hf1 h41 (by omega)
      refine ⟨r1, r2, ?_, ?_⟩
      · intro d hd hnz
        have hdd : d ≠ d0 := fun h => hnz (h ▸ hz0)
        have hsame := poke_inum_other mem d0 i d (slot_aligned _ d hd) hal0 hdd
        rw [r3 d hd (by rw [hsame]; exact hnz), hsame]
      · intro j hj hoj
        rcases List.mem_cons.mp hj with rfl | hj
        · refine ⟨d0, hd0, hzm, ?_⟩
          have hval := poke_inum_same mem d0 j hi16
          rw [r3 d0 hd0 (by rw [hval]; omega), hval]
        · exact r4 j hj hoj


/-! ## The reference pass after `repair` -/

theorem frame_dir_blocks (m mem : Mem) (n i : Nat) (hf : Frame m mem)
    (hsep1 : ∀ b ∈ lf_blocks m, dinode n ≤ blk b)
    (hsep2 : addrs m (dinode i) NDIRECT ≠ 0 →
      ∀ b ∈ lf_blocks m, blk (addrs m (dinode i) NDIRECT) ≠ blk b)
    (hi : i < n) : dir_blocks mem (dinode i) = dir_blocks m (dinode i) := by
  unfold dir_blocks
  have hdirect : (List.range NDIRECT).map (addrs mem (dinode i)) =
      (List.range NDIRECT).map (addrs m (dinode i)) :=
    List.map_congr_left (fun j hj =>
      frame_addrs m mem n i j hf hsep1 hi (by have := List.mem_range.mp hj; omega))
  have hslot : addrs mem (dinode i) NDIRECT = addrs m (dinode i) NDIRECT :=
    frame_addrs m mem n i NDIRECT hf hsep1 hi (by omega)
  rw [hdirect, hslot]
  by_cases hz : addrs m (dinode i) NDIRECT = 0
  · simp only [hz, if_true]
  · simp only [hz, if_false]
    have hind : (List.range NINDIRECT).map (ind mem (addrs m (dinode i) NDIRECT)) =
        (List.range NINDIRECT).map (ind m (addrs m (dinode i) NDIRECT)) :=
      List.map_congr_left (fun j hj =>
        frame_ind m mem _ j hf (hsep2 hz) (List.mem_range.mp hj))
    rw [hind]

theorem frame_ref_slots (m mem : Mem) (n : Nat) (hf : Frame m mem)
    (hsep1 : ∀ b ∈ lf_blocks m, dinode n ≤ blk b)
    (hsep2 : ∀ i, i < n → dtype m (dinode i) = T_DIR → addrs m (dinode i) NDIRECT ≠ 0 →
      ∀ b ∈ lf_blocks m, blk (addrs m (dinode i) NDIRECT) ≠ blk b) :
    ref_slots mem n = ref_slots m n := by
  unfold ref_slots
  apply List.flatMap_congr
  intro i hi
  have hi' := List.mem_range.mp hi
  rw [frame_dtype m mem n i hf hsep1 hi']
  by_cases ht : dtype m (dinode i) = T_DIR
  · rw [if_pos ht, if_pos ht, frame_dir_blocks m mem n i hf hsep1 (hsep2 i hi' ht) hi']
  · rw [if_neg ht, if_neg ht]

theorem ref_slots_aligned (m : Mem) (n d : Nat) (h : d ∈ ref_slots m n) : d % 16 = 0 := by
  unfold ref_slots at h
  obtain ⟨i, _, hd⟩ := List.mem_flatMap.mp h
  by_cases ht : dtype m (dinode i) = T_DIR
  · rw [if_pos ht] at hd
    exact slot_aligned _ d hd
  · rw [if_neg ht] at hd
    cases hd

theorem lf_slots_sub_ref_slots (m : Mem) (n d : Nat) (hn29 : 29 < n)
    (hdir : dtype m (dinode 29) = T_DIR) (h : d ∈ lf_slots m) : d ∈ ref_slots m n := by
  unfold ref_slots
  refine List.mem_flatMap.mpr ⟨29, List.mem_range.mpr hn29, ?_⟩
  rw [if_pos hdir]
  obtain ⟨b, hb, k, hk, rfl⟩ := (mem_slots_of_blocks _ d).mp h
  refine (mem_slots_of_blocks _ _).mpr ⟨b, ?_, k, hk, rfl⟩
  unfold dir_blocks
  apply List.mem_append_left
  unfold lf_blocks at hb
  have hp : (fun x : Nat => decide (x ≠ 0)) b = true :=
    @List.mem_takeWhile_imp Nat (fun x => decide (x ≠ 0)) _ b hb
  exact List.mem_filter.mpr ⟨(List.takeWhile_prefix _).subset hb, hp⟩

theorem pass_bound (m : Mem) (n : Nat) (tbl : List Nat)
    (hpass : get_inode_info m n (calloc n) = some tbl) :
    ∀ d ∈ ref_slots m n, counted m d = true → d_inum m d < n := by
  by_contra hnot
  have hnot' : ¬ ∀ d ∈ ref_slots m n, counted m d = true → d_inum m d < (calloc n).length := by
    rw [calloc_length]
    exact hnot
  rw [get_inode_info_none m n (calloc n) hnot'] at hpass
  cases hpass

theorem pass_count (m : Mem) (n : Nat) (tbl : List Nat)
    (hpass : get_inode_info m n (calloc n) = some tbl) (i : Nat) :
    tbl.getD i 0 =
      (ref_slots m n).countP (fun d => counted m d && d_inum m d == i) := by
  obtain ⟨t, ht, _, hv⟩ := get_inode_info_some m n (calloc n)
    (by rw [calloc_length]; exact pass_bound m n tbl hpass)
  rw [hpass] at ht
  cases ht
  rw [hv i, calloc_getD, Nat.zero_add]


/-- C16, amended: round trip of `repair` under the conditions listed in the hypotheses
(inode 29 a directory of the inode table, at most 65536 inodes, a reference pass that
completes, the blocks named by the direct slots of inode 29 before its first zero slot
lying behind the inode table and being no indirect block of a directory, their vacant
dirents named neither `.` nor `..` and at least as many as the orphans): `repair`
returns an image on which the recomputed reference pass completes and gives every in-use
inode `i ≥ 2` a count of at least 1. -/
theorem C16_repair_round_trip (m : Mem) (n : Nat) (tbl : List Nat)
    (hn29 : 29 < n) (hn : n ≤ 65536)
    (hdir : dtype m (dinode 29) = T_DIR)
    (hpass : get_inode_info m n (calloc n) = some tbl)
    (hsep1 : ∀ b ∈ lf_blocks m, dinode n ≤ blk b)
    (hsep2 : ∀ i, i < n → dtype m (dinode i) = T_DIR → addrs m (dinode i) NDIRECT ≠ 0 →
      ∀ b ∈ lf_blocks m, blk (addrs m (dinode i) NDIRECT) ≠ blk b)
    (hname : ∀ d ∈ lf_slots m, d_inum m d = 0 → counted m d = true)
    (hroom : (orphans m tbl n).length ≤ (lf_vacant m m).length) :
    ∃ m' tbl', repair m n = some m' ∧ get_inode_info m' n (calloc n) = some tbl' ∧
      ∀ i, 2 ≤ i → i < n → dtype m' (dinode i) ≠ 0 → tbl'.getD i 0 ≥ 1 := by
  have hbound := pass_bound m n tbl hpass
  obtain ⟨hf, h4, _, hplaced⟩ := repair_fold m n tbl hn29 hn hsep1 (List.range n) m
    (fun i hi => List.mem_range.mp hi) (frame_refl m)
    (fun d hd hz => by rw [hz]; omega) hroom
  have hslots := frame_ref_slots m _ n hf hsep1 hsep2
  have hb' : ∀ d ∈ ref_slots ((List.range n).foldl (repair_step tbl) m) n,
      counted ((List.range n).foldl (repair_step tbl) m) d = true →
      d_inum ((List.range n).foldl (repair_step tbl) m) d < (calloc n).length := by
    intro d hd hc
    rw [hslots] at hd
    have hal := ref_slots_aligned m n d hd
    rw [calloc_length]
    by_cases hv : d ∈ lf_slots m ∧ d_inum m d = 0
    · exact h4 d hv.1 hv.2
    · rw [frame_inum m _ d hf hal hv]
      rw [frame_counted m _ d hf hal] at hc
      exact hbound d hd hc
  obtain ⟨tbl', hpass', _, hv'⟩ := get_inode_info_some _ n (calloc n) hb'
  refine ⟨_, tbl', by rw [repair_eq, hpass], hpass', ?_⟩
  intro i h2 hi ht
  rw [frame_dtype m _ n i hf hsep1 hi] at ht
  rw [hv' i, calloc_getD, Nat.zero_add, hslots]
  apply List.countP_pos_iff.mpr
  by_cases hz : tbl.getD i 0 = 0
  · obtain ⟨d, hd, hzd, hval⟩ := hplaced i (List.mem_range.mpr hi)
      ((is_orphan_iff m tbl i).mpr ⟨h2, ht, hz⟩)
    refine ⟨d, lf_slots_sub_ref_slots m n d hn29 hdir hd, ?_⟩
    rw [frame_counted m _ d hf (slot_aligned _ d hd), hname d hd hzd, hval]
    simp
  · have hpos : 0 < (ref_slots m n).countP (fun d => counted m d && d_inum m d == i) := by
      rw [← pass_count m n tbl hpass i]
      omega
    obtain ⟨d, hd, hp⟩ := List.countP_pos_iff.mp hpos
    rw [Bool.and_eq_true, beq_iff_eq] at hp
    have hal := ref_slots_aligned m n d hd
    have hv : ¬ (d ∈ lf_slots m ∧ d_inum m d = 0) := by
      rintro ⟨_, h0⟩
      rw [hp.2] at h0
      omega
    refine ⟨d, hd, ?_⟩
    rw [frame_counted m _ d hf hal, frame_inum m _ d hf hal hv, hp.1, hp.2]
    simp


/-! ## `repair` on concrete images -/

theorem repair_step_of_skips (tbl : List Nat) (mem : Mem) (j : Nat) (h : skips tbl mem j) :
    repair_step tbl mem j = mem := by
  unfold repair_step
  rcases h with h | h
  · rw [if_pos h]
  · by_cases h2 : j < 2
    · rw [if_pos h2]
    · rw [if_neg h2, if_neg h]

theorem fold_fixed (tbl : List Nat) (mem : Mem) (is : List Nat)
    (h : ∀ j ∈ is, repair_step tbl mem j = mem) : is.foldl (repair_step tbl) mem = mem := by
  induction is with
  | nil => rfl
  | cons j is ih =>
    rw [List.foldl_cons, h j (List.mem_cons_self _ _)]
    exact ih (fun k hk => h k (List.mem_cons_of_mem _ hk))

theorem range_split (n i : Nat) (hi : i < n) :
    List.range n = List.range i ++ i :: List.range' (i + 1) (n - i - 1) := by
  have hsplit : List.range n = List.range i ++ List.range' i (n - i) := by
    have h := List.range_add i (n - i)
    rw [Nat.add_sub_cancel' (Nat.le_of_lt hi)] at h
    rw [h, List.range'_eq_map_range]
  have htail : List.range' i (n - i) = i :: List.range' (i + 1) (n - i - 1) := by
    have : n - i = (n - i - 1) + 1 := by omega
    rw [this, List.range'_succ]
    simp
  rw [hsplit, htail]

/-- A run of `repair` in which inode `i` is the only one that is attached. -/
theorem repair_single (m : Mem) (n : Nat) (tbl : List Nat) (i : Nat)
    (hpass : get_inode_info m n (calloc n) = some tbl) (hi : i < n)
    (hbefore : ∀ j ∈ List.range i, skips tbl m j)
    (hat : ¬ i < 2 ∧ dtype m (dinode i) ≠ 0 ∧ tbl.getD i 0 = 0)
    (hafter : ∀ j ∈ List.range' (i + 1) (n - i - 1),
      skips tbl (attach m (dinode 29) i) j) :
    repair m n = some (attach m (dinode 29) i) := by
  rw [repair_eq, hpass, range_split n i hi]
  simp only []
  rw [List.foldl_append,
    fold_fixed tbl m _ (fun j hj => repair_step_of_skips tbl m j (hbefore j hj)),
    List.foldl_cons]
  have hstep : repair_step tbl m i = attach m (dinode 29) i := by
    unfold repair_step
    rw [if_neg hat.1, if_pos hat.2]
  rw [hstep, fold_fixed tbl _ _ (fun j hj => repair_step_of_skips tbl _ j (hafter j hj))]


set_option maxRecDepth 1000000 in
theorem repair_lost_found :
    repair img_lost_found 32 = some (attach img_lost_found (dinode 29) 3) :=
  repair_single img_lost_found 32 tbl_lost_found 3 (by decide) (by decide) (by decide)
    (by decide) (by decide)

set_option maxRecDepth 1000000 in
theorem repair_lf_stale :
    repair img_lf_stale 32 = some (attach img_lf_stale (dinode 29) 3) :=
  repair_single img_lf_stale 32 (tbl_base 57) 3 (by decide) (by decide) (by decide)
    (by decide) (by decide)

set_option maxRecDepth 1000000 in
theorem repair_lf_empty :
    repair img_lf_empty 32 = some (attach img_lf_empty (dinode 29) 3) :=
  repair_single img_lf_empty 32 (tbl_base 28) 3 (by decide) (by decide) (by decide)
    (by decide) (by decide)

set_option maxRecDepth 1000000 in
theorem repair_lf_file :
    repair img_lf_file 32 = some (attach img_lf_file (dinode 29) 3) :=
  repair_single img_lf_file 32 (tbl_base 28) 3 (by decide) (by decide) (by decide)
    (by decide) (by decide)


set_option maxRecDepth 1000000 in
/-- C16, as stated, fails: in `img_lf_stale` inode 29 is a directory whose block holds 30
vacant dirents, inode 3 is the only orphan, and after `repair` (which stores 3 in the
vacant dirent named `..`) the recomputed reference pass still gives the in-use inode 3
the count 0. -/
theorem C16_counterexample :
    sb_ninodes img_lf_stale = 32 ∧ dtype img_lf_stale (dinode 29) = T_DIR ∧
    get_inode_info img_lf_stale 32 (calloc 32) = some (tbl_base 57) ∧
    orphans img_lf_stale (tbl_base 57) 32 = [3] ∧
    (lf_vacant img_lf_stale img_lf_stale).length = 30 ∧
    repair img_lf_stale 32 = some (attach img_lf_stale (dinode 29) 3) ∧
    dtype (attach img_lf_stale (dinode 29) 3) (dinode 3) ≠ 0 ∧
    get_inode_info (attach img_lf_stale (dinode 29) 3) 32 (calloc 32) = some (tbl_base 57) ∧
    (tbl_base 57).getD 3 0 = 0 :=
  ⟨by decide, by decide, by decide, by decide, by decide, repair_lf_stale, by decide,
    by decide, by decide⟩

set_option maxRecDepth 1000000 in
/-- C16, amended: the hypotheses hold for `img_lost_found`. -/
theorem C16_repair_round_trip_witness :
    (29 < 32 ∧ 32 ≤ 65536 ∧ dtype img_lost_found (dinode 29) = T_DIR ∧
      get_inode_info img_lost_found 32 (calloc 32) = some tbl_lost_found ∧
      (∀ b ∈ lf_blocks img_lost_found, dinode 32 ≤ blk b) ∧
      (∀ i, i < 32 → dtype img_lost_found (dinode i) = T_DIR →
        addrs img_lost_found (dinode i) NDIRECT ≠ 0 →
        ∀ b ∈ lf_blocks img_lost_found,
          blk (addrs img_lost_found (dinode i) NDIRECT) ≠ blk b) ∧
      (∀ d ∈ lf_slots img_lost_found, d_inum img_lost_found d = 0 →
        counted img_lost_found d = true) ∧
      (orphans img_lost_found tbl_lost_found 32).length ≤
        (lf_vacant img_lost_found img_lost_found).length) ∧
    ∃ m' tbl', repair img_lost_found 32 = some m' ∧
      get_inode_info m' 32 (calloc 32) = some tbl' ∧
      ∀ i, 2 ≤ i → i < 32 → dtype m' (dinode i) ≠ 0 → tbl'.getD i 0 ≥ 1 :=
  ⟨⟨by decide, by decide, by decide, by decide, by decide, by decide, by decide, by decide⟩,
    C16_repair_round_trip img_lost_found 32 tbl_lost_found (by decide) (by decide) (by decide)
      (by decide) (by decide) (by decide) (by decide) (by decide)⟩

set_option maxRecDepth 1000000 in
/-- C17: on `img_lf_empty`, where the directory inode 29 has only zero address slots and
inode 3 is an orphan, `repair` stores 3 in the first two bytes of block 0: the slot
holding 0 is taken as the address of block 0. -/
theorem C17_repair_writes_block_zero :
    sb_ninodes img_lf_empty = 32 ∧ dtype img_lf_empty (dinode 29) = T_DIR ∧
    (∀ j, j < NDIRECT → addrs img_lf_empty (dinode 29) j = 0) ∧
    rd16 img_lf_empty 0 = 0 ∧
    repair img_lf_empty 32 = some (attach img_lf_empty (dinode 29) 3) ∧
    rd16 (attach img_lf_empty (dinode 29) 3) 0 = 3 ∧
    (1 : Nat) < BSIZE :=
  ⟨by decide, by decide, by decide, by decide, repair_lf_empty, by decide, by decide⟩

set_option maxRecDepth 1000000 in
/-- C18, as stated, fails: in `img_lf_file` inode 29 is a regular file, and `repair`
returns an image in which the third dirent of block 9, vacant before, holds the orphan 3:
it neither fails nor leaves the image as it was. -/
theorem C18_counterexample :
    sb_ninodes img_lf_file = 32 ∧ dtype img_lf_file (dinode 29) ≠ T_DIR ∧
    d_inum img_lf_file (dent 9 2) = 0 ∧
    repair img_lf_file 32 = some (attach img_lf_file (dinode 29) 3) ∧
    d_inum (attach img_lf_file (dinode 29) 3) (dent 9 2) = 3 :=
  ⟨by decide, by decide, by decide, repair_lf_file, by decide⟩

/-- C18, amended: `repair` has no failing result.  Whenever the reference pass completes
it returns an image, whatever the type of inode 29; and when none of the dirents of the
twelve blocks that the direct slots of inode 29 name has inum 0, the image it returns is
the image it was given. -/
theorem C18_repair_never_fails (m : Mem) (n : Nat) (tbl : List Nat)
    (hpass : get_inode_info m n (calloc n) = some tbl) :
    (∃ m', repair m n = some m') ∧
    ((∀ j, j < NDIRECT → ∀ k, k < DPB →
        d_inum m (dent (addrs m (dinode 29) j) k) ≠ 0) → repair m n = some m) := by
  constructor
  · exact ⟨_, by rw [repair_eq, hpass]⟩
  · intro hfull
    rw [repair_eq, hpass]
    simp only []
    rw [fold_fixed tbl m (List.range n)]
    intro j _
    unfold repair_step
    by_cases h2 : j < 2
    · rw [if_pos h2]
    · rw [if_neg h2]
      by_cases hc : dtype m (dinode j) ≠ 0 ∧ tbl.getD j 0 = 0
      · rw [if_pos hc]
        exact attach_none m (dinode 29) j hfull
      · rw [if_neg hc]

set_option maxRecDepth 1000000 in
/-- C18, amended: the hypothesis holds for `img_lf_file`. -/
theorem C18_repair_never_fails_witness :
    get_inode_info img_lf_file 32 (calloc 32) = some (tbl_base 28) ∧
    ((∃ m', repair img_lf_file 32 = some m') ∧
    ((∀ j, j < NDIRECT → ∀ k, k < DPB →
        d_inum img_lf_file (dent (addrs img_lf_file (dinode 29) j) k) ≠ 0) →
      repair img_lf_file 32 = some img_lf_file)) :=
  ⟨by decide, C18_repair_never_fails img_lf_file 32 (tbl_base 28) (by decide)⟩

set_option maxRecDepth 1000000 in
/-- C19: the hypothesis holds for `img_wrong_parent`. -/
theorem C19_get_inode_info_witness :
    (∀ d ∈ ref_slots img_wrong_parent 8, d_inum img_wrong_parent d < 8) ∧
    ∃ ref_count, get_inode_info img_wrong_parent 8 (calloc 8) = some ref_count ∧
      ref_count.length = 8 ∧
      ∀ i, i < 8 → ref_count.getD i 0 =
        (ref_slots img_wrong_parent 8).countP
          (fun d => !(isDot img_wrong_parent d || isDotDot img_wrong_parent d) &&
            d_inum img_wrong_parent d == i) :=
  ⟨by decide, C19_get_inode_info img_wrong_parent 8 (by decide)⟩


set_option maxRecDepth 1000000 in
/-- The scenario of a direct address equal to `size`: `check_valid_direct` returns -1 and
`main` reports `BadDirect`. -/
theorem direct_overflow_rejected :
    addrs img_direct_overflow (dinode 2) 0 = sb_size img_direct_overflow ∧
    check_valid_direct img_direct_overflow (dinode 2) (sb_size img_direct_overflow) = -1 ∧
    main img_direct_overflow = .error .BadDirect := by
  decide

set_option maxRecDepth 1000000 in
/-- The scenario of an orphan inode: `main` reports `InodeUsedNotInDir` on
`img_lost_found` and returns 0 on the image `repair` makes of it. -/
theorem orphan_repaired :
    main img_lost_found = .error .InodeUsedNotInDir ∧
    repair img_lost_found 32 = some (attach img_lost_found (dinode 29) 3) ∧
    main (attach img_lost_found (dinode 29) 3) = .exit0 :=
  ⟨by decide, repair_lost_found, by decide⟩

/-! ## The bitmap test and the table of check 6 -/

theorem testBit_iff_shift_and (byte k : Nat) :
    byte.testBit k = true ↔ (byte >>> k) &&& 1 = 1 := by
  rw [Nat.testBit_to_div_mod, decide_eq_true_eq, Nat.shiftRight_eq_div_pow, Nat.and_one_is_mod]

/-- C21: `CHECKBIT(bm, b)` is true exactly when `(bm[b / 8] >> (b % 8)) & 1` is 1, the
byte `bm[b / 8]` being taken as a value in 0..255; and for every byte value below 256,
those from 128 on (negative as a `char`) included, and every bit position below 8 the
expression of the macro is positive exactly when that bit of the byte is 1. -/
theorem C21_CHECKBIT (m : Mem) (bm b : Nat) :
    (CHECKBIT m bm b = true ↔ (rd8 m (bm + b / 8) >>> (b % 8)) &&& 1 = 1) ∧
    rd8 m (bm + b / 8) < 256 ∧
    (∀ byte, byte < 256 → ∀ k, k < 8 →
      (0 < toInt32 (promote_char byte &&& (1 <<< k)) ↔ (byte >>> k) &&& 1 = 1)) := by
  refine ⟨?_, rd8_lt m _, ?_⟩
  · rw [CHECKBIT_eq]
    exact testBit_iff_shift_and _ _
  · intro byte hb k hk
    rw [← testBit_iff_shift_and, ← checkbit_byte byte hb k hk, decide_eq_true_eq]

/-- Check 6 stays inside the table of `nblocks` cells exactly when every address referred
to by an inode of non-zero type is below `nblocks`. -/
theorem check6_in_range_iff (m : Mem) (db1 : Nat) :
    check_valid_blocks_in_bitmap m db1 (calloc (sb_nblocks m)) ≠ none ↔
      ∀ a ∈ U_seq m (sb_ninodes m), a < sb_nblocks m := by
  constructor
  · intro h
    by_contra hn
    exact h (check6_fault m db1 hn)
  · intro h
    obtain ⟨r, hr, _⟩ := check6_ok m db1 h
    rw [hr]
    exact Option.some_ne_none r

set_option maxRecDepth 1000000 in
/-- C22: on the image `img_high_block` (`size = 16`, `nblocks = 11`) every inode of
non-zero type passes checks 2A and 2B and refers only to addresses below `size`, and the
first loop of `main` finds no error; yet the root inode holds the address 12, the store
`used_datablocks[12] = 1` of `find_used_datablocks` lies past the end of the table of
`nblocks = 11` cells, and check 6 and `main` end in that out-of-range store. -/
theorem C22_table_write_past_end :
    sb_size img_high_block = 16 ∧ sb_nblocks img_high_block = 11 ∧
    (∀ i, i < sb_ninodes img_high_block → dtype img_high_block (dinode i) ≠ 0 →
      check_valid_direct img_high_block (dinode i) (sb_size img_high_block) = 0 ∧
      check_valid_indirect img_high_block (dinode i) (sb_size img_high_block) = 0 ∧
      ∀ a ∈ refs img_high_block (dinode i), a < sb_size img_high_block) ∧
    loop (fun _ i => per_inode img_high_block i)
      (List.range (sb_ninodes img_high_block)) () = Step.next () ∧
    dtype img_high_block (dinode 1) = T_DIR ∧
    addrs img_high_block (dinode 1) 0 = 12 ∧
    sb_nblocks img_high_block ≤ 12 ∧
    store (calloc (sb_nblocks img_high_block)) 12 1 = none ∧
    find_used_datablocks img_high_block (dinode 1)
      (calloc (sb_nblocks img_high_block)) = none ∧
    check_valid_blocks_in_bitmap img_high_block (first_data_block img_high_block)
      (calloc (sb_nblocks img_high_block)) = none ∧
    main img_high_block = Outcome.fault := by
  decide

end Fsck
